import Mathlib

/-!
# Grid path-finding engine of `maze.js`

A shallow embedding of the search engine of `src/maze.js`: the grid model and
`neighbors`, the array-backed binary heap `PriorityQueue`, the path
reconstructor `reconstruct`, the four generator functions `bfsGen`, `dfsGen`,
`greedyGen`, `astarGen`, and the `Runner` that drives one of them a step at a
time.

Modelling conventions.

* Coordinates are JavaScript integers; they are `Int` here, so that the
  `ny >= 0` test of `neighbors` is meaningful.
* The coordinate key `y + "," + x` is modelled by the pair `(y, x)`; decimal
  printing of integers is injective, and `reconstruct` only ever splits a key
  back into its two numbers.
* A JavaScript `Set` is the list of its elements in insertion order, a `Map`
  the list of its entries in insertion order.
* The global `grid` is a `rows` by `cols` array of cells; it is represented by
  its lookup function on row and column indices.
* A generator is a state machine: `GenState.next` runs the body from the point
  where it was suspended up to the following `yield` or `return`.
* Loops that JavaScript runs without a bound carry a fuel argument; running out
  of fuel is the result `none`.
-/

namespace Maze

/-! ## Grid model -/

/-- A key of a `Set` or `Map`: the pair `(y, x)` standing for the string `y,x`. -/
abbrev Key := Int × Int

/-- An object `{y, x}`. -/
structure Pos where
  y : Int
  x : Int
deriving DecidableEq, Repr

/-- The constant `CELL.EMPTY`. -/
def CELL.EMPTY : Nat := 0

/-- The constant `CELL.WALL`. -/
def CELL.WALL : Nat := 1

/-- The globals read by the search: `rows`, `cols`, `grid`, `start`, `goal`.
`type y x` is `grid[y][x].type`. -/
structure World where
  rows : Nat
  cols : Nat
  type : Nat → Nat → Nat
  start : Pos
  goal : Pos

/-- The function `makeGrid(r, c)`: an all-empty grid with the default start and goal. -/
def makeGrid (r c : Nat) : World :=
  { rows := r, cols := c, type := fun _ _ => CELL.EMPTY,
    start := ⟨(r / 2 : Nat), (c / 4 : Nat)⟩,
    goal := ⟨(r / 2 : Nat), (c * 3 / 4 : Nat)⟩ }

/-- The arrow function `key`. -/
def key (y x : Int) : Key := (y, x)

/-- The arrow function `manhattan`. -/
def manhattan (a b : Pos) : Int := |a.x - b.x| + |a.y - b.y|

/-- The array `dirs` of `neighbors`. -/
def dirs : List (Int × Int) := [(1, 0), (-1, 0), (0, 1), (0, -1)]

/-- The function `neighbors(y, x)`: the in-bounds, non-wall cells among the four
cells next to `(y, x)`, in the order of `dirs`. -/
def neighbors (w : World) (y x : Int) : List Pos :=
  dirs.filterMap fun d =>
    let ny := y + d.1
    let nx := x + d.2
    if ny ≥ 0 ∧ ny < w.rows ∧ nx ≥ 0 ∧ nx < w.cols ∧ w.type ny.toNat nx.toNat ≠ CELL.WALL
    then some ⟨ny, nx⟩ else none

/-! ## Sets and maps -/

/-- The method `Set.has`. -/
def setHas (s : List Key) (k : Key) : Bool := decide (k ∈ s)

/-- The method `Set.add`. -/
def setAdd (s : List Key) (k : Key) : List Key := if k ∈ s then s else s ++ [k]

/-- The method `Map.get`; `none` is `undefined`. -/
def mapGet {V : Type} : List (Key × V) → Key → Option V
  | [], _ => none
  | (k', v) :: m, k => if k' = k then some v else mapGet m k

/-- The method `Map.has`. -/
def mapHas {V : Type} (m : List (Key × V)) (k : Key) : Bool := (mapGet m k).isSome

/-- The method `Map.set`: an existing entry is overwritten in place, a new one is appended. -/
def mapSet {V : Type} : List (Key × V) → Key → V → List (Key × V)
  | [], k, v => [(k, v)]
  | (k', v') :: m, k, v => if k' = k then (k, v) :: m else (k', v') :: mapSet m k v

/-! ## Priority queue -/

namespace PriorityQueue

variable {α : Type}

/-- The destructuring swap of `a[i]` and `a[j]`. -/
def swap (a : List α) (i j : Nat) : List α :=
  match a[i]?, a[j]? with
  | some x, some y => (a.set i y).set j x
  | _, _ => a

/-- The test `c(a[i], a[j]) < 0`. -/
def less (c : α → α → Int) (a : List α) (i j : Nat) : Bool :=
  match a[i]?, a[j]? with
  | some x, some y => decide (c x y < 0)
  | _, _ => false

/-- The method `_up(i)`. Each round moves `i` to its parent, so `i` rounds are enough;
the first argument bounds the number of rounds. -/
def _up (c : α → α → Int) : Nat → List α → Nat → List α
  | 0, a, _ => a
  | fuel + 1, a, i =>
    if i > 0 then
      let p := (i - 1) / 2
      if less c a i p then _up c fuel (swap a i p) p else a
    else a

/-- The method `_down(i)`. Each round moves `i` to one of its children, so
`a.length` rounds are enough; the first argument bounds the number of rounds. -/
def _down (c : α → α → Int) : Nat → List α → Nat → List α
  | 0, a, _ => a
  | fuel + 1, a, i =>
    let l := i * 2 + 1
    let r := l + 1
    let m := i
    let m := if l < a.length ∧ less c a l m then l else m
    let m := if r < a.length ∧ less c a r m then r else m
    if m = i then a else _down c fuel (swap a i m) m

/-- The method `push(v)` on the backing array `a`. -/
def push (c : α → α → Int) (a : List α) (v : α) : List α :=
  _up c a.length (a ++ [v]) a.length

/-- The method `pop()` on the backing array `a`: the returned value (`none` is
`undefined`) and the array afterwards. -/
def pop (c : α → α → Int) (a : List α) : Option α × List α :=
  match a.head?, a.getLast? with
  | some top, some v =>
    let a := a.dropLast
    if a.length ≠ 0 then (some top, _down c a.length (a.set 0 v) 0) else (some top, a)
  | _, _ => (none, a)

end PriorityQueue

/-! ## Path reconstruction -/

/-- The loop of `reconstruct`: `p` is the array built so far, `cur` the current key.
The result is the state `(p, cur)` in which the loop is left. -/
def reconstructLoop (came : List (Key × Key)) :
    Nat → Key → List Pos → Option (List Pos × Key)
  | 0, _, _ => none
  | fuel + 1, cur, p =>
    match mapGet came cur with
    | some nxt => reconstructLoop came fuel nxt (p ++ [⟨cur.1, cur.2⟩])
    | none => some (p, cur)

/-- The function `reconstruct(came, end)`, with a bound on the rounds of its loop. -/
def reconstruct (fuel : Nat) (came : List (Key × Key)) (e : Pos) : Option (List Pos) :=
  (reconstructLoop came fuel (key e.y e.x) []).map fun r => r.1.reverse

/-! ## The four search generators -/

/-- An entry `{y, x, h}` of the greedy queue. -/
structure HNode where
  y : Int
  x : Int
  h : Int
deriving DecidableEq, Repr

/-- An entry `{y, x, f}` of the A* queue. -/
structure FNode where
  y : Int
  x : Int
  f : Int
deriving DecidableEq, Repr

/-- The comparator `(a, b) => a.h - b.h`. -/
def cmpH (a b : HNode) : Int := a.h - b.h

/-- The comparator `(a, b) => a.f - b.f`. -/
def cmpF (a b : FNode) : Int := a.f - b.f

/-- The coordinates of a greedy queue entry, as the renderer reads them. -/
def HNode.pos (e : HNode) : Pos := ⟨e.y, e.x⟩

/-- The coordinates of an A* queue entry, as the renderer reads them. -/
def FNode.pos (e : FNode) : Pos := ⟨e.y, e.x⟩

/-- The locals of `bfsGen`. -/
structure BfsLocals where
  q : List Pos
  seen : List Key
  came : List (Key × Key)
deriving DecidableEq, Repr

/-- The locals of `dfsGen`. -/
structure DfsLocals where
  st : List Pos
  seen : List Key
  came : List (Key × Key)
deriving DecidableEq, Repr

/-- The locals of `greedyGen`; `pq` is the backing array of the queue. -/
structure GreedyLocals where
  pq : List HNode
  seen : List Key
  came : List (Key × Key)
deriving DecidableEq, Repr

/-- The locals of `astarGen`; `pq` is the backing array of the queue. -/
structure AstarLocals where
  g : List (Key × Nat)
  came : List (Key × Key)
  pq : List FNode
  seen : List Key
deriving DecidableEq, Repr

/-- The keys of the object `generators`. -/
inductive Kind where
  | bfs | dfs | greedy | astar
deriving DecidableEq, Repr

/-- The state of a generator object. -/
inductive GenState where
  | fresh (k : Kind)
  | bfs (l : BfsLocals)
  | dfs (l : DfsLocals)
  | greedy (l : GreedyLocals)
  | astar (l : AstarLocals)
  | finished
deriving DecidableEq, Repr

/-- The value of a `yield` or `return`: an object with some of the fields
`frontier`, `closed`, `came`. For `came`, `none` is `null` or a missing field. The
entries of `frontier` are kept as coordinates: nothing outside a generator reads the
priority of a queue entry. -/
structure Snapshot where
  frontier : Option (List Pos) := none
  closed : Option (List Key) := none
  came : Option (List (Key × Key)) := none
deriving DecidableEq, Repr

/-- The result `{value, done}` of `next()`. -/
structure IterResult where
  value : Option Snapshot
  done : Bool
deriving DecidableEq, Repr

/-- The body of the `for` loop of `bfsGen` for one neighbour `n` of `v`. -/
def bfsVisit (v : Pos) (l : BfsLocals) (n : Pos) : BfsLocals :=
  let k := key n.y n.x
  if ¬ setHas l.seen k then
    { q := l.q ++ [n], seen := setAdd l.seen k, came := mapSet l.came k (key v.y v.x) }
  else l

/-- One round of the `while` loop of `bfsGen`, from its test to the `yield` or `return`. -/
def bfsIter (w : World) (l : BfsLocals) : GenState × IterResult :=
  match l.q with
  | [] => (.finished, ⟨some { came := none, closed := some l.seen }, true⟩)
  | v :: q =>
    if v.y = w.goal.y ∧ v.x = w.goal.x then (.finished, ⟨some { came := some l.came }, true⟩)
    else
      let l := (neighbors w v.y v.x).foldl (bfsVisit v) { l with q := q }
      (.bfs l, ⟨some { frontier := some l.q, closed := some l.seen, came := some l.came }, false⟩)

/-- The statements of `bfsGen` before its loop. -/
def bfsInit (w : World) : BfsLocals :=
  { q := [w.start], seen := [key w.start.y w.start.x], came := [] }

/-- The body of the `for` loop of `dfsGen` for one neighbour `n` of `v`. -/
def dfsVisit (v : Pos) (l : DfsLocals) (n : Pos) : DfsLocals :=
  let k := key n.y n.x
  if ¬ setHas l.seen k then
    { st := l.st ++ [n], seen := setAdd l.seen k, came := mapSet l.came k (key v.y v.x) }
  else l

/-- One round of the `while` loop of `dfsGen`. -/
def dfsIter (w : World) (l : DfsLocals) : GenState × IterResult :=
  match l.st.getLast? with
  | none => (.finished, ⟨some { came := none, closed := some l.seen }, true⟩)
  | some v =>
    if v.y = w.goal.y ∧ v.x = w.goal.x then (.finished, ⟨some { came := some l.came }, true⟩)
    else
      let l := (neighbors w v.y v.x).foldl (dfsVisit v) { l with st := l.st.dropLast }
      (.dfs l, ⟨some { frontier := some l.st, closed := some l.seen, came := some l.came }, false⟩)

/-- The statements of `dfsGen` before its loop. -/
def dfsInit (w : World) : DfsLocals :=
  { st := [w.start], seen := [key w.start.y w.start.x], came := [] }

/-- The body of the `for` loop of `greedyGen` for one neighbour `n` of `v`. -/
def greedyVisit (w : World) (v : Pos) (l : GreedyLocals) (n : Pos) : GreedyLocals :=
  let k := key n.y n.x
  if ¬ setHas l.seen k then
    { pq := PriorityQueue.push cmpH l.pq ⟨n.y, n.x, manhattan n w.goal⟩,
      seen := setAdd l.seen k, came := mapSet l.came k (key v.y v.x) }
  else l

/-- One round of the `while` loop of `greedyGen`. -/
def greedyIter (w : World) (l : GreedyLocals) : GenState × IterResult :=
  match PriorityQueue.pop cmpH l.pq with
  | (none, _) => (.finished, ⟨some { came := none, closed := some l.seen }, true⟩)
  | (some v, pq) =>
    if v.y = w.goal.y ∧ v.x = w.goal.x then (.finished, ⟨some { came := some l.came }, true⟩)
    else
      let l := (neighbors w v.y v.x).foldl (greedyVisit w v.pos) { l with pq := pq }
      (.greedy l,
        ⟨some { frontier := some (l.pq.map HNode.pos), closed := some l.seen,
                came := some l.came }, false⟩)

/-- The statements of `greedyGen` before its loop. -/
def greedyInit (w : World) : GreedyLocals :=
  { pq := PriorityQueue.push cmpH [] ⟨w.start.y, w.start.x, manhattan w.start w.goal⟩,
    seen := [key w.start.y w.start.x], came := [] }

/-- The body of the `for` loop of `astarGen` for one neighbour `n` of `v`. -/
def astarVisit (w : World) (v : Pos) (l : AstarLocals) (n : Pos) : AstarLocals :=
  let vk := key v.y v.x
  let nk := key n.y n.x
  let tentative := (mapGet l.g vk).getD 0 + 1
  if ¬ mapHas l.g nk ∨ tentative < (mapGet l.g nk).getD 0 then
    { g := mapSet l.g nk tentative, came := mapSet l.came nk vk,
      pq := PriorityQueue.push cmpF l.pq ⟨n.y, n.x, (tentative : Int) + manhattan n w.goal⟩,
      seen := l.seen }
  else l

/-- One round of the `while` loop of `astarGen`. -/
def astarIter (w : World) (l : AstarLocals) : GenState × IterResult :=
  match PriorityQueue.pop cmpF l.pq with
  | (none, _) => (.finished, ⟨some { came := none, closed := some l.seen }, true⟩)
  | (some v, pq) =>
    let vk := key v.y v.x
    if setHas l.seen vk then
      (.astar { l with pq := pq },
        ⟨some { frontier := some (pq.map FNode.pos), closed := some l.seen,
                came := some l.came }, false⟩)
    else
      let l := { l with pq := pq, seen := setAdd l.seen vk }
      if v.y = w.goal.y ∧ v.x = w.goal.x then (.finished, ⟨some { came := some l.came }, true⟩)
      else
        let l := (neighbors w v.y v.x).foldl (astarVisit w v.pos) l
        (.astar l,
          ⟨some { frontier := some (l.pq.map FNode.pos), closed := some l.seen,
                  came := some l.came }, false⟩)

/-- The statements of `astarGen` before its loop. -/
def astarInit (w : World) : AstarLocals :=
  { g := [(key w.start.y w.start.x, 0)], came := [],
    pq := PriorityQueue.push cmpF [] ⟨w.start.y, w.start.x, manhattan w.start w.goal⟩,
    seen := [] }

/-- The object `generators`: calling an entry creates a generator that has not run yet. -/
def generators (kind : Kind) : GenState := .fresh kind

/-- The method `next()` of a generator object. -/
def GenState.next (w : World) : GenState → GenState × IterResult
  | .fresh .bfs => bfsIter w (bfsInit w)
  | .fresh .dfs => dfsIter w (dfsInit w)
  | .fresh .greedy => greedyIter w (greedyInit w)
  | .fresh .astar => astarIter w (astarInit w)
  | .bfs l => bfsIter w l
  | .dfs l => dfsIter w l
  | .greedy l => greedyIter w l
  | .astar l => astarIter w l
  | .finished => (.finished, ⟨none, true⟩)

/-- Calling `next()` until it reports `done`, at most `fuel` times: the final result. -/
def drain (w : World) : Nat → GenState → Option IterResult
  | 0, _ => none
  | fuel + 1, s =>
    let r := s.next w
    if r.2.done then some r.2 else drain w fuel r.1

/-! ## Runner -/

/-- The field `state` of a `Runner`. -/
structure RunnerState where
  frontierArr : List Pos
  closed : List Key
  came : List (Key × Key)
  path : Option (List Pos)
deriving DecidableEq, Repr

/-- The class `Runner`. The field `startTime` only feeds the elapsed-time display
and is left out. -/
structure Runner where
  kind : Kind
  iter : GenState
  done : Bool
  state : RunnerState
  expanded : Nat
deriving DecidableEq, Repr

/-- The constructor of `Runner`. -/
def Runner.new (kind : Kind) : Runner :=
  { kind := kind, iter := generators kind, done := false,
    state := { frontierArr := [], closed := [], came := [], path := none },
    expanded := 0 }

/-- The method `step()`. The loop of `reconstruct` gets one round more than the map
has entries; `none` stands for a call that does not return. -/
def Runner.step (w : World) (r : Runner) : Option Runner :=
  if r.done then some r
  else
    let res := r.iter.next w
    let r1 : Runner :=
      match res.2.value with
      | some st =>
        let state : RunnerState :=
          { frontierArr := st.frontier.getD [],
            closed := st.closed.getD r.state.closed,
            came := st.came.getD r.state.came,
            path := r.state.path }
        { r with iter := res.1, state := state, expanded := state.closed.length }
      | none => { r with iter := res.1 }
    if res.2.done then
      match res.2.value.bind Snapshot.came with
      | some came =>
        (reconstruct (came.length + 1) came w.goal).map fun p =>
          { r1 with done := true, state := { r1.state with path := some p } }
      | none => some { r1 with done := true, state := { r1.state with path := none } }
    else some r1

/-- Calling `step()` `n` times in a row. -/
def Runner.steps (w : World) : Nat → Runner → Option Runner
  | 0, r => some r
  | n + 1, r => (Runner.step w r).bind (Runner.steps w n)

/-! ## Example grids -/

/-- The 5 by 5 grid without walls, start `(2,0)`, goal `(2,4)`. -/
def open5 : World :=
  { rows := 5, cols := 5, type := fun _ _ => CELL.EMPTY, start := ⟨2, 0⟩, goal := ⟨2, 4⟩ }

/-- The 5 by 5 grid whose column 2 is blocked except at row 0. -/
def wall5 : World :=
  { rows := 5, cols := 5, type := fun y x => if x = 2 ∧ 1 ≤ y then CELL.WALL else CELL.EMPTY,
    start := ⟨2, 0⟩, goal := ⟨2, 4⟩ }

/-- A 2 by 2 grid without walls whose start lies above the grid. -/
def oob2 : World :=
  { rows := 2, cols := 2, type := fun _ _ => CELL.EMPTY, start := ⟨-1, 0⟩, goal := ⟨0, 1⟩ }

/-- A grid of one row and two cells whose goal cell is a wall. -/
def goalWall : World :=
  { rows := 1, cols := 2, type := fun _ x => if x = 1 then CELL.WALL else CELL.EMPTY,
    start := ⟨0, 0⟩, goal := ⟨0, 1⟩ }

/-- A grid of one row and three cells whose start cell is a wall. -/
def startWall : World :=
  { rows := 1, cols := 3, type := fun _ x => if x = 0 then CELL.WALL else CELL.EMPTY,
    start := ⟨0, 0⟩, goal := ⟨0, 2⟩ }

/-- The runner of a breadth-first search on `open5` after 30 steps. -/
def open5Final : Runner := (Runner.steps open5 30 (Runner.new .bfs)).getD (Runner.new .bfs)

/-- The map `came` that a search of kind `k` on `w` returns within `n` rounds,
empty if it returns none. -/
def cameOf (w : World) (k : Kind) (n : Nat) : List (Key × Key) :=
  (((drain w n (generators k)).bind IterResult.value).bind Snapshot.came).getD []

/-! ## Specification notions -/

/-- A comparator in the sense of the heap: its sign is antisymmetric and
"not greater" is transitive, so that `c a b ≤ 0` is a total preorder. -/
structure TotalPreorderCmp {α : Type} (c : α → α → Int) : Prop where
  flip : ∀ a b, c a b < 0 ↔ 0 < c b a
  trans : ∀ a b d, c a b ≤ 0 → c b d ≤ 0 → c a d ≤ 0

/-- Heap order of a backing array: every entry is not less than its parent,
`a[parent(i)] <= a[i]` with `parent(i) = (i - 1) >> 1`. -/
def IsHeap {α : Type} (c : α → α → Int) (a : List α) : Prop :=
  ∀ i x y, 0 < i → a[i]? = some x → a[(i - 1) / 2]? = some y → c y x ≤ 0

/-- An operation on a priority queue. -/
inductive PQOp (α : Type) where
  | push (v : α)
  | pop

/-- The backing array after a sequence of operations on the array `a`. -/
def runOps {α : Type} (c : α → α → Int) : List (PQOp α) → List α → List α
  | [], a => a
  | .push v :: ops, a => runOps c ops (PriorityQueue.push c a v)
  | .pop :: ops, a => runOps c ops (PriorityQueue.pop c a).2

/-- The key of the start cell. -/
def World.skey (w : World) : Key := key w.start.y w.start.x

/-- The key of the goal cell. -/
def World.gkey (w : World) : Key := key w.goal.y w.goal.x

/-- The object `{y, x}` that `reconstruct` parses out of a key. -/
def Pos.ofKey (k : Key) : Pos := ⟨k.1, k.2⟩

/-- The key of an object `{y, x}`. -/
def Pos.key (p : Pos) : Key := Maze.key p.y p.x

/-- A coordinate that is inside the grid. -/
def InBounds (w : World) (k : Key) : Prop :=
  0 ≤ k.1 ∧ k.1 < w.rows ∧ 0 ≤ k.2 ∧ k.2 < w.cols

/-- A cell a move may enter: inside the grid and not a wall. -/
def Passable (w : World) (k : Key) : Prop :=
  InBounds w k ∧ w.type k.1.toNat k.2.toNat ≠ CELL.WALL

/-- Two coordinates that differ by exactly 1 in exactly one component. -/
def Adjacent (a b : Key) : Prop :=
  (a.1 = b.1 ∧ |a.2 - b.2| = 1) ∨ (a.2 = b.2 ∧ |a.1 - b.1| = 1)

/-- One 4-directional move from `a` into the passable cell `b`. -/
def Move (w : World) (a b : Key) : Prop := Adjacent a b ∧ Passable w b

instance (w : World) (k : Key) : Decidable (InBounds w k) := by
  unfold InBounds; infer_instance

instance (w : World) (k : Key) : Decidable (Passable w k) := by
  unfold Passable; infer_instance

instance (a b : Key) : Decidable (Adjacent a b) := by
  unfold Adjacent; infer_instance

instance (w : World) (a b : Key) : Decidable (Move w a b) := by
  unfold Move; infer_instance

/-- `Walk w a b n`: `b` is reached from `a` by `n` moves. -/
inductive Walk (w : World) (a : Key) : Key → Nat → Prop where
  | nil : Walk w a a 0
  | snoc {b c : Key} {n : Nat} : Walk w a b n → Move w b c → Walk w a c (n + 1)

/-- The goal is reachable from the start by moves. -/
def Reachable (w : World) : Prop := ∃ n, Walk w w.skey w.gkey n

/-- `d` is the minimum number of moves from the start to the goal. -/
def ShortestLen (w : World) (d : Nat) : Prop :=
  Walk w w.skey w.gkey d ∧ ∀ m, Walk w w.skey w.gkey m → d ≤ m

/-- The keys of a path, preceded by the key of the start. -/
def routeKeys (w : World) (p : List Pos) : List Key := w.skey :: p.map Pos.key

/-- A path as `reconstruct` returns it, read forward from the start: every cell
is entered by a move from the cell before it, the first one from the start. -/
def IsRoute (w : World) (p : List Pos) : Prop := List.Chain (Move w) w.skey (p.map Pos.key)

/-- The last key of a route: the last cell of the path, the start if the path is empty. -/
def routeEnd (w : World) (p : List Pos) : Key := (routeKeys w p).getLast (by simp [routeKeys])

/-- The path `p` is what the backward walk over `came` from the goal collects: the
loop of `reconstruct` stops, within one round more than `came` has entries, at the key
`stop` with the array `p` reversed. -/
def WalksBack (w : World) (came : List (Key × Key)) (p : List Pos) (stop : Key) : Prop :=
  reconstructLoop came (came.length + 1) w.gkey [] = some (p.reverse, stop)

/-! ## Invariants of the searches that mark a cell when it is queued -/

/-- The keys of all cells of the grid. -/
def allCells (w : World) : List Key :=
  (List.range w.rows).flatMap fun (y : Nat) =>
    (List.range w.cols).map fun (x : Nat) => (Int.ofNat y, Int.ofNat x)

/-- The invariant shared by `bfsGen`, `dfsGen` and `greedyGen`, on the keys `fr` of
the frontier, the set `seen` and the map `came`; `lvl` is the depth of a key in the
tree that `came` describes. -/
structure SInv (w : World) (lvl : Key → Nat) (fr seen : List Key) (came : List (Key × Key)) :
    Prop where
  start_seen : w.skey ∈ seen
  lvl_start : lvl w.skey = 0
  fr_seen : ∀ k ∈ fr, k ∈ seen
  came_iff : ∀ k, mapGet came k ≠ none ↔ (k ∈ seen ∧ k ≠ w.skey)
  came_ok : ∀ k v, mapGet came k = some v → v ∈ seen ∧ Move w v k ∧ lvl k = lvl v + 1
  closed : ∀ k ∈ seen, k ∈ fr ∨ ∀ n, Move w k n → n ∈ seen
  goal_fr : w.gkey ∈ seen → w.gkey ∈ fr
  nodup : seen.Nodup
  univ : ∀ k ∈ seen, k = w.skey ∨ Passable w k
  walk : ∀ k ∈ seen, Walk w w.skey k (lvl k)
  lvl_lt : ∀ k ∈ seen, lvl k < seen.length
  came_len : came.length + 1 = seen.length

/-- The effect of one round of the `for` loop over the neighbours of `v` on the
frontier keys, `seen` and `came`: nothing for a neighbour `n` already seen, otherwise
`n` is queued, marked and given the predecessor `v`. -/
def VisitRel (v n : Key) (s s' : List Key × List Key × List (Key × Key)) : Prop :=
  (n ∈ s.2.1 ∧ s' = s) ∨
  (n ∉ s.2.1 ∧ s'.1.Perm (n :: s.1) ∧ s'.2.1 = s.2.1 ++ [n] ∧ s'.2.2 = mapSet s.2.2 n v)

/-- What a search hands over when it found the goal: the backward walk over `came`
from the goal stops at the start key, and the path is a route from the start to the
goal without repeated cells. -/
structure RouteOK (w : World) (came : List (Key × Key)) (p : List Pos) : Prop where
  back : WalksBack w came p w.skey
  route : IsRoute w p
  ends : routeEnd w p = w.gkey
  nodup : (routeKeys w p).Nodup

/-- A correct final result of a generator: either the goal is unreachable and the
result is `{came: null, closed: seen}` with a non-empty `seen`, or the result is
`{came}` and `came` yields a route to the goal, a shortest one if `opt` is set. -/
def FinalOK (w : World) (opt : Bool) (r : IterResult) : Prop :=
  r.done = true ∧
  ((¬ Reachable w ∧ ∃ seen, seen ≠ [] ∧ r.value = some { came := none, closed := some seen }) ∨
   (∃ came p, r.value = some { came := some came } ∧ RouteOK w came p ∧
      (opt = true → ShortestLen w p.length)))

/-- The measure that drops with every round of a search that marks cells when it
queues them: the cells not yet seen plus the length of the frontier. -/
def smeasure (w : World) (fr : Nat) (seen : List Key) : Nat :=
  (w.rows * w.cols + 1 - seen.length) + fr

/-- The additional invariant of `bfsGen`: the queue is sorted by depth and spans at
most two depths, and every expanded key is no deeper than the queue and has all its
neighbours seen at most one level deeper. -/
structure BExtra (w : World) (lvl : Key → Nat) (q seen : List Key) : Prop where
  sorted : q.Pairwise (fun a b => lvl a ≤ lvl b)
  span : ∀ a ∈ q, ∀ b ∈ q, lvl b ≤ lvl a + 1
  exp_le : ∀ e ∈ seen, e ∈ q ∨ ∀ a ∈ q, lvl e ≤ lvl a
  exp_nb : ∀ e ∈ seen, e ∈ q ∨ ∀ n, Move w e n → n ∈ seen ∧ lvl n ≤ lvl e + 1

/-- The invariant of the locals of `bfsGen` at the head of its loop. -/
def BfsInv (w : World) (l : BfsLocals) : Prop :=
  ∃ lvl, SInv w lvl (l.q.map Pos.key) l.seen l.came ∧ BExtra w lvl (l.q.map Pos.key) l.seen

/-- The invariant of the locals of `dfsGen` at the head of its loop. -/
def DfsInv (w : World) (l : DfsLocals) : Prop :=
  ∃ lvl, SInv w lvl (l.st.map Pos.key) l.seen l.came

/-- The invariant of the locals of `greedyGen` at the head of its loop. -/
def GreedyInv (w : World) (l : GreedyLocals) : Prop :=
  ∃ lvl, SInv w lvl (l.pq.map fun e => e.pos.key) l.seen l.came

/-! ## Invariant of A* -/

/-- The heuristic value of a key: its Manhattan distance to the goal. -/
def hkey (w : World) (k : Key) : Int := manhattan (Pos.ofKey k) w.goal

/-- The invariant of the locals of `astarGen`. `C` lists the keys whose expansion is
complete: all of `seen` at the head of the loop, all but the key being expanded
inside the `for` loop. -/
structure AInv (w : World) (C : List Key) (l : AstarLocals) : Prop where
  g_start : mapGet l.g w.skey = some 0
  came_iff : ∀ k, mapGet l.came k ≠ none ↔ (mapGet l.g k ≠ none ∧ k ≠ w.skey)
  came_ok : ∀ k v, mapGet l.came k = some v →
    ∃ gk gv, mapGet l.g k = some gk ∧ mapGet l.g v = some gv ∧ Move w v k ∧ gv + 1 ≤ gk
  g_walk : ∀ k gk, mapGet l.g k = some gk → Walk w w.skey k gk
  opened : ∀ k gk, mapGet l.g k = some gk →
    k ∈ l.seen ∨ ∃ e ∈ l.pq, e.pos.key = k ∧ e.f = (gk : Int) + hkey w k
  closed_sub : ∀ k ∈ C, k ∈ l.seen
  closed_nb : ∀ k ∈ C, ∃ gk, mapGet l.g k = some gk ∧
    ∀ n, Move w k n → ∃ gn, mapGet l.g n = some gn ∧ gn ≤ gk + 1
  seen_g : ∀ k ∈ l.seen, mapGet l.g k ≠ none
  opt : ∀ k ∈ l.seen, ∀ gk, mapGet l.g k = some gk → ∀ m, Walk w w.skey k m → gk ≤ m
  heap : IsHeap cmpF l.pq
  pq_ok : ∀ e ∈ l.pq, ∃ ge, mapGet l.g e.pos.key = some ge ∧ (ge : Int) + hkey w e.pos.key ≤ e.f
  g_bound : ∀ k gk, mapGet l.g k = some gk → gk + 1 ≤ l.g.length
  came_len : l.came.length + 1 = l.g.length
  g_nodup : (l.g.map Prod.fst).Nodup
  g_univ : ∀ k, mapGet l.g k ≠ none → k = w.skey ∨ Passable w k
  goal_open : w.gkey ∉ l.seen

/-- The keys a search can ever hold: the start and the cells of the grid. -/
def univF (w : World) : Finset Key := insert w.skey (allCells w).toFinset

/-- The cost of a key in the measure of A*: its entry in `g`, or more than any entry
can be if it has none. -/
def gcost (w : World) (g : List (Key × Nat)) (k : Key) : Nat :=
  match mapGet g k with
  | some gk => gk
  | none => w.rows * w.cols + 2

/-- The measure that drops with every round of `astarGen`: the sum of the costs of
all keys plus the length of the queue. -/
def ameasure (w : World) (l : AstarLocals) : Nat :=
  Finset.sum (univF w) (gcost w l.g) + l.pq.length

/-! ## Invariants of a generator and of a runner -/

/-- The invariant of a generator object that can still run. -/
def GenInv (w : World) : GenState → Prop
  | .fresh _ => True
  | .bfs l => BfsInv w l
  | .dfs l => DfsInv w l
  | .greedy l => GreedyInv w l
  | .astar l => AInv w l.seen l
  | .finished => False

/-- Whether the searches of this kind return a shortest path. -/
def Kind.optimal : Kind → Bool
  | .bfs => true
  | .astar => true
  | _ => false

/-- The invariant of a `Runner`: while it runs it has no path and its generator is in
a good state; once done it has no path or a path that `came` yields. -/
def RInv (w : World) (r : Runner) : Prop :=
  (r.done = false ∧ GenInv w r.iter ∧ r.state.path = none) ∨
  (r.done = true ∧
    (r.state.path = none ∨ ∃ came p, r.state.path = some p ∧ RouteOK w came p))

/-- The grid with the cell in row `y`, column `x` made empty. -/
def World.clear (w : World) (y x : Nat) : World :=
  { w with type := fun a b => if a = y ∧ b = x then CELL.EMPTY else w.type a b }

/-- The part of the invariants that makes the start cell irrelevant as a neighbour:
the start key is in `seen`, for A* it has cost 0 in `g`. -/
def StartKept (w : World) : GenState → Prop
  | .bfs l => w.skey ∈ l.seen
  | .dfs l => w.skey ∈ l.seen
  | .greedy l => w.skey ∈ l.seen
  | .astar l => mapGet l.g w.skey = some 0
  | _ => True

end Maze

namespace Maze

/-! ## Priority queue: permutation and heap order -/

namespace PriorityQueue

variable {α : Type}

theorem swap_length (a : List α) (i j : Nat) : (swap a i j).length = a.length := by
  unfold swap
  split <;> simp

theorem swap_getElem? (a : List α) (i j k : Nat) (hi : i < a.length) (hj : j < a.length) :
    (swap a i j)[k]? = if k = j then a[i]? else if k = i then a[j]? else a[k]? := by
  unfold swap
  rw [List.getElem?_eq_getElem hi, List.getElem?_eq_getElem hj]
  simp only []
  by_cases h1 : k = j
  · subst h1
    simp [List.getElem?_set, hi, hj]
  · by_cases h2 : k = i
    · subst h2
      simp [List.getElem?_set, h1, hi, hj, Ne.symm h1]
    · simp [List.getElem?_set, h1, h2, Ne.symm h1, Ne.symm h2]

theorem set_set_perm (a : List α) (i j : Nat) (hi : i < a.length) (hj : j < a.length) :
    ((a.set i a[j]).set j a[i]).Perm a := by
  classical
  rw [List.perm_iff_count]
  intro b
  by_cases hij : i = j
  · subst hij
    have e : a.set i a[i] = a := by
      apply List.ext_getElem? ; intro k
      by_cases hk : i = k
      · subst hk; simp [hi]
      · simp [hk]
    simp [List.set_set, e]
  · rw [List.count_set _ _ _ _ (by simpa using hj), List.count_set _ _ _ _ hi]
    simp only [List.getElem_set_ne hij, beq_iff_eq]
    have h1 : 0 < a.count a[i] := List.count_pos_iff.mpr (List.getElem_mem _)
    have h2 : 0 < a.count a[j] := List.count_pos_iff.mpr (List.getElem_mem _)
    by_cases e1 : a[i] = b <;> by_cases e2 : a[j] = b <;> simp [e1, e2] <;>
      first
      | omega
      | (subst e1; omega)

theorem swap_perm (a : List α) (i j : Nat) : (swap a i j).Perm a := by
  unfold swap
  split
  · rename_i x y hx hy
    obtain ⟨hi, rfl⟩ := List.getElem?_eq_some_iff.mp hx
    obtain ⟨hj, rfl⟩ := List.getElem?_eq_some_iff.mp hy
    exact set_set_perm a i j hi hj
  · exact List.Perm.refl _

theorem up_perm (c : α → α → Int) (fuel : Nat) (a : List α) (i : Nat) :
    (_up c fuel a i).Perm a := by
  induction fuel generalizing a i with
  | zero => exact List.Perm.refl _
  | succ n ih =>
    unfold _up
    split
    · simp only []
      split
      · exact (ih _ _).trans (swap_perm _ _ _)
      · exact List.Perm.refl _
    · exact List.Perm.refl _

/-- The index `m` chosen by one round of `_down`. -/
theorem down_succ (c : α → α → Int) (fuel : Nat) (a : List α) (i : Nat) :
    _down c (fuel + 1) a i =
      if (if i * 2 + 1 + 1 < a.length ∧ less c a (i * 2 + 1 + 1)
              (if i * 2 + 1 < a.length ∧ less c a (i * 2 + 1) i then i * 2 + 1 else i)
            then i * 2 + 1 + 1
            else (if i * 2 + 1 < a.length ∧ less c a (i * 2 + 1) i then i * 2 + 1 else i)) = i
      then a
      else _down c fuel
        (swap a i (if i * 2 + 1 + 1 < a.length ∧ less c a (i * 2 + 1 + 1)
              (if i * 2 + 1 < a.length ∧ less c a (i * 2 + 1) i then i * 2 + 1 else i)
            then i * 2 + 1 + 1
            else (if i * 2 + 1 < a.length ∧ less c a (i * 2 + 1) i then i * 2 + 1 else i)))
        (if i * 2 + 1 + 1 < a.length ∧ less c a (i * 2 + 1 + 1)
              (if i * 2 + 1 < a.length ∧ less c a (i * 2 + 1) i then i * 2 + 1 else i)
            then i * 2 + 1 + 1
            else (if i * 2 + 1 < a.length ∧ less c a (i * 2 + 1) i then i * 2 + 1 else i)) := rfl

theorem down_perm (c : α → α → Int) (fuel : Nat) (a : List α) (i : Nat) :
    (_down c fuel a i).Perm a := by
  induction fuel generalizing a i with
  | zero => exact List.Perm.refl _
  | succ n ih =>
    rw [down_succ]
    generalize (if i * 2 + 1 + 1 < a.length ∧ less c a (i * 2 + 1 + 1)
              (if i * 2 + 1 < a.length ∧ less c a (i * 2 + 1) i then i * 2 + 1 else i)
            then i * 2 + 1 + 1
            else (if i * 2 + 1 < a.length ∧ less c a (i * 2 + 1) i then i * 2 + 1 else i)) = m
    split
    · exact List.Perm.refl _
    · exact (ih _ _).trans (swap_perm _ _ _)

theorem push_perm (c : α → α → Int) (a : List α) (v : α) : (push c a v).Perm (v :: a) := by
  unfold push
  refine (up_perm c _ _ _).trans ?_
  exact List.perm_append_singleton v a

theorem pop_nil (c : α → α → Int) : pop c ([] : List α) = (none, []) := rfl

theorem pop_perm (c : α → α → Int) (a : List α) (h : a ≠ []) :
    ∃ top rest, pop c a = (some top, rest) ∧ a.head? = some top ∧ a.Perm (top :: rest) := by
  obtain ⟨top, t, rfl⟩ := List.exists_cons_of_ne_nil h
  obtain ⟨ys, v, hys⟩ : ∃ ys v, top :: t = ys ++ [v] := by
    have := List.dropLast_append_getLast h
    exact ⟨_, _, this.symm⟩
  unfold pop
  rw [hys]
  simp only [List.getLast?_concat, List.dropLast_concat]
  cases ys with
  | nil =>
    simp only [List.nil_append, List.cons.injEq] at hys
    obtain ⟨rfl, rfl⟩ := hys
    exact ⟨top, [], by simp, rfl, List.Perm.refl _⟩
  | cons y ys' =>
    simp only [List.cons_append, List.cons.injEq] at hys
    obtain ⟨rfl, rfl⟩ := hys
    refine ⟨top, _down c (ys'.length + 1) (v :: ys') 0, by simp, rfl, ?_⟩
    refine List.Perm.symm ?_
    exact (List.Perm.cons _ (down_perm c _ _ _)).trans
      (List.Perm.cons _ (List.perm_append_singleton v ys').symm)

end PriorityQueue

end Maze

namespace Maze

namespace PriorityQueue

variable {α : Type}

theorem cmp_le_of_not_lt {c : α → α → Int} (hc : TotalPreorderCmp c) {x y : α}
    (h : ¬ c x y < 0) : c y x ≤ 0 := by
  by_contra h'
  exact h ((hc.flip x y).mpr (by omega))

theorem cmp_refl {c : α → α → Int} (hc : TotalPreorderCmp c) (x : α) : c x x ≤ 0 := by
  by_contra h'
  have h1 : c x x < 0 := (hc.flip x x).mpr (by omega)
  omega

theorem less_iff (c : α → α → Int) (a : List α) (i j : Nat) (x y : α)
    (hx : a[i]? = some x) (hy : a[j]? = some y) : less c a i j = true ↔ c x y < 0 := by
  unfold less
  rw [hx, hy]
  simp

theorem up_heap {c : α → α → Int} (hc : TotalPreorderCmp c) (fuel : Nat) (a : List α) (i : Nat)
    (hi : i < a.length) (hf : i ≤ fuel)
    (h1 : ∀ j x y, 0 < j → j ≠ i → a[j]? = some x → a[(j - 1) / 2]? = some y → c y x ≤ 0)
    (h2 : ∀ j x y, 0 < i → 0 < j → (j - 1) / 2 = i → a[j]? = some x →
      a[(i - 1) / 2]? = some y → c y x ≤ 0) :
    IsHeap c (_up c fuel a i) := by
  induction fuel generalizing a i with
  | zero =>
    have : i = 0 := by omega
    subst this
    intro j x y hj hx hy
    exact h1 j x y hj (by omega) hx hy
  | succ n ih =>
    unfold _up
    by_cases hi0 : i > 0
    · simp only [hi0, if_true]
      have hp : (i - 1) / 2 < i := by omega
      have hpl : (i - 1) / 2 < a.length := by omega
      obtain ⟨xi, hxi⟩ : ∃ xi, a[i]? = some xi := ⟨a[i], List.getElem?_eq_getElem hi⟩
      obtain ⟨xp, hxp⟩ : ∃ xp, a[(i - 1) / 2]? = some xp := ⟨_, List.getElem?_eq_getElem hpl⟩
      by_cases hl : less c a i ((i - 1) / 2) = true
      · simp only [hl, if_true]
        have hlt : c xi xp < 0 := (less_iff c a _ _ xi xp hxi hxp).mp hl
        apply ih
        · rw [swap_length]; exact hpl
        · omega
        · intro j x y hj0 hjp hx hy
          rw [swap_getElem? _ _ _ _ hi hpl] at hx hy
          by_cases hji : j = i
          · subst hji
            rw [if_neg (by omega), if_pos rfl] at hx
            rw [if_pos rfl] at hy
            rw [hxp] at hx; rw [hxi] at hy
            cases hx; cases hy
            omega
          · rw [if_neg hjp, if_neg hji] at hx
            by_cases hq1 : (j - 1) / 2 = (i - 1) / 2
            · rw [if_pos hq1, hxi] at hy
              cases hy
              have := h1 j x xp hj0 hji hx (by rw [hq1]; exact hxp)
              exact hc.trans _ _ _ (by omega) this
            · rw [if_neg hq1] at hy
              by_cases hq2 : (j - 1) / 2 = i
              · rw [if_pos hq2, hxp] at hy
                cases hy
                exact h2 j x _ hi0 hj0 hq2 hx hxp
              · rw [if_neg hq2] at hy
                exact h1 j x y hj0 hji hx hy
        · intro j x y hp0 hj0 hjp hx hy
          rw [swap_getElem? _ _ _ _ hi hpl] at hx hy
          rw [if_neg (by omega), if_neg (by omega)] at hy
          have hpy : c y xp ≤ 0 := h1 _ xp y hp0 (by omega) hxp hy
          by_cases hji : j = i
          · subst hji
            rw [if_neg (by omega), if_pos rfl, hxp] at hx
            cases hx
            exact hpy
          · rw [if_neg (by omega), if_neg hji] at hx
            have := h1 j x xp hj0 hji hx (by rw [hjp]; exact hxp)
            exact hc.trans _ _ _ hpy this
      · simp only [hl, Bool.false_eq_true, if_false]
        have hnl : ¬ c xi xp < 0 := fun h => hl ((less_iff c a _ _ xi xp hxi hxp).mpr h)
        intro j x y hj hx hy
        by_cases hji : j = i
        · subst hji
          rw [hxi] at hx; rw [hxp] at hy
          cases hx; cases hy
          exact cmp_le_of_not_lt hc hnl
        · exact h1 j x y hj hji hx hy
    · simp only [hi0, if_false]
      have : i = 0 := by omega
      subst this
      intro j x y hj hx hy
      exact h1 j x y hj (by omega) hx hy

theorem push_heap {c : α → α → Int} (hc : TotalPreorderCmp c) (a : List α) (v : α)
    (h : IsHeap c a) : IsHeap c (push c a v) := by
  unfold push
  apply up_heap hc
  · simp
  · exact Nat.le_refl _
  · intro j x y hj0 hjn hx hy
    by_cases hjl : j < a.length
    · rw [List.getElem?_append_left hjl] at hx
      rw [List.getElem?_append_left (by omega)] at hy
      exact h j x y hj0 hx hy
    · have : (a ++ [v])[j]? = none := by
        apply List.getElem?_eq_none
        simp; omega
      rw [this] at hx; cases hx
  · intro j x y _ hj0 hjp hx _
    have : (a ++ [v])[j]? = none := by
      apply List.getElem?_eq_none
      simp; omega
    rw [this] at hx; cases hx

end PriorityQueue

end Maze

namespace Maze

namespace PriorityQueue

variable {α : Type}

/-- The index chosen by one round of `_down`: `i` or the smaller of its children. -/
theorem down_choice {c : α → α → Int} (hc : TotalPreorderCmp c) (a : List α) (i : Nat)
    (hi : i < a.length) (m : Nat)
    (hm : m = (if i * 2 + 1 + 1 < a.length ∧ less c a (i * 2 + 1 + 1)
              (if i * 2 + 1 < a.length ∧ less c a (i * 2 + 1) i then i * 2 + 1 else i)
            then i * 2 + 1 + 1
            else (if i * 2 + 1 < a.length ∧ less c a (i * 2 + 1) i then i * 2 + 1 else i))) :
    (m = i ∨ ((m = i * 2 + 1 ∨ m = i * 2 + 1 + 1) ∧ m < a.length)) ∧
    ∀ xm, a[m]? = some xm →
      (∀ x, a[i]? = some x → c xm x ≤ 0) ∧
      (∀ x, a[i * 2 + 1]? = some x → c xm x ≤ 0) ∧
      (∀ x, a[i * 2 + 1 + 1]? = some x → c xm x ≤ 0) := by
  obtain ⟨xi, hxi⟩ : ∃ xi, a[i]? = some xi := ⟨a[i], List.getElem?_eq_getElem hi⟩
  by_cases hl : i * 2 + 1 < a.length
  · obtain ⟨xl, hxl⟩ : ∃ xl, a[i * 2 + 1]? = some xl := ⟨_, List.getElem?_eq_getElem hl⟩
    by_cases hli : less c a (i * 2 + 1) i = true
    · have e1 : c xl xi < 0 := (less_iff c a _ _ xl xi hxl hxi).mp hli
      simp only [hl, hli, and_self, if_true] at hm
      by_cases hr : i * 2 + 1 + 1 < a.length
      · obtain ⟨xr, hxr⟩ : ∃ xr, a[i * 2 + 1 + 1]? = some xr :=
          ⟨_, List.getElem?_eq_getElem hr⟩
        by_cases hrl : less c a (i * 2 + 1 + 1) (i * 2 + 1) = true
        · have e2 : c xr xl < 0 := (less_iff c a _ _ xr xl hxr hxl).mp hrl
          simp only [hr, hrl, and_self, if_true] at hm
          subst hm
          refine ⟨Or.inr ⟨Or.inr rfl, hr⟩, ?_⟩
          intro xm hxm
          rw [hxr] at hxm; cases hxm
          refine ⟨?_, ?_, ?_⟩ <;> intro x hx
          · rw [hxi] at hx; cases hx
            exact hc.trans _ xl _ (by omega) (by omega)
          · rw [hxl] at hx; cases hx; omega
          · rw [hxr] at hx; cases hx; exact cmp_refl hc _
        · have e2 : ¬ c xr xl < 0 := fun h => hrl ((less_iff c a _ _ xr xl hxr hxl).mpr h)
          simp only [hrl, and_false, if_false, Bool.false_eq_true] at hm
          subst hm
          refine ⟨Or.inr ⟨Or.inl rfl, hl⟩, ?_⟩
          intro xm hxm
          rw [hxl] at hxm; cases hxm
          refine ⟨?_, ?_, ?_⟩ <;> intro x hx
          · rw [hxi] at hx; cases hx; omega
          · rw [hxl] at hx; cases hx; exact cmp_refl hc _
          · rw [hxr] at hx; cases hx; exact cmp_le_of_not_lt hc e2
      · simp only [hr, false_and, if_false] at hm
        subst hm
        refine ⟨Or.inr ⟨Or.inl rfl, hl⟩, ?_⟩
        intro xm hxm
        rw [hxl] at hxm; cases hxm
        refine ⟨?_, ?_, ?_⟩ <;> intro x hx
        · rw [hxi] at hx; cases hx; omega
        · rw [hxl] at hx; cases hx; exact cmp_refl hc _
        · rw [List.getElem?_eq_none (by omega)] at hx; cases hx
    · have e1 : ¬ c xl xi < 0 := fun h => hli ((less_iff c a _ _ xl xi hxl hxi).mpr h)
      have e1' : c xi xl ≤ 0 := cmp_le_of_not_lt hc e1
      simp only [hli, and_false, if_false, Bool.false_eq_true] at hm
      by_cases hr : i * 2 + 1 + 1 < a.length
      · obtain ⟨xr, hxr⟩ : ∃ xr, a[i * 2 + 1 + 1]? = some xr :=
          ⟨_, List.getElem?_eq_getElem hr⟩
        by_cases hri : less c a (i * 2 + 1 + 1) i = true
        · have e2 : c xr xi < 0 := (less_iff c a _ _ xr xi hxr hxi).mp hri
          simp only [hr, hri, and_self, if_true] at hm
          subst hm
          refine ⟨Or.inr ⟨Or.inr rfl, hr⟩, ?_⟩
          intro xm hxm
          rw [hxr] at hxm; cases hxm
          refine ⟨?_, ?_, ?_⟩ <;> intro x hx
          · rw [hxi] at hx; cases hx; omega
          · rw [hxl] at hx; cases hx
            exact hc.trans _ xi _ (by omega) e1'
          · rw [hxr] at hx; cases hx; exact cmp_refl hc _
        · have e2 : ¬ c xr xi < 0 := fun h => hri ((less_iff c a _ _ xr xi hxr hxi).mpr h)
          simp only [hri, and_false, if_false, Bool.false_eq_true] at hm
          subst hm
          refine ⟨Or.inl rfl, ?_⟩
          intro xm hxm
          rw [hxi] at hxm; cases hxm
          refine ⟨?_, ?_, ?_⟩ <;> intro x hx
          · rw [hxi] at hx; cases hx; exact cmp_refl hc _
          · rw [hxl] at hx; cases hx; exact e1'
          · rw [hxr] at hx; cases hx; exact cmp_le_of_not_lt hc e2
      · simp only [hr, false_and, if_false] at hm
        subst hm
        refine ⟨Or.inl rfl, ?_⟩
        intro xm hxm
        rw [hxi] at hxm; cases hxm
        refine ⟨?_, ?_, ?_⟩ <;> intro x hx
        · rw [hxi] at hx; cases hx; exact cmp_refl hc _
        · rw [hxl] at hx; cases hx; exact e1'
        · rw [List.getElem?_eq_none (by omega)] at hx; cases hx
  · have hr : ¬ i * 2 + 1 + 1 < a.length := by omega
    simp only [hl, hr, false_and, if_false] at hm
    subst hm
    refine ⟨Or.inl rfl, ?_⟩
    intro xm hxm
    rw [hxi] at hxm; cases hxm
    refine ⟨?_, ?_, ?_⟩ <;> intro x hx
    · rw [hxi] at hx; cases hx; exact cmp_refl hc _
    · rw [List.getElem?_eq_none (by omega)] at hx; cases hx
    · rw [List.getElem?_eq_none (by omega)] at hx; cases hx

theorem down_heap {c : α → α → Int} (hc : TotalPreorderCmp c) (fuel : Nat) (a : List α) (i : Nat)
    (hi : i < a.length) (hf : a.length ≤ i + fuel)
    (h1 : ∀ j x y, 0 < j → (j - 1) / 2 ≠ i → a[j]? = some x → a[(j - 1) / 2]? = some y →
      c y x ≤ 0)
    (h2 : ∀ j x y, 0 < i → 0 < j → (j - 1) / 2 = i → a[j]? = some x →
      a[(i - 1) / 2]? = some y → c y x ≤ 0) :
    IsHeap c (_down c fuel a i) := by
  induction fuel generalizing a i with
  | zero => omega
  | succ n ih =>
    rw [down_succ]
    obtain ⟨hm1, hm2⟩ := down_choice hc a i hi _ rfl
    generalize (if i * 2 + 1 + 1 < a.length ∧ less c a (i * 2 + 1 + 1)
              (if i * 2 + 1 < a.length ∧ less c a (i * 2 + 1) i then i * 2 + 1 else i)
            then i * 2 + 1 + 1
            else (if i * 2 + 1 < a.length ∧ less c a (i * 2 + 1) i then i * 2 + 1 else i)) = m
      at hm1 hm2 ⊢
    by_cases hmi : m = i
    · rw [if_pos hmi]
      subst hmi
      intro j x y hj hx hy
      by_cases hp : (j - 1) / 2 = m
      · rw [hp] at hy
        obtain ⟨-, hB, hC⟩ := hm2 y hy
        have : j = m * 2 + 1 ∨ j = m * 2 + 1 + 1 := by omega
        rcases this with rfl | rfl
        · exact hB x hx
        · exact hC x hx
      · exact h1 j x y hj hp hx hy
    · rw [if_neg hmi]
      have hm3 : (m = i * 2 + 1 ∨ m = i * 2 + 1 + 1) ∧ m < a.length := by
        rcases hm1 with h | h
        · exact absurd h hmi
        · exact h
      obtain ⟨hmc, hml⟩ := hm3
      obtain ⟨xi, hxi⟩ : ∃ xi, a[i]? = some xi := ⟨a[i], List.getElem?_eq_getElem hi⟩
      obtain ⟨xm, hxm⟩ : ∃ xm, a[m]? = some xm := ⟨a[m], List.getElem?_eq_getElem hml⟩
      obtain ⟨hA, hB, hC⟩ := hm2 xm hxm
      apply ih
      · rw [swap_length]; exact hml
      · rw [swap_length]; omega
      · intro j x y hj0 hjp hx hy
        rw [swap_getElem? _ _ _ _ hi hml] at hx hy
        by_cases hpi : (j - 1) / 2 = i
        · -- `j` is a child of `i`
          rw [if_neg (by omega), if_pos hpi, hxm] at hy
          cases hy
          by_cases hjm : j = m
          · rw [if_pos hjm, hxi] at hx
            cases hx
            exact hA _ hxi
          · rw [if_neg hjm, if_neg (by omega)] at hx
            have : j = i * 2 + 1 ∨ j = i * 2 + 1 + 1 := by omega
            rcases this with rfl | rfl
            · exact hB x hx
            · exact hC x hx
        · rw [if_neg hjp, if_neg hpi] at hy
          by_cases hji : j = i
          · subst hji
            rw [if_neg (by omega), if_pos rfl, hxm] at hx
            cases hx
            exact h2 m _ _ hj0 (by omega) (by omega) hxm hy
          · rw [if_neg (by omega), if_neg hji] at hx
            exact h1 j x y hj0 hpi hx hy
      · intro j x y _ hj0 hjp hx hy
        rw [swap_getElem? _ _ _ _ hi hml] at hx hy
        rw [if_neg (by omega), if_neg (by omega)] at hx
        have hmp : (m - 1) / 2 = i := by omega
        rw [hmp, if_neg (by omega), if_pos rfl, hxm] at hy
        cases hy
        exact h1 j _ _ hj0 (by omega) hx (by rw [hjp]; exact hxm)

theorem pop_heap {c : α → α → Int} (hc : TotalPreorderCmp c) (a : List α) (h : IsHeap c a) :
    IsHeap c (pop c a).2 := by
  by_cases hne : a = []
  · subst hne
    exact h
  obtain ⟨top, t, rfl⟩ := List.exists_cons_of_ne_nil hne
  obtain ⟨ys, v, hys⟩ : ∃ ys v, top :: t = ys ++ [v] :=
    ⟨_, _, (List.dropLast_append_getLast hne).symm⟩
  unfold pop
  rw [hys]
  simp only [List.getLast?_concat, List.dropLast_concat]
  cases ys with
  | nil =>
    simp only [List.nil_append, List.head?_cons, List.length_nil, ne_eq, not_true_eq_false,
      if_false]
    intro j x y _ hx _
    simp at hx
  | cons y0 ys' =>
    simp only [List.cons_append, List.head?_cons, List.length_cons, ne_eq,
      Nat.add_one_ne_zero, not_false_eq_true, if_true, List.set_cons_zero]
    apply down_heap hc
    · simp
    · simp
    · intro j x y hj0 hjp hx hy
      have hjl : j < (v :: ys').length := by
        by_contra hh
        rw [List.getElem?_eq_none (by omega)] at hx
        cases hx
      simp only [List.length_cons] at hjl
      have e1 : (top :: t)[j]? = some x := by
        rw [hys]
        cases j with
        | zero => omega
        | succ k =>
          simp only [List.getElem?_cons_succ] at hx
          simp only [List.cons_append, List.getElem?_cons_succ]
          rw [List.getElem?_append_left (by omega)]
          exact hx
      have e2 : (top :: t)[(j - 1) / 2]? = some y := by
        rw [hys]
        obtain ⟨k, hk⟩ : ∃ k, (j - 1) / 2 = k + 1 := ⟨(j - 1) / 2 - 1, by omega⟩
        rw [hk] at hy ⊢
        simp only [List.getElem?_cons_succ] at hy
        simp only [List.cons_append, List.getElem?_cons_succ]
        rw [List.getElem?_append_left (by omega)]
        exact hy
      exact h j x y hj0 e1 e2
    · intro j x y h0 _ _ _ _
      omega

/-- The root of a heap is not greater than any entry. -/
theorem heap_root_le {c : α → α → Int} (hc : TotalPreorderCmp c) (a : List α) (h : IsHeap c a)
    (t : α) (ht : a[0]? = some t) : ∀ (i : Nat) (x : α), a[i]? = some x → c t x ≤ 0 := by
  intro i
  induction i using Nat.strong_induction_on with
  | _ i ih =>
    intro x hx
    by_cases hi : i = 0
    · subst hi
      rw [ht] at hx; cases hx
      exact cmp_refl hc _
    · have hil : i < a.length := by
        by_contra hh
        rw [List.getElem?_eq_none (by omega)] at hx
        cases hx
      have hpl : (i - 1) / 2 < a.length := by omega
      have hy : a[(i - 1) / 2]? = some a[(i - 1) / 2] := List.getElem?_eq_getElem hpl
      have h1 := ih ((i - 1) / 2) (by omega) _ hy
      have h2 := h i x _ (by omega) hx hy
      exact hc.trans _ _ _ h1 h2

theorem pop_min {c : α → α → Int} (hc : TotalPreorderCmp c) (a : List α) (h : IsHeap c a)
    (top : α) (rest : List α) (hp : pop c a = (some top, rest)) :
    ∀ e ∈ a, ¬ c e top < 0 := by
  have hne : a ≠ [] := by
    rintro rfl
    simp [pop] at hp
  obtain ⟨top', rest', hp', hh, -⟩ := pop_perm c a hne
  rw [hp] at hp'
  simp only [Prod.mk.injEq, Option.some.injEq] at hp'
  obtain ⟨rfl, rfl⟩ := hp'
  intro e he hlt
  obtain ⟨i, hi, rfl⟩ := List.getElem_of_mem he
  have h0 : a[0]? = some top := by
    rw [← List.head?_eq_getElem?]; exact hh
  have := heap_root_le hc a h top h0 i _ (List.getElem?_eq_getElem hi)
  have h3 := (hc.flip _ _).mp hlt
  omega

theorem runOps_heap {c : α → α → Int} (hc : TotalPreorderCmp c) (ops : List (PQOp α))
    (a : List α) (h : IsHeap c a) : IsHeap c (runOps c ops a) := by
  induction ops generalizing a with
  | nil => exact h
  | cons op ops ih =>
    cases op with
    | push v => exact ih _ (push_heap hc a v h)
    | pop => exact ih _ (pop_heap hc a h)

theorem isHeap_nil (c : α → α → Int) : IsHeap c ([] : List α) := by
  intro j x y _ hx _
  simp at hx

theorem cmpF_total : TotalPreorderCmp cmpF :=
  ⟨fun a b => by unfold cmpF; omega, fun a b d h1 h2 => by unfold cmpF at *; omega⟩

theorem cmpH_total : TotalPreorderCmp cmpH :=
  ⟨fun a b => by unfold cmpH; omega, fun a b d h1 h2 => by unfold cmpH at *; omega⟩

end PriorityQueue

end Maze

namespace Maze

/-! ## Sets, maps and neighbours -/

theorem setHas_iff (s : List Key) (k : Key) : setHas s k = true ↔ k ∈ s := by
  simp [setHas]

theorem mem_setAdd (s : List Key) (k k' : Key) : k' ∈ setAdd s k ↔ k' = k ∨ k' ∈ s := by
  unfold setAdd
  split
  · constructor
    · intro h; exact Or.inr h
    · rintro (rfl | h)
      · assumption
      · exact h
  · simp [or_comm]

theorem setAdd_new (s : List Key) (k : Key) (h : k ∉ s) : setAdd s k = s ++ [k] := by
  simp [setAdd, h]

theorem setAdd_old (s : List Key) (k : Key) (h : k ∈ s) : setAdd s k = s := by
  simp [setAdd, h]

theorem mapGet_mapSet {V : Type} (m : List (Key × V)) (k k' : Key) (v : V) :
    mapGet (mapSet m k v) k' = if k = k' then some v else mapGet m k' := by
  induction m with
  | nil => simp [mapSet, mapGet]
  | cons e m ih =>
    obtain ⟨k0, v0⟩ := e
    unfold mapSet
    by_cases h0 : k0 = k
    · subst h0
      simp only [if_true]
      unfold mapGet
      by_cases h1 : k0 = k' <;> simp [h1]
    · simp only [h0, if_false]
      unfold mapGet
      rw [ih]
      by_cases h1 : k0 = k'
      · subst h1
        simp [Ne.symm h0]
      · simp [h1]

theorem mapSet_length_new {V : Type} (m : List (Key × V)) (k : Key) (v : V)
    (h : mapGet m k = none) : (mapSet m k v).length = m.length + 1 := by
  induction m with
  | nil => simp [mapSet]
  | cons e m ih =>
    obtain ⟨k0, v0⟩ := e
    unfold mapGet at h
    unfold mapSet
    by_cases h0 : k0 = k
    · simp [h0] at h
    · simp only [h0, if_false] at h ⊢
      simp [ih h]

theorem mapSet_length_old {V : Type} (m : List (Key × V)) (k : Key) (v : V)
    (h : mapGet m k ≠ none) : (mapSet m k v).length = m.length := by
  induction m with
  | nil => simp [mapGet] at h
  | cons e m ih =>
    obtain ⟨k0, v0⟩ := e
    unfold mapGet at h
    unfold mapSet
    by_cases h0 : k0 = k
    · simp [h0]
    · simp only [h0, if_false] at h ⊢
      simp [ih h]

theorem mapHas_iff {V : Type} (m : List (Key × V)) (k : Key) :
    mapHas m k = true ↔ mapGet m k ≠ none := by
  unfold mapHas
  cases mapGet m k <;> simp

theorem mem_neighbors (w : World) (y x : Int) (n : Pos) :
    n ∈ neighbors w y x ↔ Move w (y, x) n.key := by
  obtain ⟨ny, nx⟩ := n
  unfold neighbors dirs Move Adjacent Passable InBounds Pos.key key
  simp only [List.mem_filterMap, List.mem_cons, List.mem_singleton, List.not_mem_nil, or_false,
    exists_eq_or_imp, exists_eq_left, Option.ite_none_right_eq_some, Option.some.injEq,
    Pos.mk.injEq, ne_eq, ge_iff_le]
  constructor
  · rintro (⟨⟨a, b, c, d, e⟩, rfl, rfl⟩ | ⟨⟨a, b, c, d, e⟩, rfl, rfl⟩ |
      ⟨⟨a, b, c, d, e⟩, rfl, rfl⟩ | ⟨⟨a, b, c, d, e⟩, rfl, rfl⟩)
    · exact ⟨Or.inr ⟨by simp, by simp⟩, ⟨a, b, c, d⟩, e⟩
    · exact ⟨Or.inr ⟨by simp, by simp⟩, ⟨a, b, c, d⟩, e⟩
    · exact ⟨Or.inl ⟨by simp, by simp⟩, ⟨a, b, c, d⟩, e⟩
    · exact ⟨Or.inl ⟨by simp, by simp⟩, ⟨a, b, c, d⟩, e⟩
  · rintro ⟨hadj, ⟨a, b, c, d⟩, e⟩
    rcases hadj with ⟨h1, h2⟩ | ⟨h1, h2⟩
    · rcases abs_cases (x - nx) with ⟨e1, _⟩ | ⟨e1, _⟩
      · obtain rfl : ny = y + 0 := by omega
        obtain rfl : nx = x + -1 := by omega
        right; right; right
        exact ⟨⟨a, b, c, d, e⟩, rfl, rfl⟩
      · obtain rfl : ny = y + 0 := by omega
        obtain rfl : nx = x + 1 := by omega
        right; right; left
        exact ⟨⟨a, b, c, d, e⟩, rfl, rfl⟩
    · rcases abs_cases (y - ny) with ⟨e1, _⟩ | ⟨e1, _⟩
      · obtain rfl : nx = x + 0 := by omega
        obtain rfl : ny = y + -1 := by omega
        right; left
        exact ⟨⟨a, b, c, d, e⟩, rfl, rfl⟩
      · obtain rfl : nx = x + 0 := by omega
        obtain rfl : ny = y + 1 := by omega
        left
        exact ⟨⟨a, b, c, d, e⟩, rfl, rfl⟩

end Maze

namespace Maze

/-! ## Keys of a map, the heuristic -/

theorem mem_keys_iff {V : Type} (m : List (Key × V)) (k : Key) :
    k ∈ m.map Prod.fst ↔ mapGet m k ≠ none := by
  induction m with
  | nil => simp [mapGet]
  | cons e m ih =>
    obtain ⟨k0, v0⟩ := e
    unfold mapGet
    by_cases h : k0 = k
    · simp [h]
    · simp only [List.map_cons, List.mem_cons, h, if_false]
      rw [← ih]
      constructor
      · rintro (e | e)
        · exact absurd e.symm h
        · exact e
      · exact Or.inr

theorem mapSet_keys_new {V : Type} (m : List (Key × V)) (k : Key) (v : V)
    (h : mapGet m k = none) : (mapSet m k v).map Prod.fst = m.map Prod.fst ++ [k] := by
  induction m with
  | nil => simp [mapSet]
  | cons e m ih =>
    obtain ⟨k0, v0⟩ := e
    unfold mapGet at h
    unfold mapSet
    by_cases h0 : k0 = k
    · simp [h0] at h
    · simp only [h0, if_false] at h ⊢
      simp [ih h]

theorem mapSet_keys_old {V : Type} (m : List (Key × V)) (k : Key) (v : V)
    (h : mapGet m k ≠ none) : (mapSet m k v).map Prod.fst = m.map Prod.fst := by
  induction m with
  | nil => simp [mapGet] at h
  | cons e m ih =>
    obtain ⟨k0, v0⟩ := e
    unfold mapGet at h
    unfold mapSet
    by_cases h0 : k0 = k
    · simp [h0]
    · simp only [h0, if_false] at h ⊢
      simp [ih h]

theorem mapSet_keys_nodup {V : Type} (m : List (Key × V)) (k : Key) (v : V)
    (h : (m.map Prod.fst).Nodup) : ((mapSet m k v).map Prod.fst).Nodup := by
  by_cases hk : mapGet m k = none
  · rw [mapSet_keys_new _ _ _ hk, List.nodup_append]
    refine ⟨h, List.nodup_singleton _, ?_⟩
    intro a ha hb
    simp only [List.mem_singleton] at hb
    subst hb
    exact ((mem_keys_iff m a).mp ha) hk
  · rw [mapSet_keys_old _ _ _ hk]
    exact h

/-- The Manhattan distance is consistent: it changes by at most 1 along a move. -/
theorem hkey_adjacent (w : World) (a b : Key) (h : Adjacent a b) :
    hkey w a ≤ hkey w b + 1 := by
  obtain ⟨ay, ax⟩ := a
  obtain ⟨b1, b2⟩ := b
  unfold hkey manhattan Pos.ofKey
  unfold Adjacent at h
  simp only at h ⊢
  rcases abs_cases (ax - w.goal.x) with ⟨e1, _⟩ | ⟨e1, _⟩ <;>
  rcases abs_cases (ay - w.goal.y) with ⟨e2, _⟩ | ⟨e2, _⟩ <;>
  rcases abs_cases (b2 - w.goal.x) with ⟨e3, _⟩ | ⟨e3, _⟩ <;>
  rcases abs_cases (b1 - w.goal.y) with ⟨e4, _⟩ | ⟨e4, _⟩ <;>
  rcases h with ⟨h1, h2⟩ | ⟨h1, h2⟩ <;>
  first
  | (rcases abs_cases (ax - b2) with ⟨e5, _⟩ | ⟨e5, _⟩ <;> omega)
  | (rcases abs_cases (ay - b1) with ⟨e5, _⟩ | ⟨e5, _⟩ <;> omega)

end Maze

namespace Maze

/-! ## The bounds on the rounds of the loops are enough -/

namespace PriorityQueue

variable {α : Type}

/-- More rounds than `i` do not change what `_up(i)` computes. -/
theorem up_fuel (c : α → α → Int) : ∀ (f : Nat) (a : List α) (i k : Nat), i ≤ f →
    _up c (f + k) a i = _up c f a i := by
  intro f
  induction f with
  | zero =>
    intro a i k hi
    have : i = 0 := by omega
    subst this
    cases k with
    | zero => rfl
    | succ k =>
      show _up c (k + 1) a 0 = a
      simp [_up]
  | succ f ih =>
    intro a i k hi
    have e : f + 1 + k = (f + k) + 1 := by omega
    rw [e]
    unfold _up
    by_cases hi0 : i > 0
    · simp only [hi0, if_true]
      split
      · exact ih _ _ k (by omega)
      · rfl
    · simp only [hi0, if_false]

/-- More rounds than `a.length - i` do not change what `_down(i)` computes. -/
theorem down_fuel (c : α → α → Int) : ∀ (f : Nat) (a : List α) (i k : Nat),
    a.length ≤ i + f → _down c (f + k) a i = _down c f a i := by
  intro f
  induction f with
  | zero =>
    intro a i k hf
    cases k with
    | zero => rfl
    | succ k =>
      have e0 : 0 + (k + 1) = k + 1 := by omega
      rw [e0]
      show _down c (k + 1) a i = a
      rw [down_succ]
      have h1 : ¬ i * 2 + 1 < a.length := by omega
      have h2 : ¬ i * 2 + 1 + 1 < a.length := by omega
      simp [h1, h2]
  | succ f ih =>
    intro a i k hf
    have e : f + 1 + k = (f + k) + 1 := by omega
    rw [e, down_succ, down_succ]
    generalize hm : (if i * 2 + 1 + 1 < a.length ∧ less c a (i * 2 + 1 + 1)
              (if i * 2 + 1 < a.length ∧ less c a (i * 2 + 1) i then i * 2 + 1 else i)
            then i * 2 + 1 + 1
            else (if i * 2 + 1 < a.length ∧ less c a (i * 2 + 1) i then i * 2 + 1 else i)) = m
    have hmi : m = i ∨ i < m := by
      rw [← hm]
      by_cases h1 : i * 2 + 1 < a.length ∧ less c a (i * 2 + 1) i = true
      · simp only [h1, and_self, if_true]
        split
        · right; omega
        · right; omega
      · simp only [h1, if_false]
        split
        · right; omega
        · left; rfl
    by_cases h : m = i
    · rw [if_pos h, if_pos h]
    · rw [if_neg h, if_neg h]
      apply ih
      rw [swap_length]
      rcases hmi with h' | h'
      · exact absurd h' h
      · omega

end PriorityQueue

/-- More rounds do not change what the loop of `reconstruct` returns. -/
theorem reconstructLoop_mono (came : List (Key × Key)) : ∀ (f : Nat) (k : Key) (acc : List Pos)
    (r : List Pos × Key), reconstructLoop came f k acc = some r →
    ∀ j, reconstructLoop came (f + j) k acc = some r := by
  intro f
  induction f with
  | zero => intro k acc r h; simp [reconstructLoop] at h
  | succ f ih =>
    intro k acc r h j
    have e : f + 1 + j = (f + j) + 1 := by omega
    rw [e]
    unfold reconstructLoop at h ⊢
    cases hg : mapGet came k with
    | none =>
      rw [hg] at h
      exact h
    | some nxt =>
      rw [hg] at h
      exact ih _ _ _ h j

/-- The key of the loop of `reconstruct` after `n` rounds that did not leave it. -/
theorem reconstructLoop_none_iff (came : List (Key × Key)) : ∀ (f : Nat) (k : Key)
    (acc : List Pos), reconstructLoop came f k acc = none ↔
      ∀ i < f, mapGet came ((fun x => (mapGet came x).getD x)^[i] k) ≠ none := by
  intro f
  induction f with
  | zero => intro k acc; simp [reconstructLoop]
  | succ f ih =>
    intro k acc
    unfold reconstructLoop
    cases hg : mapGet came k with
    | none =>
      simp only [reduceCtorEq, false_iff, not_forall]
      exact ⟨0, by omega, by simpa using hg⟩
    | some nxt =>
      simp only
      rw [ih]
      constructor
      · intro h i hi
        cases i with
        | zero => simp [hg]
        | succ i =>
          have := h i (by omega)
          simpa [Function.iterate_succ, hg] using this
      · intro h i hi
        have := h (i + 1) (by omega)
        simpa [Function.iterate_succ, hg] using this

/-- If the loop of `reconstruct` is still running after one round more than `came`
has entries, it runs forever: the bound used in `Runner.step` loses nothing. -/
theorem reconstructLoop_diverges (came : List (Key × Key)) (k : Key) (acc : List Pos)
    (h : reconstructLoop came (came.length + 1) k acc = none) :
    ∀ f acc', reconstructLoop came f k acc' = none := by
  rw [reconstructLoop_none_iff] at h
  intro f acc'
  rw [reconstructLoop_none_iff]
  -- two of the first `came.length + 1` keys coincide
  have hpig : ∃ i j, i < j ∧ j ≤ came.length ∧
      (fun x => (mapGet came x).getD x)^[i] k = (fun x => (mapGet came x).getD x)^[j] k := by
    classical
    have hcard : (came.map Prod.fst).toFinset.card < (Finset.range (came.length + 1)).card := by
      rw [Finset.card_range]
      exact lt_of_le_of_lt (List.toFinset_card_le _) (by simp)
    obtain ⟨i, hi, j, hj, hne, heq⟩ := Finset.exists_ne_map_eq_of_card_lt_of_maps_to hcard
      (f := fun i => (fun x => (mapGet came x).getD x)^[i] k)
      (by
        intro i hi
        rw [List.mem_toFinset, mem_keys_iff]
        exact h i (by simpa using hi))
    simp only [Finset.mem_range] at hi hj
    rcases Nat.lt_or_gt_of_ne hne with hlt | hlt
    · exact ⟨i, j, hlt, by omega, heq⟩
    · exact ⟨j, i, hlt, by omega, heq.symm⟩
  obtain ⟨i, j, hij, hj, heq⟩ := hpig
  have hall : ∀ n, ∃ m, m ≤ came.length ∧
      (fun x => (mapGet came x).getD x)^[n] k = (fun x => (mapGet came x).getD x)^[m] k := by
    intro n
    induction n using Nat.strong_induction_on with
    | _ n ih =>
      by_cases hn : n ≤ came.length
      · exact ⟨n, hn, rfl⟩
      · have e1 : n = (n - j) + j := by omega
        have e2 : (fun x => (mapGet came x).getD x)^[n] k =
            (fun x => (mapGet came x).getD x)^[n - j + i] k := by
          conv_lhs => rw [e1]
          rw [Function.iterate_add_apply, ← heq, ← Function.iterate_add_apply]
        obtain ⟨m, hm, hm'⟩ := ih (n - j + i) (by omega)
        exact ⟨m, hm, e2.trans hm'⟩
  intro n _
  obtain ⟨m, hm, hm'⟩ := hall n
  rw [hm']
  exact h m (by omega)

end Maze

namespace Maze

/-! ## A wall under the start cell does not matter -/

/-- Folding over a list from which entries equal to `st` were dropped gives the same
result when the step does nothing at `st`. -/
theorem foldl_filterMap_skip {σ δ : Type} (f : σ → Pos → σ) (P : σ → Prop) (st : Pos)
    (hP : ∀ s n, P s → P (f s n)) (hid : ∀ s, P s → f s st = s) (φ φ' : δ → Option Pos)
    (hφ : ∀ d, φ' d = φ d ∨ (φ' d = some st ∧ φ d = none)) :
    ∀ (ds : List δ) (s : σ), P s →
      (ds.filterMap φ').foldl f s = (ds.filterMap φ).foldl f s := by
  intro ds
  induction ds with
  | nil => intro s _; rfl
  | cons d ds ih =>
    intro s hs
    rcases hφ d with h | ⟨h1, h2⟩
    · cases hd : φ d with
      | none =>
        rw [List.filterMap_cons_none (h.trans hd), List.filterMap_cons_none hd]
        exact ih s hs
      | some n =>
        rw [List.filterMap_cons_some (h.trans hd), List.filterMap_cons_some hd]
        simp only [List.foldl_cons]
        exact ih _ (hP s n hs)
    · rw [List.filterMap_cons_some h1, List.filterMap_cons_none h2]
      simp only [List.foldl_cons]
      rw [hid s hs]
      exact ih s hs

theorem neighbors_clear (w : World) (hs : InBounds w w.skey) {σ : Type} (f : σ → Pos → σ)
    (P : σ → Prop) (hP : ∀ s n, P s → P (f s n)) (hid : ∀ s, P s → f s w.start = s)
    (y x : Int) (s : σ) (h : P s) :
    (neighbors (w.clear w.start.y.toNat w.start.x.toNat) y x).foldl f s =
      (neighbors w y x).foldl f s := by
  unfold neighbors
  apply foldl_filterMap_skip f P w.start hP hid _ _ _ dirs s h
  intro d
  obtain ⟨h1, h2, h3, h4⟩ := hs
  simp only [World.skey, key] at h1 h2 h3 h4
  simp only [World.clear]
  by_cases hb : y + d.1 ≥ 0 ∧ y + d.1 < w.rows ∧ x + d.2 ≥ 0 ∧ x + d.2 < w.cols
  · by_cases hst : (y + d.1).toNat = w.start.y.toNat ∧ (x + d.2).toNat = w.start.x.toNat
    · have e1 : y + d.1 = w.start.y := by omega
      have e2 : x + d.2 = w.start.x := by omega
      by_cases hw : w.type (y + d.1).toNat (x + d.2).toNat = CELL.WALL
      · right
        constructor
        · rw [if_pos]
          · rw [e1, e2]
          · refine ⟨hb.1, hb.2.1, hb.2.2.1, hb.2.2.2, ?_⟩
            simp [hst, CELL.EMPTY, CELL.WALL]
        · rw [if_neg]
          intro hx
          exact hx.2.2.2.2 hw
      · left
        rw [if_pos, if_pos]
        · exact ⟨hb.1, hb.2.1, hb.2.2.1, hb.2.2.2, hw⟩
        · refine ⟨hb.1, hb.2.1, hb.2.2.1, hb.2.2.2, ?_⟩
          simp [hst, CELL.EMPTY, CELL.WALL]
    · left
      simp only [hst, if_false]
  · left
    rw [if_neg, if_neg]
    · intro hx
      exact hb ⟨hx.1, hx.2.1, hx.2.2.1, hx.2.2.2.1⟩
    · intro hx
      exact hb ⟨hx.1, hx.2.1, hx.2.2.1, hx.2.2.2.1⟩

theorem bfsVisit_seen (v : Pos) (l : BfsLocals) (n : Pos) (k : Key) (h : k ∈ l.seen) :
    k ∈ (bfsVisit v l n).seen := by
  unfold bfsVisit
  simp only
  split
  · exact (mem_setAdd _ _ _).mpr (Or.inr h)
  · exact h

theorem bfsVisit_id (v : Pos) (l : BfsLocals) (n : Pos) (h : n.key ∈ l.seen) :
    bfsVisit v l n = l := by
  have : setHas l.seen (key n.y n.x) = true := (setHas_iff _ _).mpr h
  simp [bfsVisit, this]

theorem dfsVisit_seen (v : Pos) (l : DfsLocals) (n : Pos) (k : Key) (h : k ∈ l.seen) :
    k ∈ (dfsVisit v l n).seen := by
  unfold dfsVisit
  simp only
  split
  · exact (mem_setAdd _ _ _).mpr (Or.inr h)
  · exact h

theorem dfsVisit_id (v : Pos) (l : DfsLocals) (n : Pos) (h : n.key ∈ l.seen) :
    dfsVisit v l n = l := by
  have : setHas l.seen (key n.y n.x) = true := (setHas_iff _ _).mpr h
  simp [dfsVisit, this]

theorem greedyVisit_seen (w : World) (v : Pos) (l : GreedyLocals) (n : Pos) (k : Key)
    (h : k ∈ l.seen) : k ∈ (greedyVisit w v l n).seen := by
  unfold greedyVisit
  simp only
  split
  · exact (mem_setAdd _ _ _).mpr (Or.inr h)
  · exact h

theorem greedyVisit_id (w : World) (v : Pos) (l : GreedyLocals) (n : Pos)
    (h : n.key ∈ l.seen) : greedyVisit w v l n = l := by
  have : setHas l.seen (key n.y n.x) = true := (setHas_iff _ _).mpr h
  simp [greedyVisit, this]

theorem astarVisit_start (w : World) (v : Pos) (l : AstarLocals) (n : Pos)
    (h : mapGet l.g w.skey = some 0) :
    mapGet (astarVisit w v l n).g w.skey = some 0 := by
  unfold astarVisit
  simp only
  split
  · rename_i hc
    show mapGet (mapSet l.g (key n.y n.x) _) w.skey = some 0
    rw [mapGet_mapSet]
    by_cases hk : key n.y n.x = w.skey
    · exfalso
      rw [hk, mapHas_iff, h] at hc
      simp at hc
    · rw [if_neg hk]
      exact h
  · exact h

theorem astarVisit_id (w : World) (v : Pos) (l : AstarLocals)
    (h : mapGet l.g w.skey = some 0) : astarVisit w v l w.start = l := by
  have h' : mapGet l.g (key w.start.y w.start.x) = some 0 := h
  unfold astarVisit
  simp only
  rw [if_neg]
  rw [mapHas_iff, h']
  simp

theorem foldl_pres {σ : Type} (f : σ → Pos → σ) (P : σ → Prop)
    (hP : ∀ s n, P s → P (f s n)) : ∀ (ns : List Pos) (s : σ), P s → P (ns.foldl f s) := by
  intro ns
  induction ns with
  | nil => intro s h; exact h
  | cons n ns ih => intro s h; exact ih _ (hP s n h)

end Maze

namespace Maze

theorem bfsIter_clear (w : World) (hs : InBounds w w.skey) (l : BfsLocals)
    (h : w.skey ∈ l.seen) :
    bfsIter (w.clear w.start.y.toNat w.start.x.toNat) l = bfsIter w l := by
  obtain ⟨q, seen, came⟩ := l
  cases q with
  | nil => rfl
  | cons v q =>
    have e := neighbors_clear w hs (bfsVisit v) (fun l => w.skey ∈ l.seen)
      (fun s n hP => bfsVisit_seen v s n _ hP) (fun s hP => bfsVisit_id v s w.start hP)
      v.y v.x ⟨q, seen, came⟩ h
    simp only [bfsIter]
    rw [e]
    rfl

theorem bfsIter_kept (w : World) (l : BfsLocals) (h : w.skey ∈ l.seen) :
    StartKept w (bfsIter w l).1 := by
  obtain ⟨q, seen, came⟩ := l
  cases q with
  | nil => trivial
  | cons v q =>
    simp only [bfsIter]
    split
    · trivial
    · exact foldl_pres (bfsVisit v) (fun l => w.skey ∈ l.seen)
        (fun s n hP => bfsVisit_seen v s n _ hP) _ ⟨q, seen, came⟩ h

theorem dfsIter_clear (w : World) (hs : InBounds w w.skey) (l : DfsLocals)
    (h : w.skey ∈ l.seen) :
    dfsIter (w.clear w.start.y.toNat w.start.x.toNat) l = dfsIter w l := by
  obtain ⟨st, seen, came⟩ := l
  cases hl : st.getLast? with
  | none => simp only [dfsIter, hl]
  | some v =>
    have e := neighbors_clear w hs (dfsVisit v) (fun l => w.skey ∈ l.seen)
      (fun s n hP => dfsVisit_seen v s n _ hP) (fun s hP => dfsVisit_id v s w.start hP)
      v.y v.x ⟨st.dropLast, seen, came⟩ h
    simp only [dfsIter, hl]
    rw [e]
    rfl

theorem dfsIter_kept (w : World) (l : DfsLocals) (h : w.skey ∈ l.seen) :
    StartKept w (dfsIter w l).1 := by
  obtain ⟨st, seen, came⟩ := l
  cases hl : st.getLast? with
  | none => simp only [dfsIter, hl]; trivial
  | some v =>
    simp only [dfsIter, hl]
    split
    · trivial
    · exact foldl_pres (dfsVisit v) (fun l => w.skey ∈ l.seen)
        (fun s n hP => dfsVisit_seen v s n _ hP) _ ⟨st.dropLast, seen, came⟩ h

theorem greedyIter_clear (w : World) (hs : InBounds w w.skey) (l : GreedyLocals)
    (h : w.skey ∈ l.seen) :
    greedyIter (w.clear w.start.y.toNat w.start.x.toNat) l = greedyIter w l := by
  obtain ⟨pq, seen, came⟩ := l
  rcases hp : PriorityQueue.pop cmpH pq with ⟨_ | v, rest⟩
  · simp only [greedyIter, hp]
  · have e := neighbors_clear w hs (greedyVisit w v.pos) (fun l => w.skey ∈ l.seen)
      (fun s n hP => greedyVisit_seen w v.pos s n _ hP)
      (fun s hP => greedyVisit_id w v.pos s w.start hP)
      v.y v.x ⟨rest, seen, came⟩ h
    have e' : (neighbors (w.clear w.start.y.toNat w.start.x.toNat) v.y v.x).foldl
        (greedyVisit (w.clear w.start.y.toNat w.start.x.toNat) v.pos) ⟨rest, seen, came⟩ =
        (neighbors w v.y v.x).foldl (greedyVisit w v.pos) ⟨rest, seen, came⟩ := e
    simp only [greedyIter, hp]
    rw [e']
    rfl

theorem greedyIter_kept (w : World) (l : GreedyLocals) (h : w.skey ∈ l.seen) :
    StartKept w (greedyIter w l).1 := by
  obtain ⟨pq, seen, came⟩ := l
  rcases hp : PriorityQueue.pop cmpH pq with ⟨_ | v, rest⟩
  · simp only [greedyIter, hp]; trivial
  · simp only [greedyIter, hp]
    split
    · trivial
    · exact foldl_pres (greedyVisit w v.pos) (fun l => w.skey ∈ l.seen)
        (fun s n hP => greedyVisit_seen w v.pos s n _ hP) _ ⟨rest, seen, came⟩ h

theorem astarIter_clear (w : World) (hs : InBounds w w.skey) (l : AstarLocals)
    (h : mapGet l.g w.skey = some 0) :
    astarIter (w.clear w.start.y.toNat w.start.x.toNat) l = astarIter w l := by
  obtain ⟨g, came, pq, seen⟩ := l
  rcases hp : PriorityQueue.pop cmpF pq with ⟨_ | v, rest⟩
  · simp only [astarIter, hp]
  · have e := neighbors_clear w hs (astarVisit w v.pos) (fun l => mapGet l.g w.skey = some 0)
      (fun s n hP => astarVisit_start w v.pos s n hP)
      (fun s hP => astarVisit_id w v.pos s hP)
      v.y v.x ⟨g, came, rest, setAdd seen (key v.y v.x)⟩ h
    have e' : (neighbors (w.clear w.start.y.toNat w.start.x.toNat) v.y v.x).foldl
        (astarVisit (w.clear w.start.y.toNat w.start.x.toNat) v.pos)
          ⟨g, came, rest, setAdd seen (key v.y v.x)⟩ =
        (neighbors w v.y v.x).foldl (astarVisit w v.pos)
          ⟨g, came, rest, setAdd seen (key v.y v.x)⟩ := e
    simp only [astarIter, hp]
    rw [e']
    rfl

theorem astarIter_kept (w : World) (l : AstarLocals) (h : mapGet l.g w.skey = some 0) :
    StartKept w (astarIter w l).1 := by
  obtain ⟨g, came, pq, seen⟩ := l
  rcases hp : PriorityQueue.pop cmpF pq with ⟨_ | v, rest⟩
  · simp only [astarIter, hp]; trivial
  · simp only [astarIter, hp]
    split
    · exact h
    · split
      · trivial
      · exact foldl_pres (astarVisit w v.pos) (fun l => mapGet l.g w.skey = some 0)
          (fun s n hP => astarVisit_start w v.pos s n hP) _
          ⟨g, came, rest, setAdd seen (key v.y v.x)⟩ h

theorem next_clear (w : World) (hs : InBounds w w.skey) (s : GenState) (h : StartKept w s) :
    s.next (w.clear w.start.y.toNat w.start.x.toNat) = s.next w := by
  cases s with
  | fresh k =>
    cases k with
    | bfs => exact bfsIter_clear w hs (bfsInit w) (by simp [bfsInit, World.skey])
    | dfs => exact dfsIter_clear w hs (dfsInit w) (by simp [dfsInit, World.skey])
    | greedy => exact greedyIter_clear w hs (greedyInit w) (by simp [greedyInit, World.skey])
    | astar => exact astarIter_clear w hs (astarInit w) (by simp [astarInit, World.skey, mapGet])
  | bfs l => exact bfsIter_clear w hs l h
  | dfs l => exact dfsIter_clear w hs l h
  | greedy l => exact greedyIter_clear w hs l h
  | astar l => exact astarIter_clear w hs l h
  | finished => rfl

theorem next_kept (w : World) (s : GenState) (h : StartKept w s) :
    StartKept w (s.next w).1 := by
  cases s with
  | fresh k =>
    cases k with
    | bfs => exact bfsIter_kept w (bfsInit w) (by simp [bfsInit, World.skey])
    | dfs => exact dfsIter_kept w (dfsInit w) (by simp [dfsInit, World.skey])
    | greedy => exact greedyIter_kept w (greedyInit w) (by simp [greedyInit, World.skey])
    | astar => exact astarIter_kept w (astarInit w) (by simp [astarInit, World.skey, mapGet])
  | bfs l => exact bfsIter_kept w l h
  | dfs l => exact dfsIter_kept w l h
  | greedy l => exact greedyIter_kept w l h
  | astar l => exact astarIter_kept w l h
  | finished => trivial

theorem step_clear (w : World) (hs : InBounds w w.skey) (r : Runner) (h : StartKept w r.iter) :
    Runner.step (w.clear w.start.y.toNat w.start.x.toNat) r = Runner.step w r := by
  unfold Runner.step
  rw [next_clear w hs r.iter h]
  rfl

theorem step_iter (w : World) (r r' : Runner) (hd : r.done = false)
    (hr : Runner.step w r = some r') : r'.iter = (r.iter.next w).1 := by
  unfold Runner.step at hr
  simp only [hd, Bool.false_eq_true, if_false] at hr
  cases hv : (r.iter.next w).2.value with
  | none =>
    rw [hv] at hr
    by_cases hdone : (r.iter.next w).2.done = true
    · simp only [hdone, if_true, Option.none_bind, Option.some.injEq] at hr
      subst hr
      rfl
    · simp only [hdone, Bool.false_eq_true, if_false, Option.some.injEq] at hr
      subst hr
      rfl
  | some st =>
    rw [hv] at hr
    by_cases hdone : (r.iter.next w).2.done = true
    · simp only [hdone, if_true, Option.some_bind] at hr
      cases hc : st.came with
      | none =>
        rw [hc] at hr
        simp only [Option.some.injEq] at hr
        subst hr
        rfl
      | some came =>
        rw [hc] at hr
        simp only [Option.map_eq_some'] at hr
        obtain ⟨p, -, hp⟩ := hr
        subst hp
        rfl
    · simp only [hdone, Bool.false_eq_true, if_false, Option.some.injEq] at hr
      subst hr
      rfl

theorem step_kept (w : World) (r r' : Runner) (h : StartKept w r.iter)
    (hr : Runner.step w r = some r') : StartKept w r'.iter := by
  by_cases hd : r.done = true
  · rw [Runner.step, if_pos hd] at hr
    cases hr
    exact h
  · rw [step_iter w r r' (by simpa using hd) hr]
    exact next_kept w r.iter h

theorem steps_clear (w : World) (hs : InBounds w w.skey) : ∀ (n : Nat) (r : Runner),
    StartKept w r.iter →
    Runner.steps (w.clear w.start.y.toNat w.start.x.toNat) n r = Runner.steps w n r := by
  intro n
  induction n with
  | zero => intro r _; rfl
  | succ n ih =>
    intro r h
    simp only [Runner.steps]
    rw [step_clear w hs r h]
    cases hr : Runner.step w r with
    | none => rfl
    | some r' =>
      simp only [Option.bind_eq_bind, Option.some_bind]
      exact ih r' (step_kept w r r' h hr)

end Maze

namespace Maze

/-! ## The shared invariant -/

theorem sinv_congr {w : World} {lvl : Key → Nat} {fr fr' seen : List Key}
    {came : List (Key × Key)} (h : SInv w lvl fr seen came) (hfr : ∀ k, k ∈ fr' ↔ k ∈ fr) :
    SInv w lvl fr' seen came :=
  { h with
    fr_seen := fun k hk => h.fr_seen k ((hfr k).mp hk)
    closed := fun k hk => (h.closed k hk).imp (fun h' => (hfr k).mpr h') id
    goal_fr := fun hg => (hfr _).mpr (h.goal_fr hg) }

theorem sinv_visit {w : World} {lvl : Key → Nat} {fr seen : List Key}
    {came : List (Key × Key)} (h : SInv w lvl fr seen came) (v n : Key) (hv : v ∈ seen)
    (hm : Move w v n) (hn : n ∉ seen) :
    SInv w (Function.update lvl n (lvl v + 1)) (n :: fr) (seen ++ [n]) (mapSet came n v) := by
  have hne : ∀ k ∈ seen, k ≠ n := fun k hk e => hn (e ▸ hk)
  have hl : ∀ k ∈ seen, Function.update lvl n (lvl v + 1) k = lvl k := fun k hk =>
    Function.update_noteq (hne k hk) _ _
  have hln : Function.update lvl n (lvl v + 1) n = lvl v + 1 := Function.update_same _ _ _
  refine
    { start_seen := List.mem_append_left _ h.start_seen
      lvl_start := by rw [hl _ h.start_seen]; exact h.lvl_start
      fr_seen := ?_
      came_iff := ?_
      came_ok := ?_
      closed := ?_
      goal_fr := ?_
      nodup := ?_
      univ := ?_
      walk := ?_
      lvl_lt := ?_
      came_len := ?_ }
  · intro k hk
    rcases List.mem_cons.mp hk with rfl | hk
    · simp
    · exact List.mem_append_left _ (h.fr_seen k hk)
  · intro k
    rw [mapGet_mapSet]
    by_cases hk : n = k
    · subst hk
      simp only [if_true, ne_eq, reduceCtorEq, not_false_eq_true, List.mem_append,
        List.mem_singleton, or_true, true_and, true_iff]
      exact fun e => hn (e ▸ h.start_seen)
    · simp only [hk, if_false, List.mem_append, List.mem_singleton]
      rw [h.came_iff]
      constructor
      · rintro ⟨a, b⟩; exact ⟨Or.inl a, b⟩
      · rintro ⟨a | a, b⟩
        · exact ⟨a, b⟩
        · exact absurd a.symm hk
  · intro k u hku
    rw [mapGet_mapSet] at hku
    by_cases hk : n = k
    · subst hk
      simp only [if_true, Option.some.injEq] at hku
      subst hku
      exact ⟨List.mem_append_left _ hv, hm, by rw [hln, hl _ hv]⟩
    · simp only [hk, if_false] at hku
      obtain ⟨a, b, c⟩ := h.came_ok k u hku
      have hks : k ∈ seen := ((h.came_iff k).mp (by rw [hku]; simp)).1
      exact ⟨List.mem_append_left _ a, b, by rw [hl _ hks, hl _ a]; exact c⟩
  · intro k hk
    rcases List.mem_append.mp hk with hk | hk
    · rcases h.closed k hk with a | a
      · exact Or.inl (List.mem_cons_of_mem _ a)
      · exact Or.inr fun m hm' => List.mem_append_left _ (a m hm')
    · simp only [List.mem_singleton] at hk
      subst hk
      exact Or.inl (List.mem_cons_self _ _)
  · intro hg
    rcases List.mem_append.mp hg with hg | hg
    · exact List.mem_cons_of_mem _ (h.goal_fr hg)
    · simp only [List.mem_singleton] at hg
      rw [hg]
      exact List.mem_cons_self _ _
  · rw [List.nodup_append]
    refine ⟨h.nodup, List.nodup_singleton _, ?_⟩
    intro a ha hb
    simp only [List.mem_singleton] at hb
    exact hn (hb ▸ ha)
  · intro k hk
    rcases List.mem_append.mp hk with hk | hk
    · exact h.univ k hk
    · simp only [List.mem_singleton] at hk
      subst hk
      exact Or.inr hm.2
  · intro k hk
    rcases List.mem_append.mp hk with hk | hk
    · rw [hl _ hk]; exact h.walk k hk
    · simp only [List.mem_singleton] at hk
      subst hk
      rw [hln]
      exact Walk.snoc (h.walk v hv) hm
  · intro k hk
    simp only [List.length_append, List.length_singleton]
    rcases List.mem_append.mp hk with hk | hk
    · rw [hl _ hk]
      have := h.lvl_lt k hk
      omega
    · simp only [List.mem_singleton] at hk
      subst hk
      rw [hln]
      have := h.lvl_lt v hv
      omega
  · have : mapGet came n = none := by
      by_contra hc
      exact hn ((h.came_iff n).mp hc).1
    rw [mapSet_length_new _ _ _ this]
    simp only [List.length_append, List.length_singleton]
    have := h.came_len
    omega

theorem sinv_pop {w : World} {lvl : Key → Nat} {fr seen : List Key}
    {came : List (Key × Key)} (v : Key) (h : SInv w lvl (v :: fr) seen came)
    (hcl : ∀ n, Move w v n → n ∈ seen) (hg : v ≠ w.gkey) : SInv w lvl fr seen came :=
  { h with
    fr_seen := fun k hk => h.fr_seen k (List.mem_cons_of_mem _ hk)
    closed := fun k hk => by
      rcases h.closed k hk with a | a
      · rcases List.mem_cons.mp a with rfl | a
        · exact Or.inr hcl
        · exact Or.inl a
      · exact Or.inr a
    goal_fr := fun hgs => by
      rcases List.mem_cons.mp (h.goal_fr hgs) with e | a
      · exact absurd e.symm hg
      · exact a }

/-- The `for` loop over the neighbours of `v`, for any search whose loop body acts
on frontier keys, `seen` and `came` as `VisitRel` says. -/
theorem sinv_fold {σ : Type} {w : World} (abs : σ → List Key × List Key × List (Key × Key))
    (f : σ → Pos → σ) (v : Key)
    (hf : ∀ s n, VisitRel v n.key (abs s) (abs (f s n))) :
    ∀ (ns : List Pos) (s : σ) (lvl : Key → Nat), (∀ n ∈ ns, Move w v n.key) →
      SInv w lvl (v :: (abs s).1) (abs s).2.1 (abs s).2.2 →
      ∃ lvl' news,
        SInv w lvl' (v :: (abs (ns.foldl f s)).1) (abs (ns.foldl f s)).2.1
          (abs (ns.foldl f s)).2.2 ∧
        (abs (ns.foldl f s)).2.1 = (abs s).2.1 ++ news ∧
        (abs (ns.foldl f s)).1.Perm (news ++ (abs s).1) ∧
        (∀ k ∈ (abs s).2.1, lvl' k = lvl k) ∧
        (∀ k ∈ news, lvl' k = lvl v + 1) ∧
        (∀ n ∈ ns, n.key ∈ (abs (ns.foldl f s)).2.1) := by
  intro ns
  induction ns with
  | nil =>
    intro s lvl _ h
    exact ⟨lvl, [], h, by simp, by simp, fun _ _ => rfl, by simp, by simp⟩
  | cons n ns ih =>
    intro s lvl hmv h
    have hvs : v ∈ (abs s).2.1 := h.fr_seen v (List.mem_cons_self _ _)
    rcases hf s n with ⟨hin, heq⟩ | ⟨hnin, hperm, hseen, hcame⟩
    · have h' : SInv w lvl (v :: (abs (f s n)).1) (abs (f s n)).2.1 (abs (f s n)).2.2 := by
        rw [heq]; exact h
      obtain ⟨lvl', news, a, b, c, d, e, g⟩ :=
        ih (f s n) lvl (fun m hm => hmv m (List.mem_cons_of_mem _ hm)) h'
      rw [heq] at b c d
      refine ⟨lvl', news, a, b, c, d, e, ?_⟩
      intro m hm
      rcases List.mem_cons.mp hm with rfl | hm
      · simp only [List.foldl_cons]
        rw [b]
        exact List.mem_append_left _ hin
      · exact g m hm
    · have h1 := sinv_visit h v n.key hvs (hmv n (List.mem_cons_self _ _)) hnin
      have h' : SInv w (Function.update lvl n.key (lvl v + 1)) (v :: (abs (f s n)).1)
          (abs (f s n)).2.1 (abs (f s n)).2.2 := by
        rw [hseen, hcame]
        refine sinv_congr h1 ?_
        intro k
        simp only [List.mem_cons, hperm.mem_iff]
        tauto
      obtain ⟨lvl', news, a, b, c, d, e, g⟩ :=
        ih (f s n) _ (fun m hm => hmv m (List.mem_cons_of_mem _ hm)) h'
      have hnv : v ≠ n.key := fun e => hnin (e ▸ hvs)
      refine ⟨lvl', n.key :: news, a, ?_, ?_, ?_, ?_, ?_⟩
      · simp only [List.foldl_cons]
        rw [b, hseen]; simp
      · simp only [List.foldl_cons]
        refine c.trans ?_
        refine (List.Perm.append_left news hperm).trans ?_
        exact List.perm_middle
      · intro k hk
        rw [d k (by rw [hseen]; exact List.mem_append_left _ hk)]
        exact Function.update_noteq (fun e => hnin (by rw [← e]; exact hk)) _ _
      · intro k hk
        rcases List.mem_cons.mp hk with rfl | hk
        · rw [d _ (by rw [hseen]; simp)]
          exact Function.update_same _ _ _
        · rw [e k hk, Function.update_noteq hnv]
      · intro m hm
        rcases List.mem_cons.mp hm with rfl | hm
        · simp only [List.foldl_cons]
          rw [b, hseen]; simp
        · exact g m hm

end Maze

namespace Maze

/-! ## Walks, routes and the backward walk of `reconstruct` -/

theorem key_ofKey (k : Key) : (Pos.ofKey k).key = k := rfl

theorem ofKey_key (p : Pos) : Pos.ofKey p.key = p := rfl

theorem map_key_ofKey (ks : List Key) : (ks.map Pos.ofKey).map Pos.key = ks := by
  induction ks with
  | nil => rfl
  | cons k ks ih => simp [key_ofKey, ih]

theorem walk_cons {w : World} {a b c : Key} {n : Nat} (hm : Move w a b) (h : Walk w b c n) :
    Walk w a c (n + 1) := by
  induction h with
  | nil => exact Walk.snoc Walk.nil hm
  | snoc _ hm' ih => exact Walk.snoc ih hm'

theorem walk_of_chain {w : World} : ∀ (l : List Key) (a : Key), List.Chain (Move w) a l →
    Walk w a ((a :: l).getLast (by simp)) l.length := by
  intro l
  induction l with
  | nil => intro a _; exact Walk.nil
  | cons b l ih =>
    intro a h
    rw [List.chain_cons] at h
    have := walk_cons h.1 (ih b h.2)
    simpa using this

/-- A walk is a chain of moves. -/
theorem chain_of_walk {w : World} {a b : Key} {n : Nat} (h : Walk w a b n) :
    ∃ l : List Key, l.length = n ∧ List.Chain' (Move w) (a :: l) ∧
      (a :: l).getLast? = some b := by
  induction h with
  | nil => exact ⟨[], rfl, by simp, rfl⟩
  | @snoc b c n _ hm ih =>
    obtain ⟨l, hl, hc, hlast⟩ := ih
    refine ⟨l ++ [c], by simp [hl], ?_, ?_⟩
    swap
    · show ((a :: l) ++ [c]).getLast? = some c
      exact List.getLast?_concat _
    rw [← List.cons_append, List.chain'_append]
    refine ⟨hc, by simp, ?_⟩
    intro x hx y hy
    rw [hlast] at hx
    simp only [Option.mem_def, Option.some.injEq, List.head?_cons] at hx hy
    subst hx; subst hy
    exact hm

/-- The backward walk over a predecessor map on which a rank drops by one at every
link: it stops at the start key after as many rounds as the rank says, and what it
collected is, read in reverse, a route from the start. -/
theorem chain_lemma (w : World) (came : List (Key × Key)) (S : Key → Prop) (rank : Key → Nat)
    (hstep : ∀ k v, S k → mapGet came k = some v → S v ∧ Move w v k ∧ rank k = rank v + 1)
    (hstop : ∀ k, S k → mapGet came k = none → k = w.skey)
    (hstart : rank w.skey = 0) :
    ∀ (n : Nat) (k : Key), S k → rank k = n →
      ∃ ks : List Key, ks.length = n ∧
        (∀ fuel acc, n < fuel →
          reconstructLoop came fuel k acc = some (acc ++ ks.map Pos.ofKey, w.skey)) ∧
        List.Chain' (Move w) (w.skey :: ks.reverse) ∧
        (w.skey :: ks.reverse).getLast? = some k ∧
        (w.skey :: ks.reverse).Nodup ∧
        (∀ x ∈ ks, rank x ≤ n ∧ 0 < rank x) := by
  intro n
  induction n with
  | zero =>
    intro k hk hr
    cases hg : mapGet came k with
    | some v =>
      have := (hstep k v hk hg).2.2
      omega
    | none =>
      have hks := hstop k hk hg
      subst hks
      refine ⟨[], rfl, ?_, by simp, by simp, by simp, by simp⟩
      intro fuel acc hf
      obtain ⟨f, rfl⟩ : ∃ f, fuel = f + 1 := ⟨fuel - 1, by omega⟩
      simp [reconstructLoop, hg]
  | succ n ih =>
    intro k hk hr
    cases hg : mapGet came k with
    | none =>
      have hks := hstop k hk hg
      subst hks
      omega
    | some v =>
      obtain ⟨hSv, hmv, hrk⟩ := hstep k v hk hg
      obtain ⟨ks, hlen, hloop, hchain, hlast, hnd, hrank⟩ := ih v hSv (by omega)
      refine ⟨k :: ks, by simp [hlen], ?_, ?_, ?_, ?_, ?_⟩
      · intro fuel acc hf
        obtain ⟨f, rfl⟩ : ∃ f, fuel = f + 1 := ⟨fuel - 1, by omega⟩
        simp only [reconstructLoop, hg]
        rw [hloop f _ (by omega)]
        simp [Pos.ofKey]
      · rw [List.reverse_cons, ← List.cons_append, List.chain'_append]
        refine ⟨hchain, by simp, ?_⟩
        intro x hx y hy
        rw [hlast] at hx
        simp only [Option.mem_def, Option.some.injEq, List.head?_cons] at hx hy
        subst hx; subst hy
        exact hmv
      · rw [List.reverse_cons]
        show ((w.skey :: ks.reverse) ++ [k]).getLast? = some k
        exact List.getLast?_concat _
      · rw [List.reverse_cons, ← List.cons_append, List.nodup_append]
        refine ⟨hnd, List.nodup_singleton _, ?_⟩
        intro a ha hb
        simp only [List.mem_singleton] at hb
        subst hb
        rcases List.mem_cons.mp ha with e | ha
        · rw [e, hstart] at hr; omega
        · have := (hrank a (List.mem_reverse.mp ha)).1
          omega
      · intro x hx
        rcases List.mem_cons.mp hx with rfl | hx
        · omega
        · have := hrank x hx
          omega

theorem routeOK_of_chain (w : World) (came : List (Key × Key)) (S : Key → Prop)
    (rank : Key → Nat)
    (hstep : ∀ k v, S k → mapGet came k = some v → S v ∧ Move w v k ∧ rank k = rank v + 1)
    (hstop : ∀ k, S k → mapGet came k = none → k = w.skey)
    (hstart : rank w.skey = 0) (hg : S w.gkey) (hlen : rank w.gkey ≤ came.length) :
    ∃ p, RouteOK w came p ∧ p.length = rank w.gkey := by
  obtain ⟨ks, h1, h2, h3, h4, h5, -⟩ :=
    chain_lemma w came S rank hstep hstop hstart _ w.gkey hg rfl
  refine ⟨(ks.map Pos.ofKey).reverse, ⟨?_, ?_, ?_, ?_⟩, by simp [h1]⟩
  · unfold WalksBack
    rw [h2 _ [] (by omega)]
    simp
  · unfold IsRoute
    rw [List.map_reverse, map_key_ofKey]
    exact h3
  · unfold routeEnd routeKeys
    simp only [List.map_reverse, map_key_ofKey]
    have := List.getLast?_eq_getLast (w.skey :: ks.reverse) (by simp)
    rw [h4] at this
    exact (Option.some.inj this).symm
  · unfold routeKeys
    rw [List.map_reverse, map_key_ofKey]
    exact h5

theorem RouteOK.walk {w : World} {came : List (Key × Key)} {p : List Pos}
    (h : RouteOK w came p) : Walk w w.skey w.gkey p.length := by
  have := walk_of_chain (p.map Pos.key) w.skey h.route
  have e : routeEnd w p = w.gkey := h.ends
  unfold routeEnd routeKeys at e
  rw [e] at this
  simpa using this

theorem RouteOK.reconstruct {w : World} {came : List (Key × Key)} {p : List Pos}
    (h : RouteOK w came p) : reconstruct (came.length + 1) came w.goal = some p := by
  have := h.back
  unfold WalksBack World.gkey at this
  unfold Maze.reconstruct
  rw [this]
  simp

end Maze

namespace Maze

/-! ## Consequences of the shared invariant -/

theorem mem_allCells (w : World) (k : Key) : k ∈ allCells w ↔ InBounds w k := by
  obtain ⟨y, x⟩ := k
  unfold allCells InBounds
  simp only [List.mem_flatMap, List.mem_range, List.mem_map, Prod.mk.injEq, Int.ofNat_eq_coe]
  constructor
  · rintro ⟨a, ha, b, hb, rfl, rfl⟩
    exact ⟨by omega, by omega, by omega, by omega⟩
  · rintro ⟨h1, h2, h3, h4⟩
    exact ⟨y.toNat, by omega, x.toNat, by omega, by omega, by omega⟩

theorem length_allCells (w : World) : (allCells w).length = w.rows * w.cols := by
  unfold allCells
  simp [List.length_flatMap, Function.comp_def]

theorem seen_length_le {w : World} {seen : List Key} (hnd : seen.Nodup)
    (hu : ∀ k ∈ seen, k = w.skey ∨ Passable w k) : seen.length ≤ w.rows * w.cols + 1 := by
  have hsub : seen ⊆ w.skey :: allCells w := by
    intro k hk
    rcases hu k hk with rfl | h
    · exact List.mem_cons_self _ _
    · exact List.mem_cons_of_mem _ ((mem_allCells w k).mpr h.1)
  have := (List.Nodup.subperm hnd hsub).length_le
  simpa [length_allCells] using this

theorem sinv_route {w : World} {lvl : Key → Nat} {fr seen : List Key}
    {came : List (Key × Key)} (h : SInv w lvl fr seen came) (hg : w.gkey ∈ seen) :
    ∃ p, RouteOK w came p ∧ p.length = lvl w.gkey := by
  apply routeOK_of_chain w came (fun k => k ∈ seen) lvl
  · intro k v _ hkv
    exact h.came_ok k v hkv
  · intro k hk hn
    by_contra hne
    exact (h.came_iff k).mpr ⟨hk, hne⟩ hn
  · exact h.lvl_start
  · exact hg
  · have := h.lvl_lt _ hg
    have := h.came_len
    omega

theorem sinv_complete {w : World} {lvl : Key → Nat} {seen : List Key}
    {came : List (Key × Key)} (h : SInv w lvl [] seen came) :
    ∀ k n, Walk w w.skey k n → k ∈ seen := by
  intro k n hw
  induction hw with
  | nil => exact h.start_seen
  | snoc _ hm ih =>
    rcases h.closed _ ih with a | a
    · simp at a
    · exact a _ hm

theorem sinv_unreachable {w : World} {lvl : Key → Nat} {seen : List Key}
    {came : List (Key × Key)} (h : SInv w lvl [] seen came) : ¬ Reachable w := by
  rintro ⟨n, hw⟩
  have := h.goal_fr (sinv_complete h _ _ hw)
  simp at this

/-- A search whose rounds keep an invariant and lower a measure finishes. -/
theorem drain_of_measure (w : World) (Inv : GenState → Prop) (μ : GenState → Nat)
    (P : IterResult → Prop)
    (hstep : ∀ s, Inv s → ((s.next w).2.done = true ∧ P (s.next w).2) ∨
      ((s.next w).2.done = false ∧ Inv (s.next w).1 ∧ μ (s.next w).1 < μ s)) :
    ∀ s, Inv s → ∃ n r, drain w n s = some r ∧ P r := by
  have key : ∀ m s, μ s = m → Inv s → ∃ n r, drain w n s = some r ∧ P r := by
    intro m
    induction m using Nat.strong_induction_on with
    | _ m ih =>
      intro s hμ hs
      rcases hstep s hs with ⟨hd, hp⟩ | ⟨hd, hi, hlt⟩
      · exact ⟨1, (s.next w).2, by simp [drain, hd], hp⟩
      · obtain ⟨n, r, hn, hr⟩ := ih _ (hμ ▸ hlt) _ rfl hi
        exact ⟨n + 1, r, by simp [drain, hd, hn], hr⟩
  exact fun s hs => key _ s rfl hs

theorem drain_mono (w : World) : ∀ (n : Nat) (s : GenState) (r : IterResult),
    drain w n s = some r → ∀ m, n ≤ m → drain w m s = some r := by
  intro n
  induction n with
  | zero => intro s r h; simp [drain] at h
  | succ n ih =>
    intro s r h m hm
    obtain ⟨m', rfl⟩ : ∃ m', m = m' + 1 := ⟨m - 1, by omega⟩
    unfold drain at h ⊢
    by_cases hd : (s.next w).2.done = true
    · simpa [hd] using h
    · simp only [hd, if_false] at h ⊢
      exact ih _ _ h m' (by omega)

theorem drain_fresh (w : World) (n : Nat) (k : Kind) :
    drain w n (.fresh k) =
      drain w n (match k with
        | .bfs => .bfs (bfsInit w)
        | .dfs => .dfs (dfsInit w)
        | .greedy => .greedy (greedyInit w)
        | .astar => .astar (astarInit w)) := by
  cases n with
  | zero => rfl
  | succ n => cases k <;> rfl

/-- The initial `seen` and `came` of the three searches satisfy the invariant. -/
theorem sinv_init (w : World) : SInv w (fun _ => 0) [w.skey] [w.skey] [] :=
  { start_seen := by simp
    lvl_start := rfl
    fr_seen := fun k hk => hk
    came_iff := fun k => by simp [mapGet]
    came_ok := fun k v h => by simp [mapGet] at h
    closed := fun k hk => Or.inl hk
    goal_fr := fun h => h
    nodup := by simp
    univ := fun k hk => Or.inl (by simpa using hk)
    walk := fun k hk => by
      have : k = w.skey := by simpa using hk
      subst this
      exact Walk.nil
    lvl_lt := fun k _ => by simp
    came_len := rfl }

end Maze

namespace Maze

/-! ## One round of a search that marks cells when it queues them -/

theorem goal_test_iff (w : World) (y x : Int) :
    (y = w.goal.y ∧ x = w.goal.x) ↔ key y x = w.gkey := by
  unfold World.gkey key
  simp [Prod.ext_iff]

theorem sstep {σ : Type} {w : World} (abs : σ → List Key × List Key × List (Key × Key))
    (f : σ → Pos → σ) (v : Pos)
    (hf : ∀ s n, VisitRel v.key n.key (abs s) (abs (f s n)))
    (s : σ) (lvl : Key → Nat)
    (h : SInv w lvl (v.key :: (abs s).1) (abs s).2.1 (abs s).2.2) (hg : v.key ≠ w.gkey) :
    ∃ lvl' news,
      SInv w lvl' (abs ((neighbors w v.y v.x).foldl f s)).1
        (abs ((neighbors w v.y v.x).foldl f s)).2.1
        (abs ((neighbors w v.y v.x).foldl f s)).2.2 ∧
      (abs ((neighbors w v.y v.x).foldl f s)).2.1 = (abs s).2.1 ++ news ∧
      (abs ((neighbors w v.y v.x).foldl f s)).1.Perm (news ++ (abs s).1) ∧
      (∀ k ∈ (abs s).2.1, lvl' k = lvl k) ∧
      (∀ k ∈ news, lvl' k = lvl v.key + 1) ∧
      (∀ n, Move w v.key n → n ∈ (abs ((neighbors w v.y v.x).foldl f s)).2.1) ∧
      smeasure w (abs ((neighbors w v.y v.x).foldl f s)).1.length
          (abs ((neighbors w v.y v.x).foldl f s)).2.1 + 1 =
        smeasure w ((abs s).1.length + 1) (abs s).2.1 := by
  obtain ⟨lvl', news, a, b, c, d, e, g⟩ :=
    sinv_fold abs f v.key hf (neighbors w v.y v.x) s lvl
      (fun n hn => (mem_neighbors w v.y v.x n).mp hn) h
  have hcl : ∀ n, Move w v.key n → n ∈ (abs ((neighbors w v.y v.x).foldl f s)).2.1 := by
    intro n hn
    have : Pos.ofKey n ∈ neighbors w v.y v.x := (mem_neighbors w v.y v.x _).mpr hn
    exact g _ this
  refine ⟨lvl', news, sinv_pop v.key a hcl hg, b, c, d, e, hcl, ?_⟩
  have hle := seen_length_le a.nodup a.univ
  have h1 := c.length_eq
  rw [b] at hle ⊢
  simp only [List.length_append] at hle h1 ⊢
  unfold smeasure
  simp only [List.length_append]
  omega

/-- The search is over with an empty frontier: the goal is unreachable. -/
theorem final_null {w : World} {lvl : Key → Nat} {seen : List Key} {came : List (Key × Key)}
    (opt : Bool) (h : SInv w lvl [] seen came) :
    FinalOK w opt ⟨some { came := none, closed := some seen }, true⟩ :=
  ⟨rfl, Or.inl ⟨sinv_unreachable h, seen, List.ne_nil_of_mem h.start_seen, rfl⟩⟩

/-- The search popped the goal: `came` yields a route. -/
theorem final_found {w : World} {lvl : Key → Nat} {fr seen : List Key}
    {came : List (Key × Key)} (h : SInv w lvl (w.gkey :: fr) seen came) :
    ∃ p, RouteOK w came p ∧ p.length = lvl w.gkey :=
  sinv_route h (h.fr_seen _ (List.mem_cons_self _ _))

/-! ## Breadth-first search -/

/-- The view of the locals of `bfsGen` as frontier keys, `seen` and `came`. -/
theorem bfsVisit_rel (v : Pos) (l : BfsLocals) (n : Pos) :
    VisitRel v.key n.key (l.q.map Pos.key, l.seen, l.came)
      ((bfsVisit v l n).q.map Pos.key, (bfsVisit v l n).seen, (bfsVisit v l n).came) := by
  unfold bfsVisit VisitRel
  by_cases hn : n.key ∈ l.seen
  · left
    have : setHas l.seen (key n.y n.x) = true := (setHas_iff _ _).mpr hn
    simp [this, hn]
  · right
    have : ¬ setHas l.seen (key n.y n.x) = true := fun h => hn ((setHas_iff _ _).mp h)
    simp only [this, not_false_eq_true, if_true]
    refine ⟨hn, ?_, setAdd_new _ _ hn, rfl⟩
    simp

theorem bfs_fold_q (v : Pos) : ∀ (ns : List Pos) (l : BfsLocals),
    ∃ news, (ns.foldl (bfsVisit v) l).q.map Pos.key = l.q.map Pos.key ++ news ∧
      (ns.foldl (bfsVisit v) l).seen = l.seen ++ news := by
  intro ns
  induction ns with
  | nil => intro l; exact ⟨[], by simp, by simp⟩
  | cons n ns ih =>
    intro l
    obtain ⟨news, h1, h2⟩ := ih (bfsVisit v l n)
    simp only [List.foldl_cons]
    by_cases hn : n.key ∈ l.seen
    · have : bfsVisit v l n = l := by
        unfold bfsVisit
        have : setHas l.seen (key n.y n.x) = true := (setHas_iff _ _).mpr hn
        simp [this]
      rw [this] at h1 h2 ⊢
      exact ⟨news, h1, h2⟩
    · have hq : (bfsVisit v l n).q = l.q ++ [n] ∧ (bfsVisit v l n).seen = l.seen ++ [n.key] := by
        unfold bfsVisit
        have : ¬ setHas l.seen (key n.y n.x) = true := fun h => hn ((setHas_iff _ _).mp h)
        simp only [this, not_false_eq_true, if_true]
        exact ⟨rfl, setAdd_new _ _ hn⟩
      rw [hq.1] at h1
      rw [hq.2] at h2
      refine ⟨n.key :: news, ?_, ?_⟩
      · rw [h1]; simp
      · rw [h2]; simp

/-- With a sorted queue, no walk from the start is shorter than the depth of its end,
or else it is at least as long as the depth of some queued key. -/
theorem bfs_walk_bound {w : World} {lvl : Key → Nat} {q seen : List Key}
    {came : List (Key × Key)} (h : SInv w lvl q seen came) (hb : BExtra w lvl q seen) :
    ∀ u m, Walk w w.skey u m → (u ∈ seen ∧ lvl u ≤ m) ∨ (∃ a ∈ q, lvl a ≤ m) := by
  intro u m hw
  induction hw with
  | nil => exact Or.inl ⟨h.start_seen, by rw [h.lvl_start]⟩
  | @snoc b c n _ hm ih =>
    rcases ih with ⟨hbs, hbl⟩ | ⟨a, ha, hal⟩
    · rcases hb.exp_nb b hbs with hq | hcl
      · exact Or.inr ⟨b, hq, by omega⟩
      · obtain ⟨h1, h2⟩ := hcl c hm
        exact Or.inl ⟨h1, by omega⟩
    · exact Or.inr ⟨a, ha, by omega⟩

theorem bfs_init_inv (w : World) : BfsInv w (bfsInit w) := by
  refine ⟨fun _ => 0, sinv_init w, ?_⟩
  exact
    { sorted := by simp [bfsInit]
      span := fun _ _ _ _ => by simp
      exp_le := fun e he => Or.inl (by simpa [bfsInit] using he)
      exp_nb := fun e he => Or.inl (by simpa [bfsInit] using he) }

theorem bfs_step (w : World) (l : BfsLocals) (h : BfsInv w l) :
    ((bfsIter w l).2.done = true ∧ FinalOK w true (bfsIter w l).2) ∨
    ((bfsIter w l).2.done = false ∧ ∃ l', (bfsIter w l).1 = .bfs l' ∧ BfsInv w l' ∧
      smeasure w l'.q.length l'.seen < smeasure w l.q.length l.seen) := by
  obtain ⟨lvl, hs, hb⟩ := h
  obtain ⟨q, seen, came⟩ := l
  cases q with
  | nil =>
    left
    exact ⟨rfl, final_null true hs⟩
  | cons v q =>
    simp only [List.map_cons] at hs hb
    by_cases hg : v.y = w.goal.y ∧ v.x = w.goal.x
    · left
      have hvk : v.key = w.gkey := (goal_test_iff w v.y v.x).mp hg
      have e : bfsIter w ⟨v :: q, seen, came⟩ =
          (.finished, ⟨some { came := some came }, true⟩) := by
        simp [bfsIter, hg]
      rw [e]
      rw [hvk] at hs hb
      obtain ⟨p, hp, hlen⟩ := final_found hs
      refine ⟨rfl, rfl, Or.inr ⟨came, p, rfl, hp, ?_⟩⟩
      intro _
      refine ⟨hp.walk, ?_⟩
      intro m hm
      rw [hlen]
      rcases bfs_walk_bound hs hb _ _ hm with ⟨-, h2⟩ | ⟨a, ha, hal⟩
      · exact h2
      · rcases List.mem_cons.mp ha with rfl | ha'
        · exact hal
        · have := (List.pairwise_cons.mp hb.sorted).1 a ha'
          omega
    · right
      have hvk : v.key ≠ w.gkey := fun e => hg ((goal_test_iff w v.y v.x).mpr e)
      have e0 : bfsIter w ⟨v :: q, seen, came⟩ =
          (.bfs ((neighbors w v.y v.x).foldl (bfsVisit v) ⟨q, seen, came⟩),
            ⟨some { frontier := some ((neighbors w v.y v.x).foldl (bfsVisit v) ⟨q, seen, came⟩).q,
                    closed := some ((neighbors w v.y v.x).foldl (bfsVisit v) ⟨q, seen, came⟩).seen,
                    came := some ((neighbors w v.y v.x).foldl (bfsVisit v) ⟨q, seen, came⟩).came },
              false⟩) := by
        simp [bfsIter, hg]
      rw [e0]
      refine ⟨rfl, _, rfl, ?_⟩
      obtain ⟨lvl', news, a, b, c, d, e, g, hμ⟩ :=
        sstep (w := w) (fun l : BfsLocals => (l.q.map Pos.key, l.seen, l.came)) (bfsVisit v) v
          (bfsVisit_rel v) ⟨q, seen, came⟩ lvl hs hvk
      obtain ⟨news', hq1, hq2⟩ := bfs_fold_q v (neighbors w v.y v.x) ⟨q, seen, came⟩
      simp only at a b c d e g hμ hq1 hq2
      have hnn : news' = news := List.append_cancel_left (hq2.symm.trans b)
      subst hnn
      have hvs : v.key ∈ seen := hs.fr_seen _ (List.mem_cons_self _ _)
      have hqs : ∀ k ∈ q.map Pos.key, k ∈ seen := fun k hk =>
        hs.fr_seen k (List.mem_cons_of_mem _ hk)
      have hnew : ∀ k ∈ news', k ∉ seen := by
        intro k hk hks
        have hnd := a.nodup
        rw [b, List.nodup_append] at hnd
        exact hnd.2.2 hks hk
      have hvq : ∀ k ∈ q.map Pos.key, lvl v.key ≤ lvl k := fun k hk =>
        (List.pairwise_cons.mp hb.sorted).1 k hk
      have hqv : ∀ k ∈ q.map Pos.key, lvl k ≤ lvl v.key + 1 := fun k hk =>
        hb.span _ (List.mem_cons_self _ _) k (List.mem_cons_of_mem _ hk)
      constructor
      · refine ⟨lvl', a, ?_⟩
        rw [hq1, b]
        refine
          { sorted := ?_
            span := ?_
            exp_le := ?_
            exp_nb := ?_ }
        · rw [List.pairwise_append]
          refine ⟨?_, ?_, ?_⟩
          · refine (List.pairwise_cons.mp hb.sorted).2.imp_of_mem ?_
            intro x y hx hy hxy
            rw [d x (hqs x hx), d y (hqs y hy)]
            exact hxy
          · rw [List.pairwise_iff_forall_sublist]
            intro x y hxy
            have hx : x ∈ news' := hxy.subset (by simp)
            have hy : y ∈ news' := hxy.subset (by simp)
            rw [e x hx, e y hy]
          · intro x hx y hy
            rw [d x (hqs x hx), e y hy]
            exact hqv x hx
        · intro x hx y hy
          have hx' : lvl v.key ≤ lvl' x ∧ lvl' x ≤ lvl v.key + 1 := by
            rcases List.mem_append.mp hx with hx | hx
            · rw [d x (hqs x hx)]; exact ⟨hvq x hx, hqv x hx⟩
            · rw [e x hx]; omega
          have hy' : lvl v.key ≤ lvl' y ∧ lvl' y ≤ lvl v.key + 1 := by
            rcases List.mem_append.mp hy with hy | hy
            · rw [d y (hqs y hy)]; exact ⟨hvq y hy, hqv y hy⟩
            · rw [e y hy]; omega
          omega
        · intro x hx
          rcases List.mem_append.mp hx with hx | hx
          · rcases hb.exp_le x hx with hq | hle
            · rcases List.mem_cons.mp hq with rfl | hq
              · right
                intro y hy
                rw [d _ hvs]
                rcases List.mem_append.mp hy with hy | hy
                · rw [d y (hqs y hy)]; exact hvq y hy
                · rw [e y hy]; omega
              · exact Or.inl (List.mem_append_left _ hq)
            · right
              intro y hy
              rw [d x hx]
              rcases List.mem_append.mp hy with hy | hy
              · rw [d y (hqs y hy)]
                exact hle y (List.mem_cons_of_mem _ hy)
              · rw [e y hy]
                have := hle _ (List.mem_cons_self _ _)
                omega
          · exact Or.inl (List.mem_append_right _ hx)
        · intro x hx
          rcases List.mem_append.mp hx with hx | hx
          · have hold : ∀ n, n ∈ seen → lvl n ≤ lvl v.key + 1 := by
              intro n hn
              rcases hb.exp_le n hn with hq | hle
              · rcases List.mem_cons.mp hq with rfl | hq
                · omega
                · exact hqv n hq
              · have := hle _ (List.mem_cons_self _ _)
                omega
            rcases hb.exp_nb x hx with hq | hcl
            · rcases List.mem_cons.mp hq with rfl | hq
              · right
                intro n hn
                have hns := g n hn
                rw [b] at hns
                refine ⟨hns, ?_⟩
                rw [d _ hvs]
                rcases List.mem_append.mp hns with hn1 | hn1
                · rw [d n hn1]; exact hold n hn1
                · rw [e n hn1]
              · exact Or.inl (List.mem_append_left _ hq)
            · right
              intro n hn
              obtain ⟨h1, h2⟩ := hcl n hn
              refine ⟨List.mem_append_left _ h1, ?_⟩
              rw [d n h1, d x hx]
              exact h2
          · exact Or.inl (List.mem_append_right _ hx)
      · simp only [List.length_map, List.length_cons] at hμ ⊢
        omega

end Maze

namespace Maze

/-! ## Depth-first search -/

theorem dfsVisit_rel (v : Pos) (l : DfsLocals) (n : Pos) :
    VisitRel v.key n.key (l.st.map Pos.key, l.seen, l.came)
      ((dfsVisit v l n).st.map Pos.key, (dfsVisit v l n).seen, (dfsVisit v l n).came) := by
  unfold dfsVisit VisitRel
  by_cases hn : n.key ∈ l.seen
  · left
    have : setHas l.seen (key n.y n.x) = true := (setHas_iff _ _).mpr hn
    simp [this, hn]
  · right
    have : ¬ setHas l.seen (key n.y n.x) = true := fun h => hn ((setHas_iff _ _).mp h)
    simp only [this, not_false_eq_true, if_true]
    refine ⟨hn, ?_, setAdd_new _ _ hn, rfl⟩
    simp

theorem dfs_init_inv (w : World) : DfsInv w (dfsInit w) := ⟨fun _ => 0, sinv_init w⟩

theorem dfs_step (w : World) (l : DfsLocals) (h : DfsInv w l) :
    ((dfsIter w l).2.done = true ∧ FinalOK w false (dfsIter w l).2) ∨
    ((dfsIter w l).2.done = false ∧ ∃ l', (dfsIter w l).1 = .dfs l' ∧ DfsInv w l' ∧
      smeasure w l'.st.length l'.seen < smeasure w l.st.length l.seen) := by
  obtain ⟨lvl, hs⟩ := h
  obtain ⟨st, seen, came⟩ := l
  rcases List.eq_nil_or_concat st with rfl | ⟨r, v, hst⟩
  · left
    exact ⟨rfl, final_null false hs⟩
  · rw [List.concat_eq_append] at hst
    subst hst
    have hlast : (r ++ [v]).getLast? = some v := List.getLast?_concat _
    have hdrop : (r ++ [v]).dropLast = r := List.dropLast_concat
    have hs' : SInv w lvl (v.key :: r.map Pos.key) seen came := by
      refine sinv_congr hs ?_
      intro k
      simp only [List.map_append, List.map_cons, List.map_nil, List.mem_append,
        List.mem_cons, List.mem_singleton, List.not_mem_nil, or_false]
      tauto
    by_cases hg : v.y = w.goal.y ∧ v.x = w.goal.x
    · left
      have hvk : v.key = w.gkey := (goal_test_iff w v.y v.x).mp hg
      have e : dfsIter w ⟨r ++ [v], seen, came⟩ =
          (.finished, ⟨some { came := some came }, true⟩) := by
        simp [dfsIter, hg]
      rw [e]
      rw [hvk] at hs'
      obtain ⟨p, hp, -⟩ := final_found hs'
      exact ⟨rfl, rfl, Or.inr ⟨came, p, rfl, hp, by simp⟩⟩
    · right
      have hvk : v.key ≠ w.gkey := fun e => hg ((goal_test_iff w v.y v.x).mpr e)
      have e0 : dfsIter w ⟨r ++ [v], seen, came⟩ =
          (.dfs ((neighbors w v.y v.x).foldl (dfsVisit v) ⟨r, seen, came⟩),
            ⟨some { frontier := some ((neighbors w v.y v.x).foldl (dfsVisit v) ⟨r, seen, came⟩).st,
                    closed := some ((neighbors w v.y v.x).foldl (dfsVisit v) ⟨r, seen, came⟩).seen,
                    came := some ((neighbors w v.y v.x).foldl (dfsVisit v) ⟨r, seen, came⟩).came },
              false⟩) := by
        simp [dfsIter, hg]
      rw [e0]
      refine ⟨rfl, _, rfl, ?_⟩
      obtain ⟨lvl', news, a, -, -, -, -, -, hμ⟩ :=
        sstep (w := w) (fun l : DfsLocals => (l.st.map Pos.key, l.seen, l.came)) (dfsVisit v) v
          (dfsVisit_rel v) ⟨r, seen, came⟩ lvl hs' hvk
      refine ⟨⟨lvl', a⟩, ?_⟩
      simp only [List.length_map, List.length_append, List.length_singleton] at hμ ⊢
      omega

/-! ## Greedy best-first search -/

theorem greedyVisit_rel (w : World) (v : Pos) (l : GreedyLocals) (n : Pos) :
    VisitRel v.key n.key (l.pq.map (fun e => e.pos.key), l.seen, l.came)
      ((greedyVisit w v l n).pq.map (fun e => e.pos.key), (greedyVisit w v l n).seen,
        (greedyVisit w v l n).came) := by
  unfold greedyVisit VisitRel
  by_cases hn : n.key ∈ l.seen
  · left
    have : setHas l.seen (key n.y n.x) = true := (setHas_iff _ _).mpr hn
    simp [this, hn]
  · right
    have : ¬ setHas l.seen (key n.y n.x) = true := fun h => hn ((setHas_iff _ _).mp h)
    simp only [this, not_false_eq_true, if_true]
    refine ⟨hn, ?_, setAdd_new _ _ hn, rfl⟩
    exact (PriorityQueue.push_perm cmpH l.pq _).map _

theorem greedy_init_inv (w : World) : GreedyInv w (greedyInit w) := by
  refine ⟨fun _ => 0, ?_⟩
  have : (greedyInit w).pq = [⟨w.start.y, w.start.x, manhattan w.start w.goal⟩] := rfl
  rw [this]
  exact sinv_init w

theorem greedy_step (w : World) (l : GreedyLocals) (h : GreedyInv w l) :
    ((greedyIter w l).2.done = true ∧ FinalOK w false (greedyIter w l).2) ∨
    ((greedyIter w l).2.done = false ∧ ∃ l', (greedyIter w l).1 = .greedy l' ∧
      GreedyInv w l' ∧ smeasure w l'.pq.length l'.seen < smeasure w l.pq.length l.seen) := by
  obtain ⟨lvl, hs⟩ := h
  obtain ⟨pq, seen, came⟩ := l
  by_cases hne : pq = []
  · subst hne
    left
    exact ⟨rfl, final_null false hs⟩
  · obtain ⟨v, rest, hpop, -, hperm⟩ := PriorityQueue.pop_perm cmpH pq hne
    have hs' : SInv w lvl (v.pos.key :: rest.map (fun e => e.pos.key)) seen came := by
      refine sinv_congr hs ?_
      intro k
      have := (hperm.map (fun e : HNode => e.pos.key)).mem_iff (a := k)
      simp only [List.map_cons] at this
      exact this.symm
    by_cases hg : v.y = w.goal.y ∧ v.x = w.goal.x
    · left
      have hvk : v.pos.key = w.gkey := (goal_test_iff w v.y v.x).mp hg
      have e : greedyIter w ⟨pq, seen, came⟩ =
          (.finished, ⟨some { came := some came }, true⟩) := by
        simp [greedyIter, hpop, hg]
      rw [e]
      rw [hvk] at hs'
      obtain ⟨p, hp, -⟩ := final_found hs'
      exact ⟨rfl, rfl, Or.inr ⟨came, p, rfl, hp, by simp⟩⟩
    · right
      have hvk : v.pos.key ≠ w.gkey := fun e => hg ((goal_test_iff w v.y v.x).mpr e)
      have e0 : greedyIter w ⟨pq, seen, came⟩ =
          (.greedy ((neighbors w v.y v.x).foldl (greedyVisit w v.pos) ⟨rest, seen, came⟩),
            ⟨some { frontier := some (((neighbors w v.y v.x).foldl (greedyVisit w v.pos)
                      ⟨rest, seen, came⟩).pq.map HNode.pos),
                    closed := some ((neighbors w v.y v.x).foldl (greedyVisit w v.pos)
                      ⟨rest, seen, came⟩).seen,
                    came := some ((neighbors w v.y v.x).foldl (greedyVisit w v.pos)
                      ⟨rest, seen, came⟩).came },
              false⟩) := by
        simp [greedyIter, hpop, hg]
      rw [e0]
      refine ⟨rfl, _, rfl, ?_⟩
      obtain ⟨lvl', news, a, -, -, -, -, -, hμ⟩ :=
        sstep (w := w) (fun l : GreedyLocals => (l.pq.map (fun e => e.pos.key), l.seen, l.came))
          (greedyVisit w v.pos) v.pos (greedyVisit_rel w v.pos) ⟨rest, seen, came⟩ lvl hs' hvk
      refine ⟨⟨lvl', a⟩, ?_⟩
      have hl := hperm.length_eq
      simp only [List.length_map, List.length_cons, HNode.pos] at hμ hl ⊢
      rw [hl]
      omega

end Maze

namespace Maze

/-! ## The three searches finish with a correct result -/

theorem bfs_drain (w : World) : ∃ n r, drain w n (generators .bfs) = some r ∧ FinalOK w true r := by
  have h := drain_of_measure w (fun s => ∃ l, s = .bfs l ∧ BfsInv w l)
    (fun s => match s with
      | .bfs l => smeasure w l.q.length l.seen
      | _ => 0)
    (FinalOK w true) (by
      rintro s ⟨l, rfl, hl⟩
      rcases bfs_step w l hl with h | ⟨hd, l', he, hi, hlt⟩
      · exact Or.inl h
      · refine Or.inr ⟨hd, ?_, ?_⟩
        · exact ⟨l', he, hi⟩
        · show (match (GenState.next w (.bfs l)).1 with
            | .bfs l => smeasure w l.q.length l.seen
            | _ => 0) < _
          have he' : (GenState.next w (.bfs l)).1 = .bfs l' := he
          rw [he']
          exact hlt)
    (.bfs (bfsInit w)) ⟨_, rfl, bfs_init_inv w⟩
  obtain ⟨n, r, hn, hr⟩ := h
  exact ⟨n, r, by rw [generators, drain_fresh]; exact hn, hr⟩

theorem dfs_drain (w : World) :
    ∃ n r, drain w n (generators .dfs) = some r ∧ FinalOK w false r := by
  have h := drain_of_measure w (fun s => ∃ l, s = .dfs l ∧ DfsInv w l)
    (fun s => match s with
      | .dfs l => smeasure w l.st.length l.seen
      | _ => 0)
    (FinalOK w false) (by
      rintro s ⟨l, rfl, hl⟩
      rcases dfs_step w l hl with h | ⟨hd, l', he, hi, hlt⟩
      · exact Or.inl h
      · refine Or.inr ⟨hd, ?_, ?_⟩
        · exact ⟨l', he, hi⟩
        · show (match (GenState.next w (.dfs l)).1 with
            | .dfs l => smeasure w l.st.length l.seen
            | _ => 0) < _
          have he' : (GenState.next w (.dfs l)).1 = .dfs l' := he
          rw [he']
          exact hlt)
    (.dfs (dfsInit w)) ⟨_, rfl, dfs_init_inv w⟩
  obtain ⟨n, r, hn, hr⟩ := h
  exact ⟨n, r, by rw [generators, drain_fresh]; exact hn, hr⟩

theorem greedy_drain (w : World) :
    ∃ n r, drain w n (generators .greedy) = some r ∧ FinalOK w false r := by
  have h := drain_of_measure w (fun s => ∃ l, s = .greedy l ∧ GreedyInv w l)
    (fun s => match s with
      | .greedy l => smeasure w l.pq.length l.seen
      | _ => 0)
    (FinalOK w false) (by
      rintro s ⟨l, rfl, hl⟩
      rcases greedy_step w l hl with h | ⟨hd, l', he, hi, hlt⟩
      · exact Or.inl h
      · refine Or.inr ⟨hd, ?_, ?_⟩
        · exact ⟨l', he, hi⟩
        · show (match (GenState.next w (.greedy l)).1 with
            | .greedy l => smeasure w l.pq.length l.seen
            | _ => 0) < _
          have he' : (GenState.next w (.greedy l)).1 = .greedy l' := he
          rw [he']
          exact hlt)
    (.greedy (greedyInit w)) ⟨_, rfl, greedy_init_inv w⟩
  obtain ⟨n, r, hn, hr⟩ := h
  exact ⟨n, r, by rw [generators, drain_fresh]; exact hn, hr⟩

end Maze

namespace Maze

/-! ## A*: optimality of a popped key -/

/-- At the head of the loop, a walk from the start ends in an expanded key whose
cost is at most the length of the walk, or the queue holds an entry whose priority is
at most that length plus the heuristic of the end. -/
theorem astar_walk_bound {w : World} {l : AstarLocals} (h : AInv w l.seen l) :
    ∀ u m, Walk w w.skey u m →
      (u ∈ l.seen ∧ ∃ gu, mapGet l.g u = some gu ∧ gu ≤ m) ∨
      (∃ e ∈ l.pq, e.f ≤ (m : Int) + hkey w u) := by
  intro u m hw
  induction hw with
  | nil =>
    rcases h.opened _ _ h.g_start with hs | ⟨e, he, -, hf⟩
    · exact Or.inl ⟨hs, 0, h.g_start, le_refl _⟩
    · exact Or.inr ⟨e, he, by rw [hf]⟩
  | @snoc b c n _ hm ih =>
    rcases ih with ⟨hbs, gb, hgb, hle⟩ | ⟨e, he, hf⟩
    · obtain ⟨gb', hgb', hnb⟩ := h.closed_nb b hbs
      rw [hgb] at hgb'
      cases hgb'
      obtain ⟨gc, hgc, hgcle⟩ := hnb c hm
      rcases h.opened c gc hgc with hs | ⟨e, he, -, hf⟩
      · exact Or.inl ⟨hs, gc, hgc, by omega⟩
      · refine Or.inr ⟨e, he, ?_⟩
        rw [hf]
        push_cast
        omega
    · refine Or.inr ⟨e, he, ?_⟩
      have := hkey_adjacent w b c hm.1
      push_cast
      omega

/-- The key of the entry that `pop` returns has its final cost, unless it is stale. -/
theorem astar_pop_opt {w : World} {l : AstarLocals} (h : AInv w l.seen l) (v : FNode)
    (rest : List FNode) (hpop : PriorityQueue.pop cmpF l.pq = (some v, rest))
    (hv : v.pos.key ∉ l.seen) :
    ∃ gv, mapGet l.g v.pos.key = some gv ∧ ∀ m, Walk w w.skey v.pos.key m → gv ≤ m := by
  have hne : l.pq ≠ [] := by
    intro e
    rw [e] at hpop
    simp [PriorityQueue.pop] at hpop
  obtain ⟨top, rest', hp', -, hperm⟩ := PriorityQueue.pop_perm cmpF l.pq hne
  rw [hpop] at hp'
  simp only [Prod.mk.injEq, Option.some.injEq] at hp'
  obtain ⟨rfl, rfl⟩ := hp'
  have hvin : v ∈ l.pq := hperm.mem_iff.mpr (List.mem_cons_self _ _)
  obtain ⟨gv, hgv, hfv⟩ := h.pq_ok v hvin
  refine ⟨gv, hgv, ?_⟩
  intro m hw
  rcases astar_walk_bound h _ _ hw with ⟨hs, -⟩ | ⟨e, he, hf⟩
  · exact absurd hs hv
  · have hmin := PriorityQueue.pop_min PriorityQueue.cmpF_total l.pq h.heap v rest hpop e he
    unfold cmpF at hmin
    omega

/-! ## A*: the measure -/

theorem g_length_le {w : World} {C : List Key} {l : AstarLocals} (h : AInv w C l) :
    l.g.length ≤ w.rows * w.cols + 1 := by
  have := seen_length_le (w := w) h.g_nodup (fun k hk => h.g_univ k ((mem_keys_iff _ _).mp hk))
  simpa using this

theorem mem_univF (w : World) (k : Key) (h : k = w.skey ∨ Passable w k) : k ∈ univF w := by
  unfold univF
  rcases h with rfl | h
  · exact Finset.mem_insert_self _ _
  · exact Finset.mem_insert_of_mem (List.mem_toFinset.mpr ((mem_allCells w k).mpr h.1))

/-- Lowering the cost of one key lowers the sum of the costs. -/
theorem gcost_sum_lt (w : World) (g : List (Key × Nat)) (n : Key) (t : Nat)
    (hn : n ∈ univF w) (hlt : t < gcost w g n) :
    Finset.sum (univF w) (gcost w (mapSet g n t)) < Finset.sum (univF w) (gcost w g) := by
  apply Finset.sum_lt_sum
  · intro k _
    unfold gcost
    rw [mapGet_mapSet]
    by_cases hk : n = k
    · subst hk
      simp only [if_true]
      exact le_of_lt hlt
    · simp [hk]
  · refine ⟨n, hn, ?_⟩
    unfold gcost
    rw [mapGet_mapSet]
    simpa using hlt

end Maze

namespace Maze

/-! ## A*: one round of the `for` loop -/

theorem astarVisit_skip (w : World) (v : Pos) (l : AstarLocals) (n : Pos) (gv : Nat)
    (hgv : mapGet l.g v.key = some gv)
    (hc : ¬ (¬ mapHas l.g n.key = true ∨ gv + 1 < (mapGet l.g n.key).getD 0)) :
    astarVisit w v l n = l := by
  have hgv' : mapGet l.g (key v.y v.x) = some gv := hgv
  have hc' : ¬ (¬ mapHas l.g (key n.y n.x) = true ∨
      gv + 1 < (mapGet l.g (key n.y n.x)).getD 0) := hc
  unfold astarVisit
  simp only [hgv', Option.getD_some]
  rw [if_neg hc']

theorem astarVisit_update (w : World) (v : Pos) (l : AstarLocals) (n : Pos) (gv : Nat)
    (hgv : mapGet l.g v.key = some gv)
    (hc : ¬ mapHas l.g n.key = true ∨ gv + 1 < (mapGet l.g n.key).getD 0) :
    astarVisit w v l n =
      { g := mapSet l.g n.key (gv + 1), came := mapSet l.came n.key v.key,
        pq := PriorityQueue.push cmpF l.pq
          ⟨n.y, n.x, ((gv + 1 : Nat) : Int) + manhattan n w.goal⟩,
        seen := l.seen } := by
  have hgv' : mapGet l.g (key v.y v.x) = some gv := hgv
  have hc' : (¬ mapHas l.g (key n.y n.x) = true ∨
      gv + 1 < (mapGet l.g (key n.y n.x)).getD 0) := hc
  unfold astarVisit
  simp only [hgv', Option.getD_some]
  rw [if_pos hc']
  rfl

theorem astar_visit {w : World} {C : List Key} {l : AstarLocals} (v n : Pos) (gv : Nat)
    (h : AInv w C l) (hv : v.key ∈ l.seen) (hgv : mapGet l.g v.key = some gv)
    (hm : Move w v.key n.key) :
    AInv w C (astarVisit w v l n) ∧ (astarVisit w v l n).seen = l.seen ∧
      (∃ gn, mapGet (astarVisit w v l n).g n.key = some gn ∧ gn ≤ gv + 1) ∧
      (∀ k gk, mapGet l.g k = some gk →
        ∃ gk', mapGet (astarVisit w v l n).g k = some gk' ∧ gk' ≤ gk) ∧
      (∀ k ∈ l.seen, mapGet (astarVisit w v l n).g k = mapGet l.g k) ∧
      ameasure w (astarVisit w v l n) ≤ ameasure w l := by
  by_cases hc : ¬ mapHas l.g n.key = true ∨ gv + 1 < (mapGet l.g n.key).getD 0
  swap
  · rw [astarVisit_skip w v l n gv hgv hc]
    refine ⟨h, rfl, ?_, fun k gk hk => ⟨gk, hk, le_refl _⟩, fun _ _ => rfl, le_refl _⟩
    rw [not_or, not_not, mapHas_iff] at hc
    obtain ⟨hc1, hc2⟩ := hc
    cases hgn : mapGet l.g n.key with
    | none => exact absurd hgn hc1
    | some gn =>
      rw [hgn] at hc2
      simp only [Option.getD_some] at hc2
      exact ⟨gn, rfl, by omega⟩
  rw [astarVisit_update w v l n gv hgv hc]
  have hwalk : Walk w w.skey n.key (gv + 1) := Walk.snoc (h.g_walk _ _ hgv) hm
  -- the cost of `n` really drops
  have hold : ∀ gn, mapGet l.g n.key = some gn → gv + 1 < gn := by
    intro gn hgn
    rcases hc with hc | hc
    · exact absurd ((mapHas_iff _ _).mpr (by rw [hgn]; simp)) hc
    · rw [hgn] at hc
      simpa using hc
  have hns : n.key ∉ l.seen := by
    intro hs
    cases hgn : mapGet l.g n.key with
    | none => exact h.seen_g _ hs hgn
    | some gn =>
      have h1 := hold gn hgn
      have h2 := h.opt _ hs gn hgn _ hwalk
      omega
  have hnk : n.key ≠ w.skey := by
    intro e
    have := hold 0 (e ▸ h.g_start)
    omega
  have hnv : n.key ≠ v.key := fun e => hns (e ▸ hv)
  have hget : ∀ k, mapGet (mapSet l.g n.key (gv + 1)) k =
      if n.key = k then some (gv + 1) else mapGet l.g k := fun k => mapGet_mapSet _ _ _ _
  have hgetne : ∀ k, k ≠ n.key → mapGet (mapSet l.g n.key (gv + 1)) k = mapGet l.g k := by
    intro k hk
    rw [hget, if_neg (Ne.symm hk)]
  have hgetn : mapGet (mapSet l.g n.key (gv + 1)) n.key = some (gv + 1) := by
    rw [hget, if_pos rfl]
  have hmono : ∀ k gk, mapGet l.g k = some gk →
      ∃ gk', mapGet (mapSet l.g n.key (gv + 1)) k = some gk' ∧ gk' ≤ gk := by
    intro k gk hk
    by_cases hkn : k = n.key
    · subst hkn
      exact ⟨gv + 1, hgetn, le_of_lt (hold gk hk)⟩
    · exact ⟨gk, by rw [hgetne k hkn]; exact hk, le_refl _⟩
  have hlen := g_length_le h
  have hgvb := h.g_bound _ _ hgv
  have hpush := PriorityQueue.push_perm cmpF l.pq
    ⟨n.y, n.x, ((gv + 1 : Nat) : Int) + manhattan n w.goal⟩
  have hcame : ∀ k, mapGet (mapSet l.came n.key v.key) k =
      if n.key = k then some v.key else mapGet l.came k := fun k => mapGet_mapSet _ _ _ _
  refine ⟨?_, rfl, ⟨gv + 1, hgetn, le_refl _⟩, hmono, ?_, ?_⟩
  · refine
      { g_start := by rw [hgetne _ (Ne.symm hnk)]; exact h.g_start
        came_iff := ?_
        came_ok := ?_
        g_walk := ?_
        opened := ?_
        closed_sub := h.closed_sub
        closed_nb := ?_
        seen_g := ?_
        opt := ?_
        heap := PriorityQueue.push_heap PriorityQueue.cmpF_total _ _ h.heap
        pq_ok := ?_
        g_bound := ?_
        came_len := ?_
        g_nodup := mapSet_keys_nodup _ _ _ h.g_nodup
        g_univ := ?_
        goal_open := h.goal_open }
    · intro k
      simp only [hcame, hget]
      by_cases hk : n.key = k
      · subst hk
        simp [hnk]
      · simp only [hk, if_false]
        exact h.came_iff k
    · intro k u hku
      simp only [hcame] at hku
      by_cases hk : n.key = k
      · subst hk
        simp only [if_true, Option.some.injEq] at hku
        subst hku
        exact ⟨gv + 1, gv, hgetn, by rw [hgetne _ (Ne.symm hnv)]; exact hgv, hm, le_refl _⟩
      · simp only [hk, if_false] at hku
        obtain ⟨gk, gu, h1, h2, h3, h4⟩ := h.came_ok k u hku
        obtain ⟨gu', h5, h6⟩ := hmono u gu h2
        exact ⟨gk, gu', by rw [hgetne _ (Ne.symm hk)]; exact h1, h5, h3, by omega⟩
    · intro k gk hk
      by_cases hkn : k = n.key
      · subst hkn
        rw [hgetn] at hk
        cases hk
        exact hwalk
      · rw [hgetne k hkn] at hk
        exact h.g_walk k gk hk
    · intro k gk hk
      by_cases hkn : k = n.key
      · subst hkn
        rw [hgetn] at hk
        cases hk
        right
        exact ⟨_, hpush.mem_iff.mpr (List.mem_cons_self _ _), rfl, rfl⟩
      · rw [hgetne k hkn] at hk
        rcases h.opened k gk hk with hs | ⟨e, he, h1, h2⟩
        · exact Or.inl hs
        · exact Or.inr ⟨e, hpush.mem_iff.mpr (List.mem_cons_of_mem _ he), h1, h2⟩
    · intro k hk
      obtain ⟨gk, h1, h2⟩ := h.closed_nb k hk
      have hkn : k ≠ n.key := fun e => hns (e ▸ h.closed_sub k hk)
      refine ⟨gk, by rw [hgetne k hkn]; exact h1, ?_⟩
      intro m hmv
      obtain ⟨gm, h3, h4⟩ := h2 m hmv
      obtain ⟨gm', h5, h6⟩ := hmono m gm h3
      exact ⟨gm', h5, by omega⟩
    · intro k hk
      have hkn : k ≠ n.key := fun e => hns (e ▸ hk)
      rw [hgetne k hkn]
      exact h.seen_g k hk
    · intro k hk gk hgk
      have hkn : k ≠ n.key := fun e => hns (e ▸ hk)
      rw [hgetne k hkn] at hgk
      exact h.opt k hk gk hgk
    · intro e he
      rcases List.mem_cons.mp (hpush.mem_iff.mp he) with rfl | he
      · refine ⟨gv + 1, hgetn, ?_⟩
        exact le_refl _
      · obtain ⟨ge, h1, h2⟩ := h.pq_ok e he
        obtain ⟨ge', h3, h4⟩ := hmono _ ge h1
        refine ⟨ge', h3, ?_⟩
        have : (ge' : Int) ≤ ge := by exact_mod_cast h4
        omega
    · intro k gk hk
      show gk + 1 ≤ (mapSet l.g n.key (gv + 1)).length
      have hk : mapGet (mapSet l.g n.key (gv + 1)) k = some gk := hk
      have hl : l.g.length ≤ (mapSet l.g n.key (gv + 1)).length := by
        by_cases hp : mapGet l.g n.key = none
        · rw [mapSet_length_new _ _ _ hp]; omega
        · rw [mapSet_length_old _ _ _ hp]
      by_cases hkn : k = n.key
      · subst hkn
        rw [hgetn] at hk
        cases hk
        by_cases hp : mapGet l.g n.key = none
        · rw [mapSet_length_new _ _ _ hp]; omega
        · obtain ⟨gn, hgn⟩ := Option.ne_none_iff_exists'.mp hp
          have := hold gn hgn
          have := h.g_bound _ _ hgn
          omega
      · rw [hgetne k hkn] at hk
        have := h.g_bound k gk hk
        omega
    · show (mapSet l.came n.key v.key).length + 1 = (mapSet l.g n.key (gv + 1)).length
      by_cases hp : mapGet l.g n.key = none
      · have hp' : mapGet l.came n.key = none := by
          by_contra hx
          exact ((h.came_iff _).mp hx).1 hp
        rw [mapSet_length_new _ _ _ hp, mapSet_length_new _ _ _ hp']
        have := h.came_len
        omega
      · have hp' : mapGet l.came n.key ≠ none := (h.came_iff _).mpr ⟨hp, hnk⟩
        rw [mapSet_length_old _ _ _ hp, mapSet_length_old _ _ _ hp']
        exact h.came_len
    · intro k hk
      by_cases hkn : k = n.key
      · subst hkn
        exact Or.inr hm.2
      · rw [hgetne k hkn] at hk
        exact h.g_univ k hk
  · intro k hk
    have hkn : k ≠ n.key := fun e => hns (e ▸ hk)
    exact hgetne k hkn
  · unfold ameasure
    have hn : n.key ∈ univF w := mem_univF w _ (Or.inr hm.2)
    have hlt : gv + 1 < gcost w l.g n.key := by
      unfold gcost
      cases hgn : mapGet l.g n.key with
      | none => simp only; omega
      | some gn => simp only; exact hold gn hgn
    have := gcost_sum_lt w l.g n.key (gv + 1) hn hlt
    have hl := hpush.length_eq
    simp only [List.length_cons] at hl
    show Finset.sum (univF w) (gcost w (mapSet l.g n.key (gv + 1))) +
      (PriorityQueue.push cmpF l.pq
        ⟨n.y, n.x, ((gv + 1 : Nat) : Int) + manhattan n w.goal⟩).length ≤ _
    rw [hl]
    omega

end Maze

namespace Maze

/-! ## A*: one round of the `while` loop -/

theorem astar_fold {w : World} {C : List Key} (v : Pos) (gv : Nat) :
    ∀ (ns : List Pos) (l : AstarLocals), AInv w C l → v.key ∈ l.seen →
      mapGet l.g v.key = some gv → (∀ n ∈ ns, Move w v.key n.key) →
      AInv w C (ns.foldl (astarVisit w v) l) ∧
      (ns.foldl (astarVisit w v) l).seen = l.seen ∧
      (∀ n ∈ ns, ∃ gn, mapGet (ns.foldl (astarVisit w v) l).g n.key = some gn ∧ gn ≤ gv + 1) ∧
      (∀ k gk, mapGet l.g k = some gk →
        ∃ gk', mapGet (ns.foldl (astarVisit w v) l).g k = some gk' ∧ gk' ≤ gk) ∧
      (∀ k ∈ l.seen, mapGet (ns.foldl (astarVisit w v) l).g k = mapGet l.g k) ∧
      ameasure w (ns.foldl (astarVisit w v) l) ≤ ameasure w l := by
  intro ns
  induction ns with
  | nil =>
    intro l h _ _ _
    exact ⟨h, rfl, by simp, fun k gk hk => ⟨gk, hk, le_refl _⟩, fun _ _ => rfl, le_refl _⟩
  | cons n ns ih =>
    intro l h hv hgv hmv
    obtain ⟨a1, a2, a3, a4, a5, a6⟩ :=
      astar_visit v n gv h hv hgv (hmv n (List.mem_cons_self _ _))
    have hv' : v.key ∈ (astarVisit w v l n).seen := by rw [a2]; exact hv
    have hgv' : mapGet (astarVisit w v l n).g v.key = some gv := by rw [a5 _ hv]; exact hgv
    obtain ⟨b1, b2, b3, b4, b5, b6⟩ :=
      ih (astarVisit w v l n) a1 hv' hgv' (fun m hm => hmv m (List.mem_cons_of_mem _ hm))
    simp only [List.foldl_cons]
    refine ⟨b1, b2.trans a2, ?_, ?_, ?_, le_trans b6 a6⟩
    · intro m hm
      rcases List.mem_cons.mp hm with rfl | hm
      · obtain ⟨gn, h1, h2⟩ := a3
        obtain ⟨gn', h3, h4⟩ := b4 _ gn h1
        exact ⟨gn', h3, by omega⟩
      · exact b3 m hm
    · intro k gk hk
      obtain ⟨gk1, h1, h2⟩ := a4 k gk hk
      obtain ⟨gk2, h3, h4⟩ := b4 k gk1 h1
      exact ⟨gk2, h3, by omega⟩
    · intro k hk
      rw [b5 k (by rw [a2]; exact hk), a5 k hk]

theorem astar_init_inv (w : World) : AInv w (astarInit w).seen (astarInit w) := by
  have hpq : (astarInit w).pq = [⟨w.start.y, w.start.x, manhattan w.start w.goal⟩] := rfl
  have hg : ∀ k, mapGet (astarInit w).g k = if w.skey = k then some 0 else none := by
    intro k
    simp [astarInit, mapGet, World.skey]
  refine
    { g_start := by rw [hg]; simp
      came_iff := ?_
      came_ok := fun k v hkv => by simp [astarInit, mapGet] at hkv
      g_walk := ?_
      opened := ?_
      closed_sub := fun k hk => hk
      closed_nb := fun k hk => by simp [astarInit] at hk
      seen_g := fun k hk => by simp [astarInit] at hk
      opt := fun k hk => by simp [astarInit] at hk
      heap := ?_
      pq_ok := ?_
      g_bound := ?_
      came_len := rfl
      g_nodup := by simp [astarInit]
      g_univ := ?_
      goal_open := by simp [astarInit] }
  · intro k
    rw [hg]
    by_cases hk : w.skey = k
    · subst hk
      simp [astarInit, mapGet]
    · simp [astarInit, mapGet, hk]
  · intro k gk hk
    rw [hg] at hk
    by_cases hks : w.skey = k
    · subst hks
      simp only [if_true, Option.some.injEq] at hk
      subst hk
      exact Walk.nil
    · simp [hks] at hk
  · intro k gk hk
    rw [hg] at hk
    by_cases hks : w.skey = k
    · subst hks
      simp only [if_true, Option.some.injEq] at hk
      subst hk
      right
      rw [hpq]
      exact ⟨_, List.mem_singleton.mpr rfl, rfl, by simp [hkey, World.skey, key, Pos.ofKey]⟩
    · simp [hks] at hk
  · rw [hpq]
    intro j x y hj hx _
    have : ([⟨w.start.y, w.start.x, manhattan w.start w.goal⟩] : List FNode)[j]? = none := by
      apply List.getElem?_eq_none
      simp only [List.length_singleton]
      omega
    rw [this] at hx
    cases hx
  · rw [hpq]
    intro e he
    rw [List.mem_singleton] at he
    subst he
    refine ⟨0, ?_, ?_⟩
    · rw [hg]
      simp [World.skey, FNode.pos, Pos.key]
    · simp [hkey, FNode.pos, Pos.key, key, Pos.ofKey]
  · intro k gk hk
    rw [hg] at hk
    by_cases hks : w.skey = k
    · simp only [hks, if_true, Option.some.injEq] at hk
      subst hk
      simp [astarInit]
    · simp [hks] at hk
  · intro k hk
    rw [hg] at hk
    by_cases hks : w.skey = k
    · exact Or.inl hks.symm
    · simp [hks] at hk

end Maze

namespace Maze

/-- Dropping the popped entry keeps the invariant when its key is in `seen`. -/
theorem astar_after_pop {w : World} {l : AstarLocals} (h : AInv w l.seen l) (v : FNode)
    (rest : List FNode) (hpop : PriorityQueue.pop cmpF l.pq = (some v, rest))
    (hperm : l.pq.Perm (v :: rest)) (seen' : List Key) (hsub : ∀ k ∈ l.seen, k ∈ seen')
    (hvs : v.pos.key ∈ seen') (hg : ∀ k ∈ seen', mapGet l.g k ≠ none)
    (hopt : ∀ k ∈ seen', ∀ gk, mapGet l.g k = some gk → ∀ m, Walk w w.skey k m → gk ≤ m)
    (hgo : w.gkey ∉ seen') :
    AInv w l.seen { l with pq := rest, seen := seen' } :=
  { g_start := h.g_start
    came_iff := h.came_iff
    came_ok := h.came_ok
    g_walk := h.g_walk
    opened := fun k gk hk => by
      rcases h.opened k gk hk with hs | ⟨e, he, h1, h2⟩
      · exact Or.inl (hsub k hs)
      · rcases List.mem_cons.mp (hperm.mem_iff.mp he) with rfl | he'
        · exact Or.inl (h1 ▸ hvs)
        · exact Or.inr ⟨e, he', h1, h2⟩
    closed_sub := hsub
    closed_nb := h.closed_nb
    seen_g := hg
    opt := hopt
    heap := by
      have := PriorityQueue.pop_heap PriorityQueue.cmpF_total l.pq h.heap
      rw [hpop] at this
      exact this
    pq_ok := fun e he => h.pq_ok e (hperm.mem_iff.mpr (List.mem_cons_of_mem _ he))
    g_bound := h.g_bound
    came_len := h.came_len
    g_nodup := h.g_nodup
    g_univ := h.g_univ
    goal_open := hgo }

theorem astar_step (w : World) (l : AstarLocals) (h : AInv w l.seen l) :
    ((astarIter w l).2.done = true ∧ FinalOK w true (astarIter w l).2) ∨
    ((astarIter w l).2.done = false ∧ ∃ l', (astarIter w l).1 = .astar l' ∧
      AInv w l'.seen l' ∧ ameasure w l' < ameasure w l) := by
  by_cases hne : l.pq = []
  · left
    have e : astarIter w l =
        (.finished, ⟨some { came := none, closed := some l.seen }, true⟩) := by
      simp [astarIter, hne, PriorityQueue.pop]
    rw [e]
    refine ⟨rfl, rfl, Or.inl ⟨?_, l.seen, ?_, rfl⟩⟩
    · rintro ⟨m, hw⟩
      rcases astar_walk_bound h _ _ hw with ⟨hs, -⟩ | ⟨e, he, -⟩
      · exact h.goal_open hs
      · rw [hne] at he
        simp at he
    · rcases h.opened _ _ h.g_start with hs | ⟨e, he, -⟩
      · exact List.ne_nil_of_mem hs
      · rw [hne] at he
        simp at he
  obtain ⟨v, rest, hpop, -, hperm⟩ := PriorityQueue.pop_perm cmpF l.pq hne
  have hvin : v ∈ l.pq := hperm.mem_iff.mpr (List.mem_cons_self _ _)
  have hlen : l.pq.length = rest.length + 1 := by
    have := hperm.length_eq
    simpa using this
  by_cases hstale : v.pos.key ∈ l.seen
  · right
    have hst : setHas l.seen (key v.y v.x) = true := (setHas_iff _ _).mpr hstale
    have e : astarIter w l =
        (.astar { l with pq := rest },
          ⟨some { frontier := some (rest.map FNode.pos), closed := some l.seen,
                  came := some l.came }, false⟩) := by
      simp only [astarIter, hpop]
      rw [if_pos hst]
    rw [e]
    refine ⟨rfl, _, rfl, ?_, ?_⟩
    · exact astar_after_pop h v rest hpop hperm l.seen (fun _ hk => hk) hstale h.seen_g h.opt
        h.goal_open
    · show Finset.sum (univF w) (gcost w l.g) + rest.length <
        Finset.sum (univF w) (gcost w l.g) + l.pq.length
      omega
  · have hst : ¬ setHas l.seen (key v.y v.x) = true := fun hx => hstale ((setHas_iff _ _).mp hx)
    obtain ⟨gv, hgv, hoptv⟩ := astar_pop_opt h v rest hpop hstale
    by_cases hg : v.y = w.goal.y ∧ v.x = w.goal.x
    · left
      have hvk : v.pos.key = w.gkey := (goal_test_iff w v.y v.x).mp hg
      have e : astarIter w l = (.finished, ⟨some { came := some l.came }, true⟩) := by
        simp only [astarIter, hpop]
        rw [if_neg hst, if_pos hg]
      rw [e]
      rw [hvk] at hgv hoptv
      obtain ⟨p, hp, hplen⟩ := routeOK_of_chain w l.came
        (fun k => ∃ gk, mapGet l.g k = some gk ∧ ∀ m, Walk w w.skey k m → gk ≤ m)
        (fun k => (mapGet l.g k).getD 0)
        (by
          rintro k u ⟨gk, hgk, hoptk⟩ hku
          obtain ⟨gk', gu, h1, h2, h3, h4⟩ := h.came_ok k u hku
          rw [hgk] at h1
          cases h1
          have hwu := h.g_walk u gu h2
          have := hoptk _ (Walk.snoc hwu h3)
          refine ⟨⟨gu, h2, ?_⟩, h3, ?_⟩
          · intro m hm
            have := hoptk _ (Walk.snoc hm h3)
            omega
          · show (mapGet l.g k).getD 0 = (mapGet l.g u).getD 0 + 1
            rw [hgk, h2]
            simp only [Option.getD_some]
            omega)
        (by
          rintro k ⟨gk, hgk, -⟩ hn
          by_contra hne'
          exact (h.came_iff k).mpr ⟨by rw [hgk]; simp, hne'⟩ hn)
        (by show (mapGet l.g w.skey).getD 0 = 0; rw [h.g_start]; rfl)
        ⟨gv, hgv, hoptv⟩
        (by
          show (mapGet l.g w.gkey).getD 0 ≤ l.came.length
          rw [hgv]
          simp only [Option.getD_some]
          have := h.g_bound _ _ hgv
          have := h.came_len
          omega)
      have hplen : p.length = (mapGet l.g w.gkey).getD 0 := hplen
      rw [hgv] at hplen
      simp only [Option.getD_some] at hplen
      refine ⟨rfl, rfl, Or.inr ⟨l.came, p, rfl, hp, ?_⟩⟩
      intro _
      refine ⟨hp.walk, ?_⟩
      intro m hm
      rw [hplen]
      exact hoptv m hm
    · right
      have hvk : v.pos.key ≠ w.gkey := fun e => hg ((goal_test_iff w v.y v.x).mpr e)
      have hadd : setAdd l.seen (key v.y v.x) = l.seen ++ [v.pos.key] := setAdd_new _ _ hstale
      have e : astarIter w l =
          (.astar ((neighbors w v.y v.x).foldl (astarVisit w v.pos)
              { l with pq := rest, seen := l.seen ++ [v.pos.key] }),
            ⟨some { frontier := some (((neighbors w v.y v.x).foldl (astarVisit w v.pos)
                      { l with pq := rest, seen := l.seen ++ [v.pos.key] }).pq.map FNode.pos),
                    closed := some ((neighbors w v.y v.x).foldl (astarVisit w v.pos)
                      { l with pq := rest, seen := l.seen ++ [v.pos.key] }).seen,
                    came := some ((neighbors w v.y v.x).foldl (astarVisit w v.pos)
                      { l with pq := rest, seen := l.seen ++ [v.pos.key] }).came },
              false⟩) := by
        simp only [astarIter, hpop]
        rw [if_neg hst, if_neg hg, hadd]
      rw [e]
      refine ⟨rfl, _, rfl, ?_⟩
      have h1 : AInv w l.seen { l with pq := rest, seen := l.seen ++ [v.pos.key] } := by
        apply astar_after_pop h v rest hpop hperm
        · intro k hk; exact List.mem_append_left _ hk
        · simp
        · intro k hk
          rcases List.mem_append.mp hk with hk | hk
          · exact h.seen_g k hk
          · simp only [List.mem_singleton] at hk
            subst hk
            rw [hgv]; simp
        · intro k hk gk hgk
          rcases List.mem_append.mp hk with hk | hk
          · exact h.opt k hk gk hgk
          · simp only [List.mem_singleton] at hk
            subst hk
            rw [hgv] at hgk
            cases hgk
            exact hoptv
        · intro hx
          rcases List.mem_append.mp hx with hx | hx
          · exact h.goal_open hx
          · simp only [List.mem_singleton] at hx
            exact hvk hx.symm
      obtain ⟨b1, b2, b3, b4, b5, b6⟩ :=
        astar_fold (w := w) (C := l.seen) v.pos gv (neighbors w v.y v.x)
          { l with pq := rest, seen := l.seen ++ [v.pos.key] } h1 (by simp) hgv
          (fun n hn => (mem_neighbors w v.y v.x n).mp hn)
      constructor
      · refine { b1 with closed_sub := fun k hk => hk, closed_nb := ?_ }
        intro k hk
        rw [b2] at hk
        rcases List.mem_append.mp hk with hk | hk
        · exact b1.closed_nb k hk
        · simp only [List.mem_singleton] at hk
          subst hk
          refine ⟨gv, ?_, ?_⟩
          · rw [b5 _ (by simp)]
            exact hgv
          · intro n hn
            have : Pos.ofKey n ∈ neighbors w v.y v.x := (mem_neighbors w v.y v.x _).mpr hn
            exact b3 _ this
      · refine lt_of_le_of_lt b6 ?_
        show Finset.sum (univF w) (gcost w l.g) + rest.length <
          Finset.sum (univF w) (gcost w l.g) + l.pq.length
        omega

theorem astar_drain (w : World) :
    ∃ n r, drain w n (generators .astar) = some r ∧ FinalOK w true r := by
  have h := drain_of_measure w (fun s => ∃ l, s = .astar l ∧ AInv w l.seen l)
    (fun s => match s with
      | .astar l => ameasure w l
      | _ => 0)
    (FinalOK w true) (by
      rintro s ⟨l, rfl, hl⟩
      rcases astar_step w l hl with h | ⟨hd, l', he, hi, hlt⟩
      · exact Or.inl h
      · refine Or.inr ⟨hd, ?_, ?_⟩
        · exact ⟨l', he, hi⟩
        · show (match (GenState.next w (.astar l)).1 with
            | .astar l => ameasure w l
            | _ => 0) < _
          have he' : (GenState.next w (.astar l)).1 = .astar l' := he
          rw [he']
          exact hlt)
    (.astar (astarInit w)) ⟨_, rfl, astar_init_inv w⟩
  obtain ⟨n, r, hn, hr⟩ := h
  exact ⟨n, r, by rw [generators, drain_fresh]; exact hn, hr⟩

end Maze

namespace Maze

/-! ## Generators and runners -/

theorem FinalOK.weaken {w : World} {opt : Bool} {r : IterResult} (h : FinalOK w opt r) :
    FinalOK w false r := by
  obtain ⟨hd, h | ⟨came, p, hv, hp, -⟩⟩ := h
  · exact ⟨hd, Or.inl h⟩
  · exact ⟨hd, Or.inr ⟨came, p, hv, hp, by simp⟩⟩

theorem gen_step (w : World) (s : GenState) (h : GenInv w s) :
    ((s.next w).2.done = true ∧ FinalOK w false (s.next w).2) ∨
    ((s.next w).2.done = false ∧ GenInv w (s.next w).1) := by
  have hb : ∀ l, BfsInv w l →
      ((bfsIter w l).2.done = true ∧ FinalOK w false (bfsIter w l).2) ∨
      ((bfsIter w l).2.done = false ∧ GenInv w (bfsIter w l).1) := by
    intro l hl
    rcases bfs_step w l hl with ⟨h1, h2⟩ | ⟨h1, l', h2, h3, -⟩
    · exact Or.inl ⟨h1, h2.weaken⟩
    · exact Or.inr ⟨h1, by rw [h2]; exact h3⟩
  have hd : ∀ l, DfsInv w l →
      ((dfsIter w l).2.done = true ∧ FinalOK w false (dfsIter w l).2) ∨
      ((dfsIter w l).2.done = false ∧ GenInv w (dfsIter w l).1) := by
    intro l hl
    rcases dfs_step w l hl with ⟨h1, h2⟩ | ⟨h1, l', h2, h3, -⟩
    · exact Or.inl ⟨h1, h2⟩
    · exact Or.inr ⟨h1, by rw [h2]; exact h3⟩
  have hg : ∀ l, GreedyInv w l →
      ((greedyIter w l).2.done = true ∧ FinalOK w false (greedyIter w l).2) ∨
      ((greedyIter w l).2.done = false ∧ GenInv w (greedyIter w l).1) := by
    intro l hl
    rcases greedy_step w l hl with ⟨h1, h2⟩ | ⟨h1, l', h2, h3, -⟩
    · exact Or.inl ⟨h1, h2⟩
    · exact Or.inr ⟨h1, by rw [h2]; exact h3⟩
  have ha : ∀ l, AInv w l.seen l →
      ((astarIter w l).2.done = true ∧ FinalOK w false (astarIter w l).2) ∨
      ((astarIter w l).2.done = false ∧ GenInv w (astarIter w l).1) := by
    intro l hl
    rcases astar_step w l hl with ⟨h1, h2⟩ | ⟨h1, l', h2, h3, -⟩
    · exact Or.inl ⟨h1, h2.weaken⟩
    · exact Or.inr ⟨h1, by rw [h2]; exact h3⟩
  cases s with
  | fresh k =>
    cases k with
    | bfs => exact hb _ (bfs_init_inv w)
    | dfs => exact hd _ (dfs_init_inv w)
    | greedy => exact hg _ (greedy_init_inv w)
    | astar => exact ha _ (astar_init_inv w)
  | bfs l => exact hb l h
  | dfs l => exact hd l h
  | greedy l => exact hg l h
  | astar l => exact ha l h
  | finished => exact absurd h (by simp [GenInv])

/-- The result of draining a generator does not depend on the number of calls allowed. -/
theorem drain_unique (w : World) (s : GenState) (n m : Nat) (r r' : IterResult)
    (h : drain w n s = some r) (h' : drain w m s = some r') : r = r' := by
  have h1 := drain_mono w n s r h (max n m) (le_max_left _ _)
  have h2 := drain_mono w m s r' h' (max n m) (le_max_right _ _)
  rw [h1] at h2
  exact Option.some.inj h2

/-- Every generator finishes, and with a correct result. -/
theorem gen_drain (w : World) (k : Kind) :
    ∃ n r, drain w n (generators k) = some r ∧ FinalOK w k.optimal r := by
  cases k with
  | bfs => exact bfs_drain w
  | dfs => exact dfs_drain w
  | greedy => exact greedy_drain w
  | astar => exact astar_drain w

/-- Whatever a generator finishes with is a correct result. -/
theorem gen_final (w : World) (k : Kind) (n : Nat) (r : IterResult)
    (h : drain w n (generators k) = some r) : FinalOK w k.optimal r := by
  obtain ⟨m, r', h1, h2⟩ := gen_drain w k
  rw [drain_unique w _ n m r r' h h1]
  exact h2

theorem rinv_new (w : World) (k : Kind) : RInv w (Runner.new k) :=
  Or.inl ⟨rfl, trivial, rfl⟩

theorem runner_step_inv (w : World) (r : Runner) (h : RInv w r) :
    ∃ r', Runner.step w r = some r' ∧ RInv w r' := by
  rcases h with ⟨hd, hg, hp⟩ | ⟨hd, hp⟩
  · unfold Runner.step
    simp only [hd, Bool.false_eq_true, if_false]
    rcases gen_step w r.iter hg with ⟨h1, -, h2⟩ | ⟨h1, h2⟩
    · simp only [h1, if_true]
      rcases h2 with ⟨-, seen, -, hv⟩ | ⟨came, p, hv, hroute, -⟩
      · rw [hv]
        exact ⟨_, rfl, Or.inr ⟨rfl, Or.inl rfl⟩⟩
      · rw [hv]
        have e : (some ({ came := some came } : Snapshot)).bind Snapshot.came = some came := rfl
        simp only [e, hroute.reconstruct, Option.map_some']
        exact ⟨_, rfl, Or.inr ⟨rfl, Or.inr ⟨came, p, rfl, hroute⟩⟩⟩
    · simp only [h1, Bool.false_eq_true, if_false]
      refine ⟨_, rfl, Or.inl ?_⟩
      cases hv : (r.iter.next w).2.value with
      | none => exact ⟨rfl, h2, hp⟩
      | some st => exact ⟨rfl, h2, hp⟩
  · exact ⟨r, by simp [Runner.step, hd], Or.inr ⟨hd, hp⟩⟩

/-- Stepping a fresh runner any number of times returns, and keeps the invariant. -/
theorem runner_steps_inv (w : World) : ∀ (n : Nat) (r : Runner), RInv w r →
    ∃ r', Runner.steps w n r = some r' ∧ RInv w r' := by
  intro n
  induction n with
  | zero => intro r h; exact ⟨r, rfl, h⟩
  | succ n ih =>
    intro r h
    obtain ⟨r1, h1, h2⟩ := runner_step_inv w r h
    obtain ⟨r2, h3, h4⟩ := ih r1 h2
    exact ⟨r2, by simp [Runner.steps, h1, h3], h4⟩

theorem step_done (w : World) (r : Runner) (h : r.done = true) : Runner.step w r = some r := by
  simp [Runner.step, h]

theorem steps_done (w : World) (r : Runner) (h : r.done = true) :
    ∀ n, Runner.steps w n r = some r := by
  intro n
  induction n with
  | zero => rfl
  | succ n ih => simp [Runner.steps, step_done w r h, ih]

end Maze

namespace Maze

/-! ## Helper facts for the claims -/

theorem shortest_unique {w : World} {d d' : Nat} (h : ShortestLen w d) (h' : ShortestLen w d') :
    d = d' :=
  le_antisymm (h.2 _ h'.1) (h'.2 _ h.1)

theorem isRoute_cells {w : World} : ∀ (l : List Key) (a : Key), List.Chain (Move w) a l →
    (∀ k ∈ l, Passable w k) ∧ List.Chain Adjacent a l := by
  intro l
  induction l with
  | nil => intro a _; exact ⟨by simp, List.Chain.nil⟩
  | cons b l ih =>
    intro a h
    rw [List.chain_cons] at h
    obtain ⟨h1, h2⟩ := ih b h.2
    refine ⟨?_, List.Chain.cons h.1.1 h2⟩
    intro k hk
    rcases List.mem_cons.mp hk with rfl | hk
    · exact h.1.2
    · exact h1 k hk

/-- A found result: the generator returned `{came}`. -/
theorem final_found_of_value {w : World} {opt : Bool} {came : List (Key × Key)}
    (h : FinalOK w opt ⟨some { came := some came }, true⟩) :
    ∃ p, RouteOK w came p ∧ (opt = true → ShortestLen w p.length) := by
  obtain ⟨-, ⟨-, seen, -, hv⟩ | ⟨came', p, hv, hp, ho⟩⟩ := h
  · simp at hv
  · simp only [Option.some.injEq, Snapshot.mk.injEq, true_and] at hv
    subst hv
    exact ⟨p, hp, ho⟩

theorem final_reachable {w : World} {opt : Bool} {r : IterResult} (h : FinalOK w opt r)
    (hr : Reachable w) :
    ∃ came p, r = ⟨some { came := some came }, true⟩ ∧ RouteOK w came p ∧
      (opt = true → ShortestLen w p.length) := by
  obtain ⟨hd, ⟨hn, -⟩ | ⟨came, p, hv, hp, ho⟩⟩ := h
  · exact absurd hr hn
  · refine ⟨came, p, ?_, hp, ho⟩
    obtain ⟨v, d⟩ := r
    simp only at hd hv
    rw [hd, hv]

theorem final_unreachable {w : World} {opt : Bool} {r : IterResult} (h : FinalOK w opt r)
    (hr : ¬ Reachable w) :
    ∃ seen, seen ≠ [] ∧ r = ⟨some { came := none, closed := some seen }, true⟩ := by
  obtain ⟨hd, ⟨-, seen, hs, hv⟩ | ⟨came, p, -, hp, -⟩⟩ := h
  · refine ⟨seen, hs, ?_⟩
    obtain ⟨v, d⟩ := r
    simp only at hd hv
    rw [hd, hv]
  · exact absurd ⟨_, hp.walk⟩ hr

theorem RouteOK.start_not_mem {w : World} {came : List (Key × Key)} {p : List Pos}
    (h : RouteOK w came p) : w.start ∉ p := by
  intro hm
  have hnd := h.nodup
  unfold routeKeys at hnd
  rw [List.nodup_cons] at hnd
  exact hnd.1 (List.mem_map.mpr ⟨w.start, hm, rfl⟩)

theorem RouteOK.last_goal {w : World} {came : List (Key × Key)} {p : List Pos}
    (h : RouteOK w came p) : ∀ c ∈ p.getLast?, c = w.goal := by
  intro c hc
  have he := h.ends
  unfold routeEnd routeKeys at he
  rw [Option.mem_def, List.getLast?_eq_some_iff] at hc
  obtain ⟨ys, rfl⟩ := hc
  have : (w.skey :: List.map Pos.key (ys ++ [c])).getLast (by simp) = c.key := by
    simp
  rw [this] at he
  obtain ⟨cy, cx⟩ := c
  simp only [Pos.key, key, World.gkey, Prod.mk.injEq] at he
  obtain ⟨h1, h2⟩ := he
  cases hg : w.goal with
  | mk gy gx =>
    rw [hg] at h1 h2
    simp only at h1 h2
    rw [h1, h2]

theorem RouteOK.nil_iff {w : World} {came : List (Key × Key)} {p : List Pos}
    (h : RouteOK w came p) : p = [] ↔ w.skey = w.gkey := by
  constructor
  · rintro rfl
    have he := h.ends
    unfold routeEnd routeKeys at he
    simpa using he
  · intro hsg
    by_contra hne
    obtain ⟨ys, c, rfl⟩ : ∃ ys c, p = ys ++ [c] :=
      ⟨_, _, (List.dropLast_append_getLast hne).symm⟩
    have hc : c = w.goal := h.last_goal c (by simp)
    have hcs : c = w.start := by
      obtain ⟨cy, cx⟩ := c
      have e : (Pos.mk cy cx).key = w.skey := by rw [hc, hsg]; rfl
      simp only [Pos.key, key, World.skey, Prod.mk.injEq] at e
      cases hst : w.start with
      | mk sy sx =>
        rw [hst] at e
        simp only at e
        rw [e.1, e.2]
    exact h.start_not_mem (hcs ▸ by simp)

end Maze

namespace Maze

/-! ## The first step of a runner -/

theorem head_setAdd (s : List Key) (k a : Key) (h : s.head? = some a) :
    (setAdd s k).head? = some a := by
  unfold setAdd
  split
  · exact h
  · cases s with
    | nil => simp at h
    | cons b s => simpa using h

theorem bfsVisit_head (v : Pos) (l : BfsLocals) (n : Pos) (a : Key)
    (h : l.seen.head? = some a) : (bfsVisit v l n).seen.head? = some a := by
  unfold bfsVisit
  simp only
  split
  · exact head_setAdd _ _ _ h
  · exact h

theorem dfsVisit_head (v : Pos) (l : DfsLocals) (n : Pos) (a : Key)
    (h : l.seen.head? = some a) : (dfsVisit v l n).seen.head? = some a := by
  unfold dfsVisit
  simp only
  split
  · exact head_setAdd _ _ _ h
  · exact h

theorem greedyVisit_head (w : World) (v : Pos) (l : GreedyLocals) (n : Pos) (a : Key)
    (h : l.seen.head? = some a) : (greedyVisit w v l n).seen.head? = some a := by
  unfold greedyVisit
  simp only
  split
  · exact head_setAdd _ _ _ h
  · exact h

theorem astarVisit_head (w : World) (v : Pos) (l : AstarLocals) (n : Pos) (a : Key)
    (h : l.seen.head? = some a) : (astarVisit w v l n).seen.head? = some a := by
  unfold astarVisit
  simp only
  split
  · exact h
  · exact h

theorem greedy_first_pop (w : World) :
    PriorityQueue.pop cmpH (greedyInit w).pq =
      (some ⟨w.start.y, w.start.x, manhattan w.start w.goal⟩, []) := rfl

theorem astar_first_pop (w : World) :
    PriorityQueue.pop cmpF (astarInit w).pq =
      (some ⟨w.start.y, w.start.x, manhattan w.start w.goal⟩, []) := rfl

/-- The first call of `next()` when the start is the goal: the search returns an
empty `came` at once. -/
theorem next_first_goal (w : World) (k : Kind)
    (hg : w.start.y = w.goal.y ∧ w.start.x = w.goal.x) :
    (generators k).next w = (.finished, ⟨some { came := some [] }, true⟩) := by
  cases k with
  | bfs =>
    show bfsIter w (bfsInit w) = _
    simp only [bfsIter, bfsInit]
    rw [if_pos hg]
  | dfs =>
    show dfsIter w (dfsInit w) = _
    simp only [dfsIter, dfsInit, List.getLast?_singleton]
    rw [if_pos hg]
  | greedy =>
    show greedyIter w (greedyInit w) = _
    simp only [greedyIter, greedy_first_pop]
    rw [if_pos hg]
    rfl
  | astar =>
    show astarIter w (astarInit w) = _
    simp only [astarIter, astar_first_pop]
    rw [if_neg (by simp [astarInit, setHas]), if_pos hg]
    rfl

/-- The first call of `next()` when the start is not the goal: the search yields,
and the start key is the first visited key. -/
theorem next_first_other (w : World) (k : Kind)
    (hg : ¬ (w.start.y = w.goal.y ∧ w.start.x = w.goal.x)) :
    ∃ s fr seen came, (generators k).next w =
        (s, ⟨some { frontier := some fr, closed := some seen, came := some came }, false⟩) ∧
      seen.head? = some w.skey := by
  cases k with
  | bfs =>
    obtain ⟨l, hl⟩ : ∃ l, l = (neighbors w w.start.y w.start.x).foldl (bfsVisit w.start)
        ⟨[], [key w.start.y w.start.x], []⟩ := ⟨_, rfl⟩
    refine ⟨.bfs l, l.q, l.seen, l.came, ?_, ?_⟩
    · show bfsIter w (bfsInit w) = _
      simp only [bfsIter, bfsInit]
      rw [if_neg hg, hl]
    · rw [hl]
      exact foldl_pres (bfsVisit w.start) (fun l => l.seen.head? = some w.skey)
        (fun s n hP => bfsVisit_head _ s n _ hP) _ _ rfl
  | dfs =>
    obtain ⟨l, hl⟩ : ∃ l, l = (neighbors w w.start.y w.start.x).foldl (dfsVisit w.start)
        ⟨[], [key w.start.y w.start.x], []⟩ := ⟨_, rfl⟩
    refine ⟨.dfs l, l.st, l.seen, l.came, ?_, ?_⟩
    · show dfsIter w (dfsInit w) = _
      simp only [dfsIter, dfsInit, List.getLast?_singleton]
      rw [if_neg hg, hl]
      rfl
    · rw [hl]
      exact foldl_pres (dfsVisit w.start) (fun l => l.seen.head? = some w.skey)
        (fun s n hP => dfsVisit_head _ s n _ hP) _ _ rfl
  | greedy =>
    obtain ⟨l, hl⟩ : ∃ l, l = (neighbors w w.start.y w.start.x).foldl
        (greedyVisit w (HNode.pos ⟨w.start.y, w.start.x, manhattan w.start w.goal⟩))
        ⟨[], [key w.start.y w.start.x], []⟩ := ⟨_, rfl⟩
    refine ⟨.greedy l, l.pq.map HNode.pos, l.seen, l.came, ?_, ?_⟩
    · show greedyIter w (greedyInit w) = _
      simp only [greedyIter, greedy_first_pop]
      rw [if_neg hg, hl]
      rfl
    · rw [hl]
      exact foldl_pres (greedyVisit w _) (fun l => l.seen.head? = some w.skey)
        (fun s n hP => greedyVisit_head w _ s n _ hP) _ _ rfl
  | astar =>
    obtain ⟨l, hl⟩ : ∃ l, l = (neighbors w w.start.y w.start.x).foldl
        (astarVisit w (FNode.pos ⟨w.start.y, w.start.x, manhattan w.start w.goal⟩))
        ⟨[(key w.start.y w.start.x, 0)], [], [], [key w.start.y w.start.x]⟩ := ⟨_, rfl⟩
    refine ⟨.astar l, l.pq.map FNode.pos, l.seen, l.came, ?_, ?_⟩
    · show astarIter w (astarInit w) = _
      simp only [astarIter, astar_first_pop]
      rw [if_neg (by simp [astarInit, setHas]), if_neg hg, hl]
      rfl
    · rw [hl]
      exact foldl_pres (astarVisit w _) (fun l => l.seen.head? = some w.skey)
        (fun s n hP => astarVisit_head w _ s n _ hP) _ _ rfl

theorem first_step (w : World) (k : Kind) :
    ∃ r, Runner.step w (Runner.new k) = some r ∧ r.kind = k ∧
      (if w.skey = w.gkey then r.done = true ∧ r.state.path = some []
       else r.done = false ∧ r.state.closed.head? = some w.skey) := by
  by_cases hg : w.start.y = w.goal.y ∧ w.start.x = w.goal.x
  · have hk : w.skey = w.gkey := (goal_test_iff w _ _).mp hg
    have e := next_first_goal w k hg
    refine ⟨{ kind := k, iter := .finished, done := true,
              state := { frontierArr := [], closed := [], came := [], path := some [] },
              expanded := 0 }, ?_, rfl, ?_⟩
    · unfold Runner.step
      simp only [Runner.new, Bool.false_eq_true, if_false, e]
      rfl
    · rw [if_pos hk]
      exact ⟨rfl, rfl⟩
  · have hk : ¬ w.skey = w.gkey := fun h => hg ((goal_test_iff w _ _).mpr h)
    obtain ⟨s, fr, seen, came, e, hh⟩ := next_first_other w k hg
    refine ⟨{ kind := k, iter := s, done := false,
              state := { frontierArr := fr, closed := seen, came := came, path := none },
              expanded := seen.length }, ?_, rfl, ?_⟩
    · unfold Runner.step
      simp only [Runner.new, Bool.false_eq_true, if_false, e]
      rfl
    · rw [if_neg hk]
      exact ⟨rfl, hh⟩

end Maze

namespace Maze

/-! ## The claims -/

/-- C1 (BFS optimality): when the goal is reachable from an in-bounds, passable start,
`bfsGen` run to completion returns `{came}` and `reconstruct(came, goal)` returns a path
whose length is the minimum number of moves from start to goal (so 0 when start is the
goal). -/
theorem bfs_path_is_shortest (w : World) (_hs : Passable w w.skey) (_hg : Passable w w.gkey)
    (hr : Reachable w) :
    ∃ n came p, drain w n (generators .bfs) = some ⟨some { came := some came }, true⟩ ∧
      reconstruct (came.length + 1) came w.goal = some p ∧ ShortestLen w p.length := by
  obtain ⟨n, r, hn, hf⟩ := bfs_drain w
  obtain ⟨came, p, rfl, hp, ho⟩ := final_reachable hf hr
  exact ⟨n, came, p, hn, hp.reconstruct, ho rfl⟩

theorem open5_reachable : Reachable open5 :=
  ⟨4, @Walk.snoc open5 (2, 0) (2, 3) (2, 4) 3
    (@Walk.snoc open5 (2, 0) (2, 2) (2, 3) 2
      (@Walk.snoc open5 (2, 0) (2, 1) (2, 2) 1
        (@Walk.snoc open5 (2, 0) (2, 0) (2, 1) 0 Walk.nil (by decide)) (by decide))
      (by decide)) (by decide)⟩

/-- Witness for C1 on the open 5 by 5 grid. -/
theorem bfs_path_is_shortest_witness :
    Passable open5 open5.skey ∧ Passable open5 open5.gkey ∧ Reachable open5 ∧
    ∃ n came p, drain open5 n (generators .bfs) = some ⟨some { came := some came }, true⟩ ∧
      reconstruct (came.length + 1) came open5.goal = some p ∧ ShortestLen open5 p.length :=
  ⟨by decide, by decide, open5_reachable,
    bfs_path_is_shortest open5 (by decide) (by decide) open5_reachable⟩

/-- C2 (A* optimality): on every grid, start and goal both `bfsGen` and `astarGen`
finish; A* returns a map `came` exactly when BFS does, and then the two reconstructed
paths have the same length. -/
theorem astar_matches_bfs (w : World) :
    ∃ nb na rb ra, drain w nb (generators .bfs) = some rb ∧
      drain w na (generators .astar) = some ra ∧
      (rb.value.bind Snapshot.came).isSome = (ra.value.bind Snapshot.came).isSome ∧
      ∀ cb ca, rb.value.bind Snapshot.came = some cb → ra.value.bind Snapshot.came = some ca →
        ∃ pb pa, reconstruct (cb.length + 1) cb w.goal = some pb ∧
          reconstruct (ca.length + 1) ca w.goal = some pa ∧ pa.length = pb.length := by
  obtain ⟨nb, rb, hb, hfb⟩ := bfs_drain w
  obtain ⟨na, ra, ha, hfa⟩ := astar_drain w
  refine ⟨nb, na, rb, ra, hb, ha, ?_⟩
  by_cases hr : Reachable w
  · obtain ⟨cb, pb, rfl, hpb, hob⟩ := final_reachable hfb hr
    obtain ⟨ca, pa, rfl, hpa, hoa⟩ := final_reachable hfa hr
    refine ⟨rfl, ?_⟩
    intro cb' ca' h1 h2
    simp only [Option.some_bind, Option.some.injEq] at h1 h2
    subst h1; subst h2
    exact ⟨pb, pa, hpb.reconstruct, hpa.reconstruct, shortest_unique (hoa rfl) (hob rfl)⟩
  · obtain ⟨sb, -, rfl⟩ := final_unreachable hfb hr
    obtain ⟨sa, -, rfl⟩ := final_unreachable hfa hr
    refine ⟨rfl, ?_⟩
    intro cb ca h1
    simp at h1

/-- C3, as amended: the path a runner records when it is done with a path is the route
from the cell after the start to the goal: every cell is entered by a move from the
one before it, the first from the start; the start itself is not in it; it is empty
exactly when the start is the goal, and otherwise its last cell is the goal. -/
theorem runner_path_is_route (w : World) (k : Kind) (n : Nat) (r : Runner) (p : List Pos)
    (h : Runner.steps w n (Runner.new k) = some r) (_hd : r.done = true)
    (hp : r.state.path = some p) :
    IsRoute w p ∧ w.start ∉ p ∧ (p = [] ↔ w.skey = w.gkey) ∧ ∀ c ∈ p.getLast?, c = w.goal := by
  obtain ⟨r', h1, h2⟩ := runner_steps_inv w n (Runner.new k) (rinv_new w k)
  rw [h] at h1
  cases h1
  rcases h2 with ⟨-, -, hn⟩ | ⟨-, hn | ⟨came, p', hp', hroute⟩⟩
  · rw [hn] at hp; cases hp
  · rw [hn] at hp; cases hp
  · rw [hp'] at hp
    cases hp
    exact ⟨hroute.route, hroute.start_not_mem, hroute.nil_iff, hroute.last_goal⟩

/-- Witness for the amended C3: the finished breadth-first runner on the open grid. -/
theorem runner_path_is_route_witness :
    Runner.steps open5 30 (Runner.new .bfs) = some open5Final ∧ open5Final.done = true ∧
    open5Final.state.path = some [⟨2, 1⟩, ⟨2, 2⟩, ⟨2, 3⟩, ⟨2, 4⟩] ∧
    (IsRoute open5 [⟨2, 1⟩, ⟨2, 2⟩, ⟨2, 3⟩, ⟨2, 4⟩] ∧
      open5.start ∉ ([⟨2, 1⟩, ⟨2, 2⟩, ⟨2, 3⟩, ⟨2, 4⟩] : List Pos) ∧
      (([⟨2, 1⟩, ⟨2, 2⟩, ⟨2, 3⟩, ⟨2, 4⟩] : List Pos) = [] ↔ open5.skey = open5.gkey) ∧
      ∀ c ∈ ([⟨2, 1⟩, ⟨2, 2⟩, ⟨2, 3⟩, ⟨2, 4⟩] : List Pos).getLast?, c = open5.goal) :=
  ⟨by decide, by decide, by decide,
    runner_path_is_route open5 .bfs 30 open5Final _ (by decide) (by decide) (by decide)⟩

/-- Counterexample to C3 as stated: on the open 5 by 5 grid the breadth-first runner
records the path `(2,1),(2,2),(2,3),(2,4)`, which does not begin with the start `(2,0)`. -/
theorem open5_path_omits_start :
    (Runner.steps open5 30 (Runner.new .bfs)).map (fun r => (r.done, r.state.path)) =
      some (true, some [⟨2, 1⟩, ⟨2, 2⟩, ⟨2, 3⟩, ⟨2, 4⟩]) ∧
    (Runner.steps open5 30 (Runner.new .bfs)).map (fun r => (r.done, r.state.path)) ≠
      some (true, some [⟨2, 0⟩, ⟨2, 1⟩, ⟨2, 2⟩, ⟨2, 3⟩, ⟨2, 4⟩]) := by
  constructor <;> decide

theorem wall5_shortest : ShortestLen wall5 8 := by
  have h := gen_final wall5 .bfs 40 ⟨some { came := some (cameOf wall5 .bfs 40) }, true⟩
    (by decide)
  obtain ⟨p, hp, ho⟩ := final_found_of_value h
  have h1 := hp.reconstruct
  have h2 : reconstruct ((cameOf wall5 .bfs 40).length + 1) (cameOf wall5 .bfs 40) wall5.goal =
      some [⟨1, 0⟩, ⟨0, 0⟩, ⟨0, 1⟩, ⟨0, 2⟩, ⟨0, 3⟩, ⟨1, 3⟩, ⟨2, 3⟩, ⟨2, 4⟩] := by decide
  rw [h1] at h2
  have h3 := ho rfl
  rw [Option.some.inj h2] at h3
  exact h3

/-- C4, as amended: on the 5 by 5 grid whose column 2 is blocked except at row 0, with
start `(2,0)` and goal `(2,4)`, the shortest path has 8 moves, and both the
breadth-first and the A* runner record a path of length 8. -/
theorem wall5_paths_have_length_eight :
    ShortestLen wall5 8 ∧
    ((Runner.steps wall5 40 (Runner.new .bfs)).bind fun r => r.state.path).map List.length =
      some 8 ∧
    ((Runner.steps wall5 40 (Runner.new .astar)).bind fun r => r.state.path).map List.length =
      some 8 :=
  ⟨wall5_shortest, by decide, by decide⟩

/-- Counterexample to C4 as stated: on that grid 6 is not the shortest path length, and
neither runner records a path of length 6. -/
theorem wall5_length_is_not_six :
    ¬ ShortestLen wall5 6 ∧
    ((Runner.steps wall5 40 (Runner.new .bfs)).bind fun r => r.state.path).map List.length ≠
      some 6 ∧
    ((Runner.steps wall5 40 (Runner.new .astar)).bind fun r => r.state.path).map List.length ≠
      some 6 :=
  ⟨fun h => absurd (shortest_unique h wall5_shortest) (by decide), by decide, by decide⟩

/-- C5 (reconstruction correctness): for each of the four searches, if it finishes
with a map `came`, then the backward walk of `reconstruct` from the goal stops at the
start key, within one round more than `came` has entries, having visited no key twice;
the returned path consists of in-bounds non-wall cells, consecutive cells are adjacent,
the first is adjacent to the start and the last cell reached is the goal. -/
theorem reconstruction_correct (w : World) (k : Kind) (n : Nat) (came : List (Key × Key))
    (h : drain w n (generators k) = some ⟨some { came := some came }, true⟩) :
    ∃ p, WalksBack w came p w.skey ∧ reconstruct (came.length + 1) came w.goal = some p ∧
      (routeKeys w p).Nodup ∧ routeEnd w p = w.gkey ∧ (∀ c ∈ p, Passable w c.key) ∧
      List.Chain Adjacent w.skey (p.map Pos.key) := by
  obtain ⟨p, hp, -⟩ := final_found_of_value (gen_final w k n _ h)
  obtain ⟨h1, h2⟩ := isRoute_cells _ _ hp.route
  refine ⟨p, hp.back, hp.reconstruct, hp.nodup, hp.ends, ?_, h2⟩
  intro c hc
  exact h1 _ (List.mem_map.mpr ⟨c, hc, rfl⟩)

/-- Witness for C5: the A* search on the grid with the blocked column. -/
theorem reconstruction_correct_witness :
    drain wall5 40 (generators .astar) =
      some ⟨some { came := some (cameOf wall5 .astar 40) }, true⟩ ∧
    ∃ p, WalksBack wall5 (cameOf wall5 .astar 40) p wall5.skey ∧
      reconstruct ((cameOf wall5 .astar 40).length + 1) (cameOf wall5 .astar 40) wall5.goal =
        some p ∧
      (routeKeys wall5 p).Nodup ∧ routeEnd wall5 p = wall5.gkey ∧
      (∀ c ∈ p, Passable wall5 c.key) ∧ List.Chain Adjacent wall5.skey (p.map Pos.key) :=
  ⟨by decide, reconstruction_correct wall5 .astar 40 _ (by decide)⟩

/-- C6 (termination and the no-path outcome): each of the four generators finishes
after finitely many calls of `next()`; it finishes with `{came: null, closed: seen}`
and a non-empty `seen` exactly when the goal is not reachable from the start, and with
a map `came` that yields a route from the start to the goal exactly when it is. -/
theorem search_terminates (w : World) (k : Kind) :
    ∃ n r, drain w n (generators k) = some r ∧ r.done = true ∧
      ((∃ seen, seen ≠ [] ∧ r.value = some { came := none, closed := some seen }) ↔
        ¬ Reachable w) ∧
      ((∃ came p, r.value = some { came := some came } ∧ RouteOK w came p) ↔ Reachable w) := by
  obtain ⟨n, r, hn, hf⟩ := gen_drain w k
  refine ⟨n, r, hn, hf.1, ?_⟩
  by_cases hr : Reachable w
  · obtain ⟨came, p, rfl, hp, -⟩ := final_reachable hf hr
    refine ⟨⟨?_, fun h => absurd hr h⟩, ⟨fun _ => hr, fun _ => ⟨came, p, rfl, hp⟩⟩⟩
    rintro ⟨seen, -, hv⟩
    simp at hv
  · obtain ⟨seen, hs, rfl⟩ := final_unreachable hf hr
    refine ⟨⟨fun _ => hr, fun _ => ⟨seen, hs, rfl⟩⟩, ⟨?_, fun h => absurd h hr⟩⟩
    rintro ⟨came, p, hv, -⟩
    simp at hv

/-- C7, as amended: constructing a runner checks nothing. For every grid, start and
goal, in bounds or not, and every kind, the constructor returns a runner that is not
done, with expansion count 0 and an empty snapshot; its first `step()` returns and runs
the search from the start: the runner is then done with the empty path if the start is
the goal, and otherwise not done with the start key as the first visited key. -/
theorem runner_new_unchecked (w : World) (k : Kind) :
    (Runner.new k).done = false ∧ (Runner.new k).expanded = 0 ∧
    (Runner.new k).state = ⟨[], [], [], none⟩ ∧
    ∃ r, Runner.step w (Runner.new k) = some r ∧ r.kind = k ∧
      (if w.skey = w.gkey then r.done = true ∧ r.state.path = some []
       else r.done = false ∧ r.state.closed.head? = some w.skey) :=
  ⟨rfl, rfl, rfl, first_step w k⟩

/-- Counterexample to C7 as stated: with the start `(-1,0)` outside a 2 by 2 grid, the
constructor returns a runner, and stepping it searches and finds the goal. -/
theorem oob_start_is_searched :
    ¬ InBounds oob2 oob2.skey ∧ (Runner.new .bfs).done = false ∧
    (Runner.steps oob2 4 (Runner.new .bfs)).map (fun r => (r.done, r.state.path)) =
      some (true, some [⟨0, 0⟩, ⟨0, 1⟩]) := by
  refine ⟨by decide, rfl, by decide⟩

/-- C8 (priority queue minimum): for a comparator that is a total preorder, after any
sequence of `push` and `pop` on an empty queue the backing array is in heap order;
`push` and `pop` keep heap order; `push` adds exactly the pushed entry; `pop` on the
empty queue returns `undefined`, and on a non-empty queue it returns an entry that no
held entry is strictly less than, removing exactly that entry. -/
theorem pq_pop_is_minimum {α : Type} (c : α → α → Int) (hc : TotalPreorderCmp c)
    (ops : List (PQOp α)) :
    IsHeap c (runOps c ops []) ∧
    (∀ v, IsHeap c (PriorityQueue.push c (runOps c ops []) v) ∧
      (PriorityQueue.push c (runOps c ops []) v).Perm (v :: runOps c ops [])) ∧
    IsHeap c (PriorityQueue.pop c (runOps c ops [])).2 ∧
    (runOps c ops [] = [] → PriorityQueue.pop c (runOps c ops []) = (none, [])) ∧
    (runOps c ops [] ≠ [] → ∃ top rest,
      PriorityQueue.pop c (runOps c ops []) = (some top, rest) ∧
      (runOps c ops []).Perm (top :: rest) ∧ ∀ e ∈ runOps c ops [], ¬ c e top < 0) := by
  have hh := PriorityQueue.runOps_heap hc ops [] (PriorityQueue.isHeap_nil c)
  refine ⟨hh, ?_, PriorityQueue.pop_heap hc _ hh, ?_, ?_⟩
  · intro v
    exact ⟨PriorityQueue.push_heap hc _ v hh, PriorityQueue.push_perm c _ v⟩
  · intro h
    rw [h]
    rfl
  · intro h
    obtain ⟨top, rest, hp, -, hperm⟩ := PriorityQueue.pop_perm c _ h
    exact ⟨top, rest, hp, hperm, PriorityQueue.pop_min hc _ hh top rest hp⟩

/-- Witness for C8: the comparator of the A* queue and four operations. -/
theorem pq_pop_is_minimum_witness :
    TotalPreorderCmp cmpF ∧
    IsHeap cmpF (runOps cmpF [.push ⟨0, 0, 3⟩, .push ⟨0, 1, 1⟩, .push ⟨1, 0, 2⟩, .pop] []) :=
  ⟨PriorityQueue.cmpF_total,
    (pq_pop_is_minimum cmpF PriorityQueue.cmpF_total
      [.push ⟨0, 0, 3⟩, .push ⟨0, 1, 1⟩, .push ⟨1, 0, 2⟩, .pop]).1⟩

/-- C9, as amended: if the start is in bounds and lies on a wall, then for each of the
four kinds the runner is, after any number of steps, the same as on the grid that
differs only in having the start cell empty. -/
theorem start_on_wall_is_passable (w : World) (k : Kind) (n : Nat)
    (hs : InBounds w w.skey) (_hw : w.type w.start.y.toNat w.start.x.toNat = CELL.WALL) :
    Runner.steps w n (Runner.new k) =
      Runner.steps (w.clear w.start.y.toNat w.start.x.toNat) n (Runner.new k) :=
  (steps_clear w hs n (Runner.new k) trivial).symm

/-- Witness for the amended C9: a row of three cells whose start cell is a wall. -/
theorem start_on_wall_is_passable_witness :
    InBounds startWall startWall.skey ∧
    startWall.type startWall.start.y.toNat startWall.start.x.toNat = CELL.WALL ∧
    Runner.steps startWall 5 (Runner.new .bfs) =
      Runner.steps (startWall.clear startWall.start.y.toNat startWall.start.x.toNat) 5
        (Runner.new .bfs) :=
  ⟨by decide, by decide, start_on_wall_is_passable startWall .bfs 5 (by decide) (by decide)⟩

/-- Counterexample to C9 as stated: with the goal on a wall the breadth-first runner
ends without a path, while on the grid with that one cell empty it records a path. -/
theorem goal_on_wall_is_not_passable :
    InBounds goalWall goalWall.gkey ∧
    goalWall.type goalWall.goal.y.toNat goalWall.goal.x.toNat = CELL.WALL ∧
    (Runner.steps goalWall 5 (Runner.new .bfs)).map (fun r => (r.done, r.state.path)) =
      some (true, none) ∧
    (Runner.steps (goalWall.clear goalWall.goal.y.toNat goalWall.goal.x.toNat) 5
        (Runner.new .bfs)).map (fun r => (r.done, r.state.path)) =
      some (true, some [⟨0, 1⟩]) := by
  refine ⟨by decide, by decide, by decide, by decide⟩

/-- C10 (idempotent step-after-done): on a runner that is done, any number of further
calls of `step()` return the runner unchanged: its done flag, expansion count,
snapshot, path and generator state stay as they are. -/
theorem step_after_done_is_noop (w : World) (r : Runner) (h : r.done = true) (n : Nat) :
    Runner.steps w n r = some r :=
  steps_done w r h n

/-- Witness for C10: the finished breadth-first runner on the open grid. -/
theorem step_after_done_is_noop_witness :
    open5Final.done = true ∧ Runner.steps open5 3 open5Final = some open5Final :=
  ⟨by decide, step_after_done_is_noop open5 open5Final (by decide) 3⟩

end Maze
